import Mathlib

/-!
# State-vector engine of the `qs` quantum-circuit simulator

A shallow embedding of `src/src/QubitSystem.cpp` and `src/src/Gates.cpp`.

Modelling conventions.

* `double` is idealised as an arbitrary linearly ordered field `K`; every definition is
  generic in `K` and therefore executable at `K = ℚ`.  `std::sqrt` is passed as a parameter
  `sqrt : K → K`; theorems that depend on its meaning assume `IsSqrt sqrt`, which `Real.sqrt`
  satisfies.
* `size_t` is `Nat`.  `1ULL << n` is `1 <<< n` and `i >> q` is `i >>> q`; a shift of a 64-bit
  value is defined for a count below 64 only, so the embedding follows the source for
  fewer than 64 qubits and qubit indices below 64.  `measureQubit`, which takes its index
  from a program line, returns `none` for an index of 64 or more.  The value `-1` returned
  through `size_t` is `2 ^ 64 - 1`.
* `int` is `Int` within the 32-bit range: `std::stoi` throws outside it and the overflow of
  a counter is undefined behaviour, and either makes the embedded operation return `none`.
* `std::vector` is `List`.  An access outside the vector is undefined behaviour in the source
  and makes the embedded operation return `none`.
* The random draw `dist(gen)` of the measurement routines is an explicit argument `r`.
* `std::string` is `List Char`; a position that may be `npos` is an `Option Nat`.  A thrown
  exception and a read of an uninitialised variable make the embedded operation return
  `none`.  Text written to the console is left out, but a call of `printState` is kept
  wherever it occurs because it can throw.
-/

namespace QS

/-! ## Complex amplitudes -/

/-- Modelled from the spec: `Types.hpp`, which declares `Complex`, is not among the sources.
The spec describes a complex amplitude as two real components (real, imaginary) with
addition, multiplication, conjugation and squared norm `real² + imag²`. -/
structure Complex (K : Type) where
  re : K
  im : K
deriving DecidableEq, Repr

variable {K : Type} [LinearOrderedField K]

instance : Zero (Complex K) := ⟨⟨0, 0⟩⟩

instance : One (Complex K) := ⟨⟨1, 0⟩⟩

instance : Add (Complex K) := ⟨fun a b => ⟨a.re + b.re, a.im + b.im⟩⟩

instance : Mul (Complex K) :=
  ⟨fun a b => ⟨a.re * b.re - a.im * b.im, a.re * b.im + a.im * b.re⟩⟩

/-- Squared magnitude, `std::norm`. -/
def Complex.norm (a : Complex K) : K := a.re * a.re + a.im * a.im

/-- Complex conjugate, `std::conj`. -/
def Complex.conj (a : Complex K) : Complex K := ⟨a.re, -a.im⟩

/-- Division of an amplitude by a real number, `amp /= norm`. -/
def Complex.divReal (a : Complex K) (x : K) : Complex K := ⟨a.re / x, a.im / x⟩

/-- Meaning assumed of the `std::sqrt` parameter: the non-negative root of a non-negative
number. -/
def IsSqrt (sqrt : K → K) : Prop := ∀ x : K, 0 ≤ x → 0 ≤ sqrt x ∧ sqrt x * sqrt x = x

/-! ## Gate library (`Gates.cpp`) -/

/-- The type `Gates::GateMatrix`, a vector of rows. -/
abbrev GateMatrix (K : Type) := List (List (Complex K))

/-- The matrix of `Gates::hadamard`. -/
def hadamard (sqrt : K → K) : GateMatrix K :=
  let s : K := 1 / sqrt 2
  [[⟨s, 0⟩, ⟨s, 0⟩],
   [⟨s, 0⟩, ⟨-s, 0⟩]]

/-- The matrix of `Gates::pauliX`. -/
def pauliX : GateMatrix K :=
  [[⟨0, 0⟩, ⟨1, 0⟩],
   [⟨1, 0⟩, ⟨0, 0⟩]]

/-- The matrix of `Gates::pauliZ`. -/
def pauliZ : GateMatrix K :=
  [[⟨1, 0⟩, ⟨0, 0⟩],
   [⟨0, 0⟩, ⟨-1, 0⟩]]

/-! ## The quantum system (`QubitSystem.hpp`, `QubitSystem.cpp`) -/

/-- The data members of `class QubitSystem`. -/
structure QubitSystem (K : Type) where
  nQubits : Nat
  state : List (Complex K)
  classicalBits : List Int
  lastMeasuredQubit0 : Int
  lastMeasuredQubit1 : Int

/-- The constructor `QubitSystem::QubitSystem(numQubits)`.  The shift `1ULL << numQubits`
is undefined for a count of 64 or more, so the definition follows the source for
`numQubits < 64` only. -/
def QubitSystem.new (numQubits : Nat) : QubitSystem K :=
  let dim := 1 <<< numQubits
  let state := List.replicate dim (⟨0, 0⟩ : Complex K)
  { nQubits := numQubits
    state := state.set 0 ⟨1, 0⟩
    classicalBits := []
    lastMeasuredQubit0 := -1
    lastMeasuredQubit1 := -1 }

/-- One iteration of the loop of `applyGate`: the two `+=` on `newState[i]`. -/
def applyGate.body (gate : GateMatrix K) (target : Nat) (state : List (Complex K))
    (newState : List (Complex K)) (i : Nat) : Option (List (Complex K)) := do
  let bit := (i >>> target) &&& 1
  let flipped := i ^^^ (1 <<< target)
  let row ← gate[bit]?
  let g0 ← row[0]?
  let g1 ← row[1]?
  let a ← state[i]?
  let b ← state[flipped]?
  let n0 ← newState[i]?
  let newState := newState.set i (n0 + g0 * a)
  let n1 ← newState[i]?
  pure (newState.set i (n1 + g1 * b))

/-- The method `QubitSystem::applyGate`. -/
def applyGate (gate : GateMatrix K) (target : Nat) (qs : QubitSystem K) :
    Option (QubitSystem K) := do
  let dim := 1 <<< qs.nQubits
  let newState ← (List.range dim).foldlM (applyGate.body gate target qs.state)
    (List.replicate dim (⟨0, 0⟩ : Complex K))
  pure { qs with state := newState }

/-- The call `std::swap(v[i], v[j])` on a vector. -/
def swapAt (v : List (Complex K)) (i j : Nat) : Option (List (Complex K)) := do
  let a ← v[i]?
  let b ← v[j]?
  pure ((v.set i b).set j a)

/-- One iteration of the loop of `applyCNOT`. -/
def applyCNOT.body (control target : Nat) (newState : List (Complex K)) (i : Nat) :
    Option (List (Complex K)) :=
  let controlBit := (i >>> control) &&& 1
  if controlBit ≠ 0 then
    let flipped := i ^^^ (1 <<< target)
    swapAt newState i flipped
  else
    pure newState

/-- The method `QubitSystem::applyCNOT`. -/
def applyCNOT (control target : Nat) (qs : QubitSystem K) : Option (QubitSystem K) := do
  let dim := 1 <<< qs.nQubits
  let newState ← (List.range dim).foldlM (applyCNOT.body control target) qs.state
  pure { qs with state := newState }

/-- The first loop of `measure`: scans the amplitudes from index `i` on with the running
`cumulative`, and yields the index at which the loop breaks.  When the loop ends without a
break, `result` still holds its initial value `0`. -/
def measure.scan (r : K) : List (Complex K) → Nat → K → Nat
  | [], _, _ => 0
  | amp :: rest, i, cumulative =>
    let cumulative := cumulative + amp.norm
    if r < cumulative then i else measure.scan r rest (i + 1) cumulative

/-- The method `QubitSystem::measure`, with the random draw `r` made explicit. -/
def measure (r : K) (qs : QubitSystem K) : Nat × QubitSystem K :=
  let result := measure.scan r qs.state 0 0
  let state := (List.range qs.state.length).map
    (fun i => if i = result then (⟨1, 0⟩ : Complex K) else ⟨0, 0⟩)
  (result, { qs with state := state })

/-- One iteration of the first loop of `measureQubit`, accumulating `p0`.  The shift
`i >> qubitIndex` of a 64-bit `size_t` is undefined for a count of 64 or more, which makes
the operation return `none`. -/
def measureQubit.p0Body (qubitIndex : Nat) (state : List (Complex K)) (p0 : K) (i : Nat) :
    Option K :=
  if qubitIndex < 64 then
    if (i >>> qubitIndex) &&& 1 = 0 then do
      let amp ← state[i]?
      pure (p0 + amp.norm)
    else
      pure p0
  else
    none

/-- One iteration of the second loop of `measureQubit`, zeroing the amplitudes whose bit
disagrees with the outcome.  As in the first loop, a shift count of 64 or more is undefined
and makes the operation return `none`. -/
def measureQubit.zeroBody (qubitIndex : Nat) (outcome : Int) (state : List (Complex K))
    (i : Nat) : Option (List (Complex K)) :=
  if qubitIndex < 64 then
    let bit : Int := (((i >>> qubitIndex) &&& 1 : Nat) : Int)
    if bit ≠ outcome then
      if i < state.length then pure (state.set i ⟨0, 0⟩) else none
    else
      pure state
  else
    none

/-- The method `QubitSystem::measureQubit`, with the random draw `r` made explicit.  The
failure branch returns `-1` converted to `size_t` and leaves the zeroed state behind. -/
def measureQubit (sqrt : K → K) (qubitIndex : Nat) (r : K) (qs : QubitSystem K) :
    Option (Nat × QubitSystem K) := do
  let dim := 1 <<< qs.nQubits
  let p0 ← (List.range dim).foldlM (measureQubit.p0Body qubitIndex qs.state) (0 : K)
  let outcome : Int := if r < p0 then 0 else 1
  let state ← (List.range dim).foldlM (measureQubit.zeroBody qubitIndex outcome) qs.state
  let norm := sqrt (state.foldl (fun acc amp => acc + amp.norm) 0)
  if norm < 1e-10 then
    pure (2 ^ 64 - 1, { qs with state := state })
  else
    let state := state.map (fun amp => amp.divReal norm)
    pure (outcome.toNat,
      { qs with
        state := state
        lastMeasuredQubit0 := if qubitIndex = 0 then outcome else qs.lastMeasuredQubit0
        lastMeasuredQubit1 := if qubitIndex = 1 then outcome else qs.lastMeasuredQubit1 })

/-- One iteration of the loop of `getQubitState`, on the pair `(amp0, amp1)`.  The index `i`
is below `state.size()`, so the read is inside the vector.  The shift `i >> index` of a
64-bit `size_t` is undefined for a count of 64 or more, so the definition follows the
source for `index < 64` only. -/
def getQubitState.body (index : Nat) (state : List (Complex K))
    (amps : Complex K × Complex K) (i : Nat) : Complex K × Complex K :=
  let bit := (i >>> index) &&& 1
  if bit = 0 then (amps.1 + state.getD i 0, amps.2) else (amps.1, amps.2 + state.getD i 0)

/-- The method `QubitSystem::getQubitState`. -/
def getQubitState (sqrt : K → K) (index : Nat) (qs : QubitSystem K) : List (Complex K) :=
  let amps := (List.range qs.state.length).foldl (getQubitState.body index qs.state)
    ((⟨0, 0⟩ : Complex K), (⟨0, 0⟩ : Complex K))
  let norm := sqrt (amps.1.norm + amps.2.norm)
  if norm < 1e-8 then
    [⟨1, 0⟩, ⟨0, 0⟩]
  else
    [amps.1.divReal norm, amps.2.divReal norm]

/-- The method `QubitSystem::fidelityWith`.  The loop runs over two vectors of equal size. -/
def fidelityWith (sqrt : K → K) (expected : List (Complex K)) (qubitIndex : Nat)
    (qs : QubitSystem K) : K :=
  let actual := getQubitState sqrt qubitIndex qs
  if actual.length ≠ expected.length then 0
  else
    let inner := (List.zip expected actual).foldl
      (fun inner ea => inner + ea.1.conj * ea.2) (⟨0, 0⟩ : Complex K)
    inner.norm

/-! ## Strings

`std::string` is a list of characters.  A position that may be `std::string::npos` is an
`Option Nat` with `none` for `npos`; strings are shorter than `2 ^ 64` characters, so a
count that is `npos` or has wrapped around below zero reaches the end of the string. -/

/-- Search of `pat` in the remainder `s` of a string, `i` being the position of the head of
`s` in the whole string. -/
def findFrom (pat : List Char) : List Char → Nat → Option Nat
  | [], i => if pat = [] then some i else none
  | c :: rest, i => if pat.isPrefixOf (c :: rest) then some i else findFrom pat rest (i + 1)

/-- The call `s.find(pat, pos)`; `none` is `npos`. -/
def find (s pat : List Char) (pos : Nat) : Option Nat :=
  if pos ≤ s.length then findFrom pat (s.drop pos) pos else none

/-- The call `s.find(pat, pos)` when `pos` itself may be `npos`. -/
def findAt (s pat : List Char) (pos : Option Nat) : Option Nat :=
  match pos with
  | some p => find s pat p
  | none => none

/-- The sum `p + 1` in `size_t`, where `npos + 1` wraps around to `0`. -/
def posSucc (p : Option Nat) : Nat :=
  match p with
  | some i => i + 1
  | none => 0

/-- The difference `q2 - q1` in `size_t`, used as a character count: `none` is a count that
reaches the end of the string (`q2` is `npos`, or the difference wrapped around). -/
def posSub (q2 : Option Nat) (q1 : Nat) : Option Nat :=
  match q2 with
  | some p => if q1 ≤ p then some (p - q1) else none
  | none => none

/-- The call `s.substr(pos, count)`; the result `none` is the exception
`std::out_of_range`. -/
def substr (s : List Char) (pos : Nat) (count : Option Nat) : Option (List Char) :=
  if pos ≤ s.length then
    match count with
    | some n => some ((s.drop pos).take n)
    | none => some (s.drop pos)
  else
    none

/-- Membership in the character set `" \t\r\n"` of the trimming calls. -/
def isBlank (c : Char) : Bool := c = ' ' || c = '\t' || c = '\r' || c = '\n'

/-- The classification `std::isspace` of the classic locale, used by `operator>>`. -/
def isspace (c : Char) : Bool :=
  c = ' ' || c = '\t' || c = '\n' || c = '\x0b' || c = '\x0c' || c = '\r'

/-- Value of a run of decimal digits. -/
def decimalValue (ds : List Char) : Nat :=
  ds.foldl (fun v c => 10 * v + (c.toNat - '0'.toNat)) 0

/-- The string `std::bitset<width>(value).to_string()`: the low `width` bits of `value`,
most significant first. -/
def bitsetToString (width value : Nat) : List Char :=
  (List.range width).reverse.map (fun k => if value.testBit k then '1' else '0')

/-! ## Measurement strings, shots, printing and export -/

/-- The method `QubitSystem::measureAll`, with the random draw `r` made explicit.  The
position `64 - nQubits` wraps around above `64` qubits and `substr` then throws. -/
def measureAll (r : K) (qs : QubitSystem K) : Option (List Char × QubitSystem K) := do
  let (resultIndex, qs) := measure r qs
  let binary := bitsetToString 64 resultIndex
  let str ← if qs.nQubits ≤ 64 then substr binary (64 - qs.nQubits) none else none
  pure (str, qs)

/-- The statement `counts[result]++` on a `std::map<std::string, int>`, kept as a list of
entries in increasing key order.  The counter is a 32-bit `int`: incrementing its largest
value `2 ^ 31 - 1` is a signed overflow, which is undefined behaviour and makes the
operation return `none`. -/
def mapIncrement (key : List Char) :
    List (List Char × Int) → Option (List (List Char × Int))
  | [] => some [(key, 0 + 1)]
  | (k, v) :: rest =>
    if key = k then
      if v < 2 ^ 31 - 1 then some ((k, v + 1) :: rest) else none
    else if key < k then some ((key, 0 + 1) :: (k, v) :: rest)
    else (mapIncrement key rest).map (fun rest => (k, v) :: rest)

/-- The method `QubitSystem::runShots`; `draws i` is the random draw of shot `i`.  The pair
carried through the loop is `counts` and the object `*this`. -/
def runShots (draws : Nat → K) (shots : Nat) (qs : QubitSystem K) :
    Option (List (List Char × Int) × QubitSystem K) :=
  (List.range shots).foldlM
    (fun (acc : List (List Char × Int) × QubitSystem K) i => do
      let copy := acc.2
      let (result, _) ← measureAll (draws i) copy
      let counts ← mapIncrement result acc.1
      pure (counts, acc.2))
    ([], qs)

/-- The method `QubitSystem::printState`: the label and the amplitude of each printed line.
The position `16 - nQubits` wraps around above `16` qubits and `substr` then throws. -/
def printState (qs : QubitSystem K) : Option (List (List Char × Complex K)) :=
  (List.range qs.state.length).mapM (fun i => do
    let binary ← if qs.nQubits ≤ 16 then substr (bitsetToString 16 i) (16 - qs.nQubits) none
      else none
    let binary := binary.reverse
    pure (binary, qs.state.getD i 0))

/-- The method `QubitSystem::exportStateJSON`: the key and the two numbers of each entry, in
index order; the rendering of the numbers as text is left out. -/
def exportStateJSON (qs : QubitSystem K) : Option (List (List Char × K × K)) :=
  (List.range qs.state.length).mapM (fun i => do
    let binary ← if qs.nQubits ≤ 64 then substr (bitsetToString 64 i) (64 - qs.nQubits) none
      else none
    pure (binary, (qs.state.getD i 0).re, (qs.state.getD i 0).im))

/-- The method `QubitSystem::exportStateCSV`: the key and the two numbers of each row, in
index order; the rendering of the numbers as text is left out. -/
def exportStateCSV (qs : QubitSystem K) : Option (List (List Char × K × K)) :=
  (List.range qs.state.length).mapM (fun i => do
    let binary ← if qs.nQubits ≤ 64 then substr (bitsetToString 64 i) (64 - qs.nQubits) none
      else none
    pure (binary, (qs.state.getD i 0).re, (qs.state.getD i 0).im))

/-! ## Circuit interpreter -/

/-- The normalisation at the head of `parseQASMLine`: the comment is cut off, every
semicolon removed, and blanks trimmed at both ends.  The call
`erase(0, find_first_not_of(set))` drops the leading characters of the set, and
`erase(find_last_not_of(set) + 1)` the trailing ones (all of them when nothing else is
left, `npos + 1` being `0`). -/
def parseQASMLine.cleaned (line : List Char) : List Char :=
  let cleaned := line
  let cleaned :=
    match find cleaned ['/', '/'] 0 with
    | some comment => cleaned.take comment
    | none => cleaned
  let cleaned := cleaned.filter (fun c => c != ';')
  let cleaned := cleaned.dropWhile isBlank
  cleaned.rdropWhile isBlank

/-- The method `QubitSystem::parseQASMLine`.  The test `cleaned.rfind(p, 0) == 0` holds
when `p` is an initial segment of `cleaned`. -/
def parseQASMLine (line : List Char) : Option (List Char) :=
  let cleaned := parseQASMLine.cleaned line
  if ['m', 'e', 'a', 's', 'u', 'r', 'e'].isPrefixOf cleaned then do
    let q1 := posSucc (find cleaned ['['] 0)
    let q2 := find cleaned [']'] 0
    let index ← substr cleaned q1 (posSub q2 q1)
    pure (['m', 'e', 'a', 's', 'u', 'r', 'e', ' '] ++ index)
  else if ['c', 'x'].isPrefixOf cleaned then do
    let q1 := posSucc (find cleaned ['['] 0)
    let q2 := find cleaned [']'] q1
    let control ← substr cleaned q1 (posSub q2 q1)
    let q3 := posSucc (findAt cleaned ['['] q2)
    let q4 := find cleaned [']'] q3
    let target ← substr cleaned q3 (posSub q4 q3)
    pure (['c', 'x', ' '] ++ control ++ [' '] ++ target)
  else if ['h'].isPrefixOf cleaned || ['x'].isPrefixOf cleaned then do
    let gate ← substr cleaned 0 (some 1)
    let q1 := posSucc (find cleaned ['['] 0)
    let q2 := find cleaned [']'] 0
    let index ← substr cleaned q1 (posSub q2 q1)
    pure (gate ++ [' '] ++ index)
  else
    pure []

/-- The extraction `iss >> cmd` of a word from a fresh stream.  The second component is the
rest of the stream, `none` when the stream is no longer good (end of input reached). -/
def readWord (s : List Char) : List Char × Option (List Char) :=
  let s := s.dropWhile isspace
  if s = [] then ([], none)
  else
    let word := s.takeWhile (fun c => !isspace c)
    let rest := s.dropWhile (fun c => !isspace c)
    (word, if rest = [] then none else some rest)

/-- The extraction `iss >> value` of a `size_t`.  The result `none` means that nothing was
written to `value` (the stream was not good, or only white space was left); a numeral that
cannot be parsed writes `0`, one that is too large writes the largest `size_t`, and a
leading minus sign negates modulo `2 ^ 64`. -/
def readSizeT (stream : Option (List Char)) : Option (Nat × Option (List Char)) :=
  match stream with
  | none => none
  | some s =>
    let s := s.dropWhile isspace
    if s = [] then none
    else
      let negative := s.head? = some '-'
      let body := if s.head? = some '-' ∨ s.head? = some '+' then s.tail else s
      let digits := body.takeWhile Char.isDigit
      let rest := body.dropWhile Char.isDigit
      if digits = [] then some (0, none)
      else
        let v := decimalValue digits
        if v < 2 ^ 64 then
          some (if negative then (2 ^ 64 - v) % 2 ^ 64 else v,
            if rest = [] then none else some rest)
        else some (2 ^ 64 - 1, none)

/-- The method `QubitSystem::executeInstruction`, with the random draw `r` of a measurement
made explicit.  An operand that was never written is an uninitialised variable, modelled by
the result `none`. -/
def executeInstruction (sqrt : K → K) (r : K) (line : List Char) (qs : QubitSystem K) :
    Option (QubitSystem K) :=
  let (cmd, iss) := readWord line
  if cmd = ['h'] then do
    let (target, _) ← readSizeT iss
    applyGate (hadamard sqrt) target qs
  else if cmd = ['x'] then do
    let (target, _) ← readSizeT iss
    applyGate pauliX target qs
  else if cmd = ['c', 'x'] then do
    let (control, iss) ← readSizeT iss
    let (target, _) ← readSizeT iss
    applyCNOT control target qs
  else if cmd = ['m', 'e', 'a', 's', 'u', 'r', 'e'] then do
    let (index, _) ← readSizeT iss
    let (_, qs) ← measureQubit sqrt index r qs
    pure qs
  else
    pure qs

/-- The call `std::stoi(s)`; the result `none` is an exception (`std::invalid_argument` or
`std::out_of_range`). -/
def stoi (s : List Char) : Option Int :=
  let s := s.dropWhile isspace
  let negative := s.head? = some '-'
  let body := if s.head? = some '-' ∨ s.head? = some '+' then s.tail else s
  let digits := body.takeWhile Char.isDigit
  if digits = [] then none
  else
    let v : Int := if negative then -(decimalValue digits : Int) else (decimalValue digits : Int)
    if -2 ^ 31 ≤ v ∧ v < 2 ^ 31 then some v else none

/-- The count `right - left - 1` of the `qreg` branch, computed in `size_t`. -/
def qregCount (left right : Option Nat) : Option Nat :=
  match left, right with
  | none, none => none
  | none, some r => some r
  | some _, none => none
  | some l, some r => if l + 1 ≤ r then some (r - l - 1) else none

/-- One iteration of the loop of `loadAndRunQASM`, on one line of the file, with the random
draw `r` of a measurement made explicit. -/
def loadAndRunQASM.body (sqrt : K → K) (r : K) (qs : QubitSystem K) (line : List Char) :
    Option (QubitSystem K) :=
  let line :=
    match find line ['/', '/'] 0 with
    | some commentPos => line.take commentPos
    | none => line
  let line := line.dropWhile isBlank
  let line := line.rdropWhile isBlank
  if line = [] then pure qs
  else
    let lowered := line.map Char.toLower
    if (find lowered ['o', 'p', 'e', 'n', 'q', 'a', 's', 'm'] 0).isSome ∨
        (find lowered ['i', 'n', 'c', 'l', 'u', 'd', 'e'] 0).isSome then pure qs
    else if ['q', 'r', 'e', 'g'].isPrefixOf line then do
      let left := find line ['['] 0
      let right := find line [']'] 0
      let text ← substr line (posSucc left) (qregCount left right)
      let n ← stoi text
      let nQubits := (n % 2 ^ 64).toNat
      let qs : QubitSystem K := QubitSystem.new nQubits
      let _ ← printState qs
      pure qs
    else if ['c', 'r', 'e', 'g'].isPrefixOf line then pure qs
    else do
      let _ ← if (find line ['D', 'E', 'B', 'U', 'G', ' ', 'P', 'R', 'I', 'N', 'T'] 0).isSome
        then (printState qs).map (fun _ => ()) else pure ()
      let instruction ← parseQASMLine line
      executeInstruction sqrt r instruction qs

/-- The method `QubitSystem::loadAndRunQASM` on the lines of an opened file; `draws i` is
the random draw available to line `i`. -/
def loadAndRunQASM (sqrt : K → K) (draws : Nat → K) (lines : List (List Char))
    (qs : QubitSystem K) : Option (QubitSystem K) :=
  (List.range lines.length).foldlM
    (fun qs i => loadAndRunQASM.body sqrt (draws i) qs (lines.getD i [])) qs

/-- Steps 2 to 5 of `verifyTeleportation`, after the circuit has run: the corrections on
qubit 2 and the fidelity against the looked-up expected state.  The fidelity is `none` when
a sentinel is negative and the method returns early. -/
def verifyTeleportation.check (sqrt : K → K) (qs : QubitSystem K) :
    Option (Option K × QubitSystem K) :=
  let m0 := qs.lastMeasuredQubit0
  let m1 := qs.lastMeasuredQubit1
  if m0 < 0 ∨ m1 < 0 then pure (none, qs)
  else do
    let _ ← printState qs
    let qs ← if m1 = 1 then do
        let qs ← applyGate pauliX 2 qs
        let _ ← printState qs
        pure qs
      else pure qs
    let qs ← if m0 = 1 then do
        let qs ← applyGate pauliZ 2 qs
        let _ ← printState qs
        pure qs
      else pure qs
    let expected : List (Complex K) :=
      if m0 = 0 ∧ m1 = 0 then [⟨0.7071, 0⟩, ⟨0.7071, 0⟩]
      else if m0 = 1 ∧ m1 = 0 then [⟨0.7071, 0⟩, ⟨-0.7071, 0⟩]
      else if m0 = 0 ∧ m1 = 1 then [⟨0.7071, 0⟩, ⟨0.7071, 0⟩]
      else if m0 = 1 ∧ m1 = 1 then [⟨0.7071, 0⟩, ⟨-0.7071, 0⟩]
      else []
    let fidelity := fidelityWith sqrt expected 2 qs
    let _ ← printState qs
    pure (some fidelity, qs)

/-- The method `QubitSystem::verifyTeleportation` on the lines of the circuit file. -/
def verifyTeleportation (sqrt : K → K) (draws : Nat → K) (lines : List (List Char))
    (qs : QubitSystem K) : Option (Option K × QubitSystem K) := do
  let qs ← loadAndRunQASM sqrt draws lines qs
  verifyTeleportation.check sqrt qs

/-! ## Quantities used to state the properties -/

/-- Sum of the squared norms of all amplitudes of a state vector. -/
def totalNorm (state : List (Complex K)) : K := (state.map Complex.norm).sum

/-- Cumulative sum of squared norms over the indices `0, ..., k`. -/
def cumulativeAt (state : List (Complex K)) (k : Nat) : K :=
  ((state.take (k + 1)).map Complex.norm).sum

/-- Amplitude at index `i`, zero outside the vector. -/
def ampAt (state : List (Complex K)) (i : Nat) : Complex K := state.getD i 0

/-- Sum of the squared norms over the indices below `2 ^ n` whose bit `q` equals `b`. -/
def bitNorm (n q : Nat) (b : Bool) (state : List (Complex K)) : K :=
  ∑ i ∈ Finset.range (2 ^ n), if i.testBit q = b then (ampAt state i).norm else 0

/-- The basis vector of length `len` with amplitude one at index `k`. -/
def basisState (len k : Nat) : List (Complex K) :=
  (List.range len).map (fun i => if i = k then (1 : Complex K) else 0)

/-- Class invariant of `QubitSystem`: the state vector has `2 ^ nQubits` entries. -/
def WellFormed (qs : QubitSystem K) : Prop := qs.state.length = 2 ^ qs.nQubits

/-- The list obtained from `init` once the entries `0, ..., n - 1` have been overwritten by
the values `v 0, ..., v (n - 1)`. -/
def written {α : Type} (init : List α) (v : Nat → α) (n : Nat) : List α :=
  (List.range init.length).map (fun j => if j < n then v j else init.getD j (v j))

/-- The state left by the zeroing loop of `measureQubit` when bit value `b` survives. -/
def zeroed (q : Nat) (b : Bool) (state : List (Complex K)) : List (Complex K) :=
  (List.range state.length).map (fun i => if i.testBit q = b then ampAt state i else 0)

/-- Componentwise sum of the amplitudes at the indices below `len` whose bit `q` equals
`b`. -/
def bitSum (len q : Nat) (b : Bool) (state : List (Complex K)) : Complex K :=
  ⟨∑ i ∈ Finset.range len, if i.testBit q = b then (ampAt state i).re else 0,
   ∑ i ∈ Finset.range len, if i.testBit q = b then (ampAt state i).im else 0⟩

/-- Sum of the counts of a histogram. -/
def countSum (counts : List (List Char × Int)) : Int := (counts.map (fun e => e.2)).sum

/-- The index `i` with bit `q` taken out: the bits above `q` move down by one place. -/
def removeBit (i q : Nat) : Nat := i / 2 ^ (q + 1) * 2 ^ q + i % 2 ^ q

/-- The index `j` with a bit of value `b` put in at place `q`: the inverse of
`removeBit`. -/
def insertBit (j q : Nat) (b : Bool) : Nat :=
  j / 2 ^ q * 2 ^ (q + 1) + ((if b then 2 ^ q else 0) + j % 2 ^ q)

/-- Componentwise sum of all amplitudes of a vector. -/
def ampSum (v : List (Complex K)) : Complex K :=
  ⟨∑ j ∈ Finset.range v.length, (ampAt v j).re, ∑ j ∈ Finset.range v.length, (ampAt v j).im⟩

/-- The state vector `state` of `n` qubits is the tensor product of the single-qubit state
`(c0, c1)` on qubit `q` and the state `rest` of the remaining `n - 1` qubits. -/
def IsProduct (n q : Nat) (c0 c1 : Complex K) (rest state : List (Complex K)) : Prop :=
  state.length = 2 ^ n ∧ rest.length = 2 ^ (n - 1) ∧
  ∀ i, i < 2 ^ n →
    ampAt state i = (if i.testBit q then c1 else c0) * ampAt rest (removeBit i q)

/-! ## Auxiliary lemmas -/

set_option linter.unusedSectionVars false

theorem foldlM_range_succ {α : Type} (f : α → Nat → Option α) (b : α) (n : Nat) :
    (List.range (n + 1)).foldlM f b = ((List.range n).foldlM f b).bind (fun x => f x n) := by
  rw [List.range_succ, List.foldlM_append]
  cases (List.range n).foldlM f b <;> simp

theorem written_length {α : Type} (init : List α) (v : Nat → α) (n : Nat) :
    (written init v n).length = init.length := by
  simp [written]

theorem written_getElem_opt {α : Type} (init : List α) (v : Nat → α) (n j : Nat)
    (hj : j < init.length) :
    (written init v n)[j]? = some (if j < n then v j else init.getD j (v j)) := by
  simp [written, List.getElem?_range hj]

theorem written_zero {α : Type} (init : List α) (v : Nat → α) : written init v 0 = init := by
  apply List.ext_getElem?
  intro j
  by_cases hj : j < init.length
  · rw [written_getElem_opt _ _ _ _ hj]
    simp [List.getD, List.getElem?_eq_getElem hj]
  · have h1 : init.length ≤ j := Nat.le_of_not_lt hj
    rw [List.getElem?_eq_none h1, List.getElem?_eq_none]
    rw [written_length]; exact h1

theorem written_set {α : Type} (init : List α) (v : Nat → α) (n : Nat) :
    (written init v n).set n (v n) = written init v (n + 1) := by
  apply List.ext_getElem?
  intro j
  by_cases hj : j < init.length
  · rw [written_getElem_opt _ _ _ _ hj, List.getElem?_set, written_length]
    by_cases hjn : n = j
    · subst hjn; simp [hj]
    · rw [if_neg hjn, written_getElem_opt _ _ _ _ hj]
      have : (j < n + 1) ↔ (j < n) := by omega
      simp [this]
  · have h1 : init.length ≤ j := Nat.le_of_not_lt hj
    rw [List.getElem?_eq_none, List.getElem?_eq_none]
    · rw [written_length]; exact h1
    · rw [List.length_set, written_length]; exact h1

/-- A loop over `0, ..., n - 1` whose iteration `i` stores `v i` at index `i`. -/
theorem foldlM_written {α : Type} (step : List α → Nat → Option (List α)) (init : List α)
    (v : Nat → α) (n : Nat) (hn : n ≤ init.length)
    (hstep : ∀ i, i < n → step (written init v i) i = some ((written init v i).set i (v i))) :
    (List.range n).foldlM step init = some (written init v n) := by
  induction n with
  | zero => simp [written_zero]
  | succ m ih =>
    rw [foldlM_range_succ, ih (by omega) (fun i hi => hstep i (by omega))]
    simp [hstep m (by omega), written_set]

@[ext]
theorem Complex.ext {a b : Complex K} (hre : a.re = b.re) (him : a.im = b.im) : a = b := by
  cases a; cases b; simp_all

@[simp]
theorem Complex.add_re (a b : Complex K) : (a + b).re = a.re + b.re := rfl
@[simp]
theorem Complex.add_im (a b : Complex K) : (a + b).im = a.im + b.im := rfl
@[simp]
theorem Complex.mul_re (a b : Complex K) : (a * b).re = a.re * b.re - a.im * b.im := rfl
@[simp]
theorem Complex.mul_im (a b : Complex K) : (a * b).im = a.re * b.im + a.im * b.re := rfl
@[simp]
theorem Complex.zero_re : (0 : Complex K).re = 0 := rfl
@[simp]
theorem Complex.zero_im : (0 : Complex K).im = 0 := rfl
@[simp]
theorem Complex.one_re : (1 : Complex K).re = 1 := rfl
@[simp]
theorem Complex.one_im : (1 : Complex K).im = 0 := rfl
theorem Complex.mk_zero : (⟨0, 0⟩ : Complex K) = 0 := rfl
theorem Complex.mk_one : (⟨1, 0⟩ : Complex K) = 1 := rfl

theorem Complex.zero_add (a : Complex K) : 0 + a = a := by
  ext <;> simp

theorem bit_eq_testBit (i q : Nat) : (i >>> q) &&& 1 = if i.testBit q then 1 else 0 := by
  rw [Nat.and_one_is_mod, Nat.shiftRight_eq_div_pow, Nat.testBit_to_div_mod]
  by_cases h : i / 2 ^ q % 2 = 1
  · simp [h]
  · have : i / 2 ^ q % 2 = 0 := by omega
    simp [this]

theorem flip_lt (n t i : Nat) (ht : t < n) (hi : i < 2 ^ n) : i ^^^ (1 <<< t) < 2 ^ n := by
  rw [Nat.one_shiftLeft]
  exact Nat.xor_lt_two_pow hi (Nat.pow_lt_pow_right (by decide) ht)


theorem applyGate_body_eq (g00 g01 g10 g11 : Complex K) (target : Nat)
    (state ns : List (Complex K)) (i : Nat) (a b : Complex K)
    (hns : ns[i]? = some 0) (ha : state[i]? = some a)
    (hb : state[i ^^^ (1 <<< target)]? = some b) :
    applyGate.body [[g00, g01], [g10, g11]] target state ns i =
      some (ns.set i ((if i.testBit target then g10 else g00) * a +
        (if i.testBit target then g11 else g01) * b)) := by
  have hil : i < ns.length := by
    by_contra h
    rw [List.getElem?_eq_none (Nat.le_of_not_lt h)] at hns
    exact Option.noConfusion hns
  unfold applyGate.body
  rw [bit_eq_testBit]
  by_cases hbit : i.testBit target
  · simp [hbit, ha, hb, hns, hil, List.set_set, Complex.zero_add]
  · simp [hbit, ha, hb, hns, hil, List.set_set, Complex.zero_add]

theorem applyGate_state (g00 g01 g10 g11 : Complex K) (target : Nat) (qs : QubitSystem K)
    (hwf : WellFormed qs) (ht : target < qs.nQubits) :
    applyGate [[g00, g01], [g10, g11]] target qs =
      some { qs with state := (List.range (2 ^ qs.nQubits)).map (fun i =>
        (if i.testBit target then g10 else g00) * ampAt qs.state i +
        (if i.testBit target then g11 else g01) * ampAt qs.state (i ^^^ 2 ^ target)) } := by
  have hfold : (List.range (1 <<< qs.nQubits)).foldlM
      (applyGate.body [[g00, g01], [g10, g11]] target qs.state)
      (List.replicate (1 <<< qs.nQubits) (⟨0, 0⟩ : Complex K)) =
      some (written (List.replicate (1 <<< qs.nQubits) (⟨0, 0⟩ : Complex K)) (fun i =>
        (if i.testBit target then g10 else g00) * ampAt qs.state i +
        (if i.testBit target then g11 else g01) * ampAt qs.state (i ^^^ 2 ^ target))
        (1 <<< qs.nQubits)) := by
    apply foldlM_written
    · simp
    · intro i hi
      have hi2 : i < 2 ^ qs.nQubits := by rwa [Nat.one_shiftLeft] at hi
      have hf := flip_lt qs.nQubits target i ht hi2
      have hil : i < qs.state.length := by rw [hwf]; exact hi2
      have hfl : i ^^^ (1 <<< target) < qs.state.length := by rw [hwf]; exact hf
      apply applyGate_body_eq
      · rw [written_getElem_opt _ _ _ _ (by simpa using hi)]
        simp [List.getD, hi, Complex.mk_zero]
      · simp [ampAt, List.getD, List.getElem?_eq_getElem hil]
      · rw [Nat.one_shiftLeft] at hfl ⊢
        simp [ampAt, List.getD, List.getElem?_eq_getElem hfl]
  simp only [applyGate, hfold]
  simp only [written, Nat.one_shiftLeft, List.length_replicate]
  simp only [Option.pure_def, Option.bind_eq_bind, Option.some_bind, Option.some.injEq]
  congr 1
  apply List.map_congr_left
  intro i hi
  simp at hi
  simp [hi]


theorem sum_map_range (f : Nat → K) (n : Nat) :
    ((List.range n).map f).sum = ∑ i ∈ Finset.range n, f i := by
  induction n with
  | zero => simp
  | succ m ih => rw [List.range_succ, List.map_append, List.sum_append, ih, Finset.sum_range_succ]; simp

theorem list_eq_map_range (l : List (Complex K)) :
    l = (List.range l.length).map (fun i => ampAt l i) := by
  apply List.ext_getElem?
  intro j
  by_cases hj : j < l.length
  · simp [List.getElem?_range hj, ampAt, List.getD, List.getElem?_eq_getElem hj]
  · have h1 : l.length ≤ j := Nat.le_of_not_lt hj
    rw [List.getElem?_eq_none h1, List.getElem?_eq_none]
    simpa using h1

theorem totalNorm_eq_sum (l : List (Complex K)) :
    totalNorm l = ∑ i ∈ Finset.range l.length, (ampAt l i).norm := by
  conv_lhs => rw [list_eq_map_range l]
  rw [totalNorm, List.map_map, sum_map_range]
  rfl

theorem foldl_norm (l : List (Complex K)) (c : K) :
    l.foldl (fun acc amp => acc + amp.norm) c = c + totalNorm l := by
  induction l generalizing c with
  | nil => simp [totalNorm]
  | cons a t ih =>
    rw [List.foldl_cons, ih]
    simp [totalNorm, add_assoc]

theorem Complex.norm_nonneg (a : Complex K) : 0 ≤ a.norm := by
  unfold Complex.norm
  nlinarith [mul_self_nonneg a.re, mul_self_nonneg a.im]

theorem Complex.norm_zero : (0 : Complex K).norm = 0 := by
  simp [Complex.norm]

theorem Complex.norm_divReal (a : Complex K) (x : K) :
    (a.divReal x).norm = a.norm / (x * x) := by
  simp only [Complex.norm, Complex.divReal]
  by_cases hx : x = 0
  · simp [hx]
  · field_simp

theorem bitNorm_nonneg (n q : Nat) (b : Bool) (state : List (Complex K)) :
    0 ≤ bitNorm n q b state := by
  unfold bitNorm
  apply Finset.sum_nonneg
  intro i _
  split
  · exact Complex.norm_nonneg _
  · exact le_refl _

theorem p0_fold (q : Nat) (hq : q < 64) (state : List (Complex K)) (n : Nat)
    (hn : n ≤ state.length) :
    (List.range n).foldlM (measureQubit.p0Body q state) (0 : K) =
      some (∑ i ∈ Finset.range n, if i.testBit q = false then (ampAt state i).norm else 0) := by
  induction n with
  | zero => simp
  | succ m ih =>
    have hm : m < state.length := by omega
    rw [foldlM_range_succ, ih (by omega), Finset.sum_range_succ]
    simp only [Option.some_bind, measureQubit.p0Body, hq, if_true, bit_eq_testBit]
    by_cases hb : m.testBit q
    · simp [hb]
    · simp [hb, ampAt, List.getD, List.getElem?_eq_getElem hm]

theorem set_same {α : Type} (l : List α) (i : Nat) (a : α) (h : l[i]? = some a) :
    l.set i a = l := by
  apply List.ext_getElem?
  intro j
  rw [List.getElem?_set]
  by_cases hij : i = j
  · subst hij
    have hil : i < l.length := by
      by_contra hc
      rw [List.getElem?_eq_none (Nat.le_of_not_lt hc)] at h
      exact Option.noConfusion h
    simp [hil, h]
  · simp [hij]

theorem zero_fold (q : Nat) (hq : q < 64) (b : Bool) (state : List (Complex K)) (n : Nat)
    (hn : n ≤ state.length) :
    (List.range n).foldlM (measureQubit.zeroBody q (if b then 1 else 0)) state =
      some (written state (fun i => if i.testBit q = b then ampAt state i else 0) n) := by
  apply foldlM_written _ _ _ _ hn
  intro i hi
  have hil : i < state.length := by omega
  have hw := written_getElem_opt state (fun i => if i.testBit q = b then ampAt state i else 0) i i hil
  simp only [lt_irrefl, if_false] at hw
  simp only [measureQubit.zeroBody, hq, bit_eq_testBit, written_length, hil, if_true]
  by_cases hb : i.testBit q <;> cases b <;> simp [hb, Complex.mk_zero]
  all_goals
    symm
    apply set_same
    rw [hw]
    simp [hb, ampAt, List.getD, List.getElem?_eq_getElem hil]

theorem written_full (q : Nat) (b : Bool) (state : List (Complex K)) :
    written state (fun i => if i.testBit q = b then ampAt state i else 0) state.length =
      zeroed q b state := by
  unfold written zeroed
  apply List.map_congr_left
  intro i hi
  simp at hi
  simp [hi]

theorem totalNorm_zeroed (n q : Nat) (b : Bool) (state : List (Complex K))
    (hlen : state.length = 2 ^ n) :
    totalNorm (zeroed q b state) = bitNorm n q b state := by
  unfold zeroed totalNorm bitNorm
  rw [List.map_map, sum_map_range, hlen]
  apply Finset.sum_congr rfl
  intro i _
  by_cases h : i.testBit q = b <;> simp [h, Complex.norm_zero]


/-- The value `measureQubit` computes on a well-formed system, in closed form: `p0` is the
weight of bit value zero, `b` the surviving bit value and `nrm` the survivors' norm. -/
theorem measureQubit_eq (sqrt : K → K) (q : Nat) (r : K) (qs : QubitSystem K)
    (hwf : WellFormed qs) (hq : q < 64) (p0 nrm : K) (b : Bool)
    (hp0 : p0 = bitNorm qs.nQubits q false qs.state) (hb : b = !decide (r < p0))
    (hnrm : nrm = sqrt (bitNorm qs.nQubits q b qs.state)) :
    measureQubit sqrt q r qs = some (
      if nrm < 1e-10 then (2 ^ 64 - 1, { qs with state := zeroed q b qs.state })
      else ((if r < p0 then 0 else 1),
        { qs with state := (zeroed q b qs.state).map (fun amp => amp.divReal nrm),
                  lastMeasuredQubit0 := if q = 0 then (if r < p0 then 0 else 1)
                                        else qs.lastMeasuredQubit0,
                  lastMeasuredQubit1 := if q = 1 then (if r < p0 then 0 else 1)
                                        else qs.lastMeasuredQubit1 })) := by
  have hlen : qs.state.length = 2 ^ qs.nQubits := hwf
  have hfold := p0_fold q hq qs.state (2 ^ qs.nQubits) (by omega)
  have hp0b : (∑ i ∈ Finset.range (2 ^ qs.nQubits),
      if i.testBit q = false then (ampAt qs.state i).norm else 0) = p0 := by
    rw [hp0]; rfl
  rw [hp0b] at hfold
  unfold measureQubit
  simp only [Nat.one_shiftLeft, hfold, Option.bind_eq_bind, Option.some_bind]
  have hz := zero_fold q hq b qs.state (2 ^ qs.nQubits) (by omega)
  have hout : (if b = true then (1 : Int) else 0) = (if r < p0 then 0 else 1) := by
    by_cases h : r < p0 <;> simp [hb, h]
  rw [hout] at hz
  rw [hz]
  rw [← hlen, written_full]
  simp only [Option.some_bind, foldl_norm, zero_add, totalNorm_zeroed _ _ _ _ hlen, ← hnrm]
  by_cases hn : nrm < 1e-10
  · simp only [hn, if_true]; rfl
  · simp only [hn, if_false]
    by_cases h : r < p0 <;> simp [h]


theorem cumulativeAt_cons_zero (a : Complex K) (rest : List (Complex K)) :
    cumulativeAt (a :: rest) 0 = a.norm := by
  simp [cumulativeAt]

theorem cumulativeAt_cons_succ (a : Complex K) (rest : List (Complex K)) (j : Nat) :
    cumulativeAt (a :: rest) (j + 1) = a.norm + cumulativeAt rest j := by
  simp [cumulativeAt]

/-- The scan stops at the first index whose running sum exceeds the draw. -/
theorem scan_found (r : K) (l : List (Complex K)) (i : Nat) (c : K) (k : Nat)
    (hk : k < l.length) (hex : r < c + cumulativeAt l k)
    (hmin : ∀ j, j < k → ¬ r < c + cumulativeAt l j) :
    measure.scan r l i c = i + k := by
  induction l generalizing i c k with
  | nil => simp at hk
  | cons a rest ih =>
    cases k with
    | zero =>
      rw [cumulativeAt_cons_zero] at hex
      simp [measure.scan, hex]
    | succ m =>
      have h0 : ¬ r < c + a.norm := by
        have := hmin 0 (Nat.succ_pos m)
        rwa [cumulativeAt_cons_zero] at this
      have hrec := ih (i + 1) (c + a.norm) m (by simpa using hk)
        (by rw [cumulativeAt_cons_succ, ← add_assoc] at hex; exact hex)
        (fun j hj => by
          have := hmin (j + 1) (by omega)
          rwa [cumulativeAt_cons_succ, ← add_assoc] at this)
      simp only [measure.scan, h0, if_false, hrec]
      omega

/-- When no running sum exceeds the draw the scan keeps the initial `result = 0`. -/
theorem scan_none (r : K) (l : List (Complex K)) (i : Nat) (c : K)
    (hno : ∀ j, j < l.length → ¬ r < c + cumulativeAt l j) :
    measure.scan r l i c = 0 := by
  induction l generalizing i c with
  | nil => rfl
  | cons a rest ih =>
    have h0 : ¬ r < c + a.norm := by
      have := hno 0 (by simp)
      rwa [cumulativeAt_cons_zero] at this
    have hrec := ih (i + 1) (c + a.norm) (fun j hj => by
      have := hno (j + 1) (by simpa using hj)
      rwa [cumulativeAt_cons_succ, ← add_assoc] at this)
    simp only [measure.scan, h0, if_false, hrec]

theorem measure_state (r : K) (qs : QubitSystem K) :
    (measure r qs).2 =
      { qs with state := basisState qs.state.length (measure r qs).1 } := rfl

theorem cumulativeAt_eq_sum (l : List (Complex K)) (k : Nat) (hk : k < l.length) :
    cumulativeAt l k = ∑ i ∈ Finset.range (k + 1), (ampAt l i).norm := by
  have h := totalNorm_eq_sum (l.take (k + 1))
  have hlen : (l.take (k + 1)).length = k + 1 := by
    rw [List.length_take]; omega
  rw [hlen] at h
  unfold cumulativeAt
  unfold totalNorm at h
  rw [h]
  apply Finset.sum_congr rfl
  intro i hi
  have hi2 : i < k + 1 := Finset.mem_range.mp hi
  simp [ampAt, List.getD, List.getElem?_take, hi2]

/-! ## The claims -/

/-- Evaluation of `applyGate` on a one-qubit system. -/
theorem applyGate_one_qubit (g00 g01 g10 g11 a b : Complex K) (cb : List Int) (m0 m1 : Int) :
    applyGate [[g00, g01], [g10, g11]] 0 (⟨1, [a, b], cb, m0, m1⟩ : QubitSystem K) =
      some ⟨1, [0 + g00 * a + g01 * b, 0 + g10 * b + g11 * a], cb, m0, m1⟩ := rfl

/-- C1 fails on the code: the state reached from the initial one-qubit state by the single
completed operation `applyGate(Gates::pauliX(), 0)` is the zero vector, whose squared norms
sum to `0`, not `1`. -/
theorem applyGate_pauliX_initial_state_norm :
    ∃ qs : QubitSystem ℚ, applyGate pauliX 0 (QubitSystem.new 1) = some qs ∧
      qs.state = [⟨0, 0⟩, ⟨0, 0⟩] ∧ totalNorm qs.state = 0 ∧ totalNorm qs.state ≠ 1 := by
  refine ⟨_, applyGate_one_qubit _ _ _ _ _ _ _ _ _, ?_, ?_, ?_⟩
  · simp [Complex.ext_iff]
  · simp [totalNorm, Complex.norm]
  · simp [totalNorm, Complex.norm]

/-- C2: for every two-by-two gate matrix, every target below the qubit count and every
well-formed state, `applyGate` returns, changes nothing but the state vector, and the new
amplitude at each index `i` is `gate[b][0] * old[i] + gate[b][1] * old[i XOR 2^target]`
with `b` the bit `target` of `i`; both indices read lie below `2 ^ nQubits`. -/
theorem applyGate_pointwise (g00 g01 g10 g11 : Complex K) (target : Nat) (qs : QubitSystem K)
    (hwf : WellFormed qs) (ht : target < qs.nQubits) :
    ∃ qs', applyGate [[g00, g01], [g10, g11]] target qs = some qs' ∧
      qs' = { qs with state := qs'.state } ∧
      qs'.state.length = 2 ^ qs.nQubits ∧
      ∀ i, i < 2 ^ qs.nQubits →
        i ^^^ 2 ^ target < 2 ^ qs.nQubits ∧
        ∃ x y, qs.state[i]? = some x ∧ qs.state[i ^^^ 2 ^ target]? = some y ∧
          qs'.state[i]? = some
            ((if i.testBit target then g10 else g00) * x +
             (if i.testBit target then g11 else g01) * y) := by
  refine ⟨_, applyGate_state g00 g01 g10 g11 target qs hwf ht, rfl, by simp, ?_⟩
  intro i hi
  have hf : i ^^^ 2 ^ target < 2 ^ qs.nQubits := by
    have := flip_lt qs.nQubits target i ht hi
    rwa [Nat.one_shiftLeft] at this
  have hil : i < qs.state.length := by rw [hwf]; exact hi
  have hfl : i ^^^ 2 ^ target < qs.state.length := by rw [hwf]; exact hf
  refine ⟨hf, qs.state[i], qs.state[i ^^^ 2 ^ target], List.getElem?_eq_getElem hil,
    List.getElem?_eq_getElem hfl, ?_⟩
  simp [List.getElem?_range hi, ampAt, List.getD, List.getElem?_eq_getElem hil,
    List.getElem?_eq_getElem hfl]

theorem applyGate_pointwise_witness :
    WellFormed (⟨2, [⟨1, 0⟩, ⟨2, 0⟩, ⟨3, 0⟩, ⟨4, 0⟩], [], -1, -1⟩ : QubitSystem ℚ) ∧
    1 < 2 ∧
    ∃ qs', applyGate [[⟨5, 0⟩, ⟨6, 0⟩], [⟨7, 0⟩, ⟨8, 0⟩]] 1
        (⟨2, [⟨1, 0⟩, ⟨2, 0⟩, ⟨3, 0⟩, ⟨4, 0⟩], [], -1, -1⟩ : QubitSystem ℚ) = some qs' ∧
      qs' = { (⟨2, [⟨1, 0⟩, ⟨2, 0⟩, ⟨3, 0⟩, ⟨4, 0⟩], [], -1, -1⟩ : QubitSystem ℚ) with
        state := qs'.state } ∧
      qs'.state.length = 2 ^ 2 ∧
      ∀ i, i < 2 ^ 2 →
        i ^^^ 2 ^ 1 < 2 ^ 2 ∧
        ∃ x y, ([⟨1, 0⟩, ⟨2, 0⟩, ⟨3, 0⟩, ⟨4, 0⟩] : List (Complex ℚ))[i]? = some x ∧
          ([⟨1, 0⟩, ⟨2, 0⟩, ⟨3, 0⟩, ⟨4, 0⟩] : List (Complex ℚ))[i ^^^ 2 ^ 1]? = some y ∧
          qs'.state[i]? = some
            ((if i.testBit 1 then ⟨7, 0⟩ else ⟨5, 0⟩) * x +
             (if i.testBit 1 then ⟨8, 0⟩ else ⟨6, 0⟩) * y) :=
  ⟨rfl, by decide,
    applyGate_pointwise ⟨5, 0⟩ ⟨6, 0⟩ ⟨7, 0⟩ ⟨8, 0⟩ 1
      (⟨2, [⟨1, 0⟩, ⟨2, 0⟩, ⟨3, 0⟩, ⟨4, 0⟩], [], -1, -1⟩ : QubitSystem ℚ) rfl (by decide)⟩

/-- C3 fails on the code: `applyCNOT(0, 1)` on the two-qubit state with amplitude `1/√2`
at indices `0` and `1` returns the state unchanged, so index `1` (control bit set) keeps
`1/√2 ≠ 0` instead of receiving the amplitude `0` of index `3`. -/
theorem applyCNOT_superposition_unchanged :
    ∃ qs : QubitSystem ℝ,
      qs.nQubits = 2 ∧
      qs.state = [⟨1 / Real.sqrt 2, 0⟩, ⟨1 / Real.sqrt 2, 0⟩, ⟨0, 0⟩, ⟨0, 0⟩] ∧
      applyCNOT 0 1 qs = some qs ∧ (1 : ℝ) / Real.sqrt 2 ≠ 0 := by
  refine ⟨⟨2, [⟨1 / Real.sqrt 2, 0⟩, ⟨1 / Real.sqrt 2, 0⟩, ⟨0, 0⟩, ⟨0, 0⟩], [], -1, -1⟩, rfl, rfl, rfl, ?_⟩
  have hpos : 0 < Real.sqrt 2 := Real.sqrt_pos.mpr (by norm_num)
  positivity

/-- C4 fails on the code: on the one-qubit initial state `(1, 0)`,
`applyGate(Gates::hadamard(), 0)` yields `(1/√2, -1/√2)`, not `(1/√2, 1/√2)`, and a second
application yields `(0, -1)`, not `(1, 0)`. -/
theorem applyGate_hadamard_initial_state :
    ∃ qs1 qs2 : QubitSystem ℝ,
      (QubitSystem.new 1 : QubitSystem ℝ).state = [⟨1, 0⟩, ⟨0, 0⟩] ∧
      applyGate (hadamard Real.sqrt) 0 (QubitSystem.new 1) = some qs1 ∧
      qs1.state = [⟨1 / Real.sqrt 2, 0⟩, ⟨-(1 / Real.sqrt 2), 0⟩] ∧
      applyGate (hadamard Real.sqrt) 0 qs1 = some qs2 ∧
      qs2.state = [⟨0, 0⟩, ⟨-1, 0⟩] ∧
      -(1 / Real.sqrt 2) ≠ 1 / Real.sqrt 2 := by
  have h2 : Real.sqrt 2 * Real.sqrt 2 = 2 := Real.mul_self_sqrt (by norm_num)
  have hpos : 0 < Real.sqrt 2 := Real.sqrt_pos.mpr (by norm_num)
  refine ⟨_, _, rfl, applyGate_one_qubit _ _ _ _ _ _ _ _ _, ?_, applyGate_one_qubit _ _ _ _ _ _ _ _ _, ?_, ?_⟩
  · simp [Complex.ext_iff]
  · simp only [List.cons.injEq, Complex.ext_iff, Complex.add_re, Complex.add_im, Complex.mul_re, Complex.mul_im, Complex.zero_re, Complex.zero_im]
    refine ⟨⟨?_, ?_⟩, ⟨?_, ?_⟩, trivial⟩ <;> field_simp
  · have : 0 < 1 / Real.sqrt 2 := by positivity
    linarith

/-- C5 fails on the code: on the one-qubit state `(1, 0)`, applying
`applyGate(Gates::pauliX(), 0)` twice in a row yields `(0, 0)`, not the original vector. -/
theorem applyGate_pauliX_twice_initial_state :
    ∃ qs1 qs2 : QubitSystem ℚ,
      (QubitSystem.new 1 : QubitSystem ℚ).state = [⟨1, 0⟩, ⟨0, 0⟩] ∧
      applyGate pauliX 0 (QubitSystem.new 1) = some qs1 ∧
      applyGate pauliX 0 qs1 = some qs2 ∧
      qs2.state = [⟨0, 0⟩, ⟨0, 0⟩] ∧ qs2.state ≠ (QubitSystem.new 1 : QubitSystem ℚ).state := by
  refine ⟨_, _, rfl, applyGate_one_qubit _ _ _ _ _ _ _ _ _, applyGate_one_qubit _ _ _ _ _ _ _ _ _, ?_, ?_⟩
  · simp [Complex.ext_iff]
  · simp [Complex.ext_iff, QubitSystem.new]

/-- C6: when some cumulative sum of squared norms exceeds the draw `r`, and `k` is the
smallest index whose cumulative sum does, `measure` returns `k` and leaves the basis vector
of index `k`; in particular this holds for a state whose only non-zero amplitude sits at
index `k` with squared norm one and any draw in `[0, 1)`. -/
theorem measure_returns_first_exceeding (r : K) (qs : QubitSystem K) (k : Nat)
    (hk : k < qs.state.length) :
    ((r < cumulativeAt qs.state k ∧ ∀ j, j < k → ¬ r < cumulativeAt qs.state j) →
      (measure r qs).1 = k ∧
      (measure r qs).2 = { qs with state := basisState qs.state.length k } ∧
      ∀ i, i < qs.state.length →
        (measure r qs).2.state[i]? = some (if i = k then ⟨1, 0⟩ else ⟨0, 0⟩)) ∧
    (((∀ i, i < qs.state.length → i ≠ k → ampAt qs.state i = 0) ∧
        (ampAt qs.state k).norm = 1 ∧ 0 ≤ r ∧ r < 1) →
      (measure r qs).1 = k ∧
      (measure r qs).2 = { qs with state := basisState qs.state.length k }) := by
  have main : (r < cumulativeAt qs.state k ∧ ∀ j, j < k → ¬ r < cumulativeAt qs.state j) →
      (measure r qs).1 = k := by
    intro h
    have := scan_found r qs.state 0 0 k hk (by simpa using h.1)
      (fun j hj => by simpa using h.2 j hj)
    simpa [measure] using this
  refine ⟨fun h => ?_, fun h => ?_⟩
  · have hres := main h
    refine ⟨hres, by rw [measure_state, hres], ?_⟩
    intro i hi
    rw [measure_state, hres]
    simp only [basisState, List.getElem?_map, List.getElem?_range hi, Option.map_some']
    split <;> rfl
  · obtain ⟨hz, hone, hr0, hr1⟩ := h
    have hcum : ∀ j, j < k → cumulativeAt qs.state j = 0 := by
      intro j hj
      rw [cumulativeAt_eq_sum _ _ (by omega)]
      apply Finset.sum_eq_zero
      intro i hi
      have hi2 : i < j + 1 := Finset.mem_range.mp hi
      rw [hz i (by omega) (by omega)]
      exact Complex.norm_zero
    have hck : cumulativeAt qs.state k = 1 := by
      rw [cumulativeAt_eq_sum _ _ hk, Finset.sum_range_succ, hone]
      rw [Finset.sum_eq_zero]
      · simp
      · intro i hi
        have hi2 : i < k := Finset.mem_range.mp hi
        rw [hz i (by omega) (by omega)]
        exact Complex.norm_zero
    have hres := main ⟨by rw [hck]; exact hr1, fun j hj => by
      rw [hcum j hj]; exact not_lt.mpr hr0⟩
    exact ⟨hres, by rw [measure_state, hres]⟩

theorem measure_returns_first_exceeding_witness :
    (1 : Nat) < ([⟨0, 0⟩, ⟨0, 1⟩] : List (Complex ℚ)).length ∧
    (measure (1 / 2 : ℚ) ⟨1, [⟨0, 0⟩, ⟨0, 1⟩], [], -1, -1⟩).1 = 1 ∧
    (measure (1 / 2 : ℚ) ⟨1, [⟨0, 0⟩, ⟨0, 1⟩], [], -1, -1⟩).2.state = [⟨0, 0⟩, ⟨1, 0⟩] := by
  have h := (measure_returns_first_exceeding (1 / 2 : ℚ)
    ⟨1, [⟨0, 0⟩, ⟨0, 1⟩], [], -1, -1⟩ 1 (by decide)).1
    (by constructor
        · norm_num [cumulativeAt, Complex.norm]
        · intro j hj
          have : j = 0 := by omega
          subst this
          norm_num [cumulativeAt, Complex.norm])
  refine ⟨by decide, h.1, ?_⟩
  rw [h.2.1]
  rfl

/-- C7 as stated fails: on the one-qubit zero vector with draw `1 / 2` no cumulative sum
exceeds the draw, and `measure` returns index `0`, not the last index `2 ^ 1 - 1 = 1`. -/
theorem measure_fallback_not_last_index :
    WellFormed (⟨1, [⟨0, 0⟩, ⟨0, 0⟩], [], -1, -1⟩ : QubitSystem ℚ) ∧
    (∀ j, j < 2 ^ 1 →
      ¬ (1 / 2 : ℚ) < cumulativeAt ([⟨0, 0⟩, ⟨0, 0⟩] : List (Complex ℚ)) j) ∧
    (measure (1 / 2 : ℚ) ⟨1, [⟨0, 0⟩, ⟨0, 0⟩], [], -1, -1⟩).1 = 0 ∧
    (measure (1 / 2 : ℚ) ⟨1, [⟨0, 0⟩, ⟨0, 0⟩], [], -1, -1⟩).1 ≠ 2 ^ 1 - 1 ∧
    (measure (1 / 2 : ℚ) ⟨1, [⟨0, 0⟩, ⟨0, 0⟩], [], -1, -1⟩).2.state = [⟨1, 0⟩, ⟨0, 0⟩] := by
  have hno : ∀ j, j < 2 ^ 1 →
      ¬ (1 / 2 : ℚ) < cumulativeAt ([⟨0, 0⟩, ⟨0, 0⟩] : List (Complex ℚ)) j := by
    intro j hj
    have : j = 0 ∨ j = 1 := by omega
    rcases this with h | h <;> subst h <;> norm_num [cumulativeAt, Complex.norm]
  have hres : (measure (1 / 2 : ℚ) ⟨1, [⟨0, 0⟩, ⟨0, 0⟩], [], -1, -1⟩).1 = 0 := by
    have := scan_none (1 / 2 : ℚ) ([⟨0, 0⟩, ⟨0, 0⟩] : List (Complex ℚ)) 0 0
      (fun j hj => by simpa using hno j hj)
    simpa [measure] using this
  refine ⟨rfl, hno, hres, by rw [hres]; decide, ?_⟩
  rw [measure_state, hres]
  rfl

/-- C7, amended: when the cumulative sum of squared norms exceeds the draw `r` at no index,
`measure` returns index `0`, the initial value of `result`, and leaves the basis vector of
index `0`. -/
theorem measure_fallback_index_zero (r : K) (qs : QubitSystem K)
    (hno : ∀ j, j < qs.state.length → ¬ r < cumulativeAt qs.state j) :
    (measure r qs).1 = 0 ∧
    (measure r qs).2 = { qs with state := basisState qs.state.length 0 } ∧
    ∀ i, i < qs.state.length →
      (measure r qs).2.state[i]? = some (if i = 0 then ⟨1, 0⟩ else ⟨0, 0⟩) := by
  have hres : (measure r qs).1 = 0 := by
    have := scan_none r qs.state 0 0 (fun j hj => by simpa using hno j hj)
    simpa [measure] using this
  refine ⟨hres, by rw [measure_state, hres], ?_⟩
  intro i hi
  rw [measure_state, hres]
  simp only [basisState, List.getElem?_map, List.getElem?_range hi, Option.map_some']
  split <;> rfl

theorem measure_fallback_index_zero_witness :
    (∀ j, j < ([⟨0, 0⟩, ⟨0, 0⟩, ⟨0, 0⟩, ⟨0, 0⟩] : List (Complex ℚ)).length →
      ¬ (3 / 4 : ℚ) < cumulativeAt ([⟨0, 0⟩, ⟨0, 0⟩, ⟨0, 0⟩, ⟨0, 0⟩] : List (Complex ℚ)) j) ∧
    (measure (3 / 4 : ℚ) ⟨2, [⟨0, 0⟩, ⟨0, 0⟩, ⟨0, 0⟩, ⟨0, 0⟩], [], -1, -1⟩).1 = 0 := by
  have hno : ∀ j, j < ([⟨0, 0⟩, ⟨0, 0⟩, ⟨0, 0⟩, ⟨0, 0⟩] : List (Complex ℚ)).length →
      ¬ (3 / 4 : ℚ) < cumulativeAt ([⟨0, 0⟩, ⟨0, 0⟩, ⟨0, 0⟩, ⟨0, 0⟩] : List (Complex ℚ)) j := by
    intro j hj
    have hj4 : j < 4 := hj
    have : j = 0 ∨ j = 1 ∨ j = 2 ∨ j = 3 := by omega
    rcases this with h | h | h | h <;> subst h <;> norm_num [cumulativeAt, Complex.norm]
  exact ⟨hno, (measure_fallback_index_zero (3 / 4 : ℚ)
    ⟨2, [⟨0, 0⟩, ⟨0, 0⟩, ⟨0, 0⟩, ⟨0, 0⟩], [], -1, -1⟩ hno).1⟩

theorem zeroed_length (q : Nat) (b : Bool) (state : List (Complex K)) :
    (zeroed q b state).length = state.length := by
  simp [zeroed]

theorem zeroed_getElem_opt (q : Nat) (b : Bool) (state : List (Complex K)) (i : Nat)
    (hi : i < state.length) :
    (zeroed q b state)[i]? = some (if i.testBit q = b then ampAt state i else 0) := by
  simp [zeroed, List.getElem?_range hi]

theorem Complex.zero_divReal (x : K) : (0 : Complex K).divReal x = 0 := by
  ext <;> simp [Complex.divReal]

theorem Complex.divReal_one (a : Complex K) : a.divReal 1 = a := by
  ext <;> simp [Complex.divReal]

theorem sqrt_one_eq (sqrt : K → K) (hs : IsSqrt sqrt) : sqrt 1 = 1 := by
  obtain ⟨h0, h1⟩ := hs 1 zero_le_one
  nlinarith [h0, h1]

theorem tol_pos : (0 : K) < 1e-10 := by norm_num

theorem totalNorm_map_divReal (l : List (Complex K)) (x : K) :
    totalNorm (l.map (fun amp => amp.divReal x)) = totalNorm l / (x * x) := by
  induction l with
  | nil => simp [totalNorm]
  | cons a t ih =>
    simp only [totalNorm, List.map_cons, List.sum_cons] at ih ⊢
    rw [ih, Complex.norm_divReal, add_div]

/-- C8: on a well-formed system, for a qubit index `q` below 64 (the width of the `size_t`
that the routine shifts by `q`) and a draw on which `measureQubit` does not take its failure
branch, with `p0` the squared norm carried by the indices whose bit `q` is zero, the call
returns outcome `0` if `r < p0` and `1` otherwise; amplitudes whose bit disagrees with the
outcome become zero; surviving amplitudes are divided by the square root of the survivors'
squared norm; the resulting squared norm is one; and the outcome is stored in the sentinel
of qubit 0 or 1 when `q` is 0 or 1. -/
theorem measureQubit_success (sqrt : K → K) (hs : IsSqrt sqrt) (q : Nat) (hq : q < 64)
    (r : K) (qs : QubitSystem K) (hwf : WellFormed qs)
    (hok : ∀ qs', measureQubit sqrt q r qs ≠ some (2 ^ 64 - 1, qs')) :
    ∃ (out : Nat) (qs' : QubitSystem K),
      measureQubit sqrt q r qs = some (out, qs') ∧
      out = (if r < bitNorm qs.nQubits q false qs.state then 0 else 1) ∧
      qs'.nQubits = qs.nQubits ∧
      qs'.state.length = 2 ^ qs.nQubits ∧
      (∀ i, i < 2 ^ qs.nQubits → i.testBit q ≠ decide (out = 1) →
        qs'.state[i]? = some 0) ∧
      (∀ i, i < 2 ^ qs.nQubits → i.testBit q = decide (out = 1) →
        qs'.state[i]? = some ((ampAt qs.state i).divReal
          (sqrt (bitNorm qs.nQubits q (decide (out = 1)) qs.state)))) ∧
      totalNorm qs'.state = 1 ∧
      (q = 0 → qs'.lastMeasuredQubit0 = out) ∧
      (q = 1 → qs'.lastMeasuredQubit1 = out) := by
  have hlen : qs.state.length = 2 ^ qs.nQubits := hwf
  have hb : decide ((if r < bitNorm qs.nQubits q false qs.state then 0 else 1) = 1) =
      !decide (r < bitNorm qs.nQubits q false qs.state) := by
    by_cases h : r < bitNorm qs.nQubits q false qs.state <;> simp [h]
  have heq := measureQubit_eq sqrt q r qs hwf hq _ _ _ rfl rfl rfl
  have hn : ¬ sqrt (bitNorm qs.nQubits q
      (!decide (r < bitNorm qs.nQubits q false qs.state)) qs.state) < 1e-10 := by
    intro hlt
    rw [if_pos hlt] at heq
    exact hok _ heq
  rw [if_neg hn] at heq
  have hS := bitNorm_nonneg qs.nQubits q
    (!decide (r < bitNorm qs.nQubits q false qs.state)) qs.state
  obtain ⟨_, hsq⟩ := hs _ hS
  have hpos : 0 < sqrt (bitNorm qs.nQubits q
      (!decide (r < bitNorm qs.nQubits q false qs.state)) qs.state) :=
    lt_of_lt_of_le tol_pos (not_lt.mp hn)
  refine ⟨_, _, heq, rfl, rfl, ?_, ?_, ?_, ?_, ?_, ?_⟩
  · simp [zeroed_length, hlen]
  · intro i hi hbit
    rw [hb] at hbit
    have hil : i < qs.state.length := by rw [hlen]; exact hi
    simp only [List.getElem?_map, zeroed_getElem_opt _ _ _ _ hil, if_neg hbit, Option.map_some',
      Complex.zero_divReal]
  · intro i hi hbit
    rw [hb] at hbit ⊢
    have hil : i < qs.state.length := by rw [hlen]; exact hi
    simp only [List.getElem?_map, zeroed_getElem_opt _ _ _ _ hil, if_pos hbit, Option.map_some']
  · show totalNorm (List.map _ (zeroed q _ qs.state)) = 1
    rw [totalNorm_map_divReal, totalNorm_zeroed _ _ _ _ hlen, hsq]
    have hne : bitNorm qs.nQubits q
        (!decide (r < bitNorm qs.nQubits q false qs.state)) qs.state ≠ 0 := by
      have hmul := mul_pos hpos hpos
      rw [hsq] at hmul
      exact ne_of_gt hmul
    exact div_self hne
  · intro hq0
    by_cases h : r < bitNorm qs.nQubits q false qs.state <;> simp [hq0, h]
  · intro hq1
    by_cases h : r < bitNorm qs.nQubits q false qs.state <;> simp [hq1, h]

theorem isSqrt_real : IsSqrt Real.sqrt :=
  fun x hx => ⟨Real.sqrt_nonneg x, Real.mul_self_sqrt hx⟩

theorem measureQubit_success_witness :
    IsSqrt Real.sqrt ∧ 0 < 64 ∧
    WellFormed (⟨1, [⟨3 / 5, 0⟩, ⟨0, 4 / 5⟩], [], -1, -1⟩ : QubitSystem ℝ) ∧
    (∀ qs', measureQubit Real.sqrt 0 (1 / 2 : ℝ) ⟨1, [⟨3 / 5, 0⟩, ⟨0, 4 / 5⟩], [], -1, -1⟩ ≠
      some (2 ^ 64 - 1, qs')) ∧
    ∃ (out : Nat) (qs' : QubitSystem ℝ),
      measureQubit Real.sqrt 0 (1 / 2 : ℝ) ⟨1, [⟨3 / 5, 0⟩, ⟨0, 4 / 5⟩], [], -1, -1⟩ =
        some (out, qs') ∧
      out = 1 ∧ qs'.state[0]? = some 0 ∧
      qs'.state[1]? = some ((⟨0, 4 / 5⟩ : Complex ℝ).divReal (4 / 5)) ∧
      totalNorm qs'.state = 1 ∧ qs'.lastMeasuredQubit0 = out := by
  have hp0 : bitNorm 1 0 false ([⟨3 / 5, 0⟩, ⟨0, 4 / 5⟩] : List (Complex ℝ)) = 9 / 25 := by
    simp [bitNorm, Finset.sum_range_succ, ampAt, Complex.norm]
    norm_num
  have hp1 : bitNorm 1 0 true ([⟨3 / 5, 0⟩, ⟨0, 4 / 5⟩] : List (Complex ℝ)) = 16 / 25 := by
    simp [bitNorm, Finset.sum_range_succ, ampAt, Complex.norm]
    norm_num
  have hroot : Real.sqrt (16 / 25) = 4 / 5 := by
    rw [show (16 / 25 : ℝ) = (4 / 5) ^ 2 by norm_num, Real.sqrt_sq (by norm_num)]
  have hok : ∀ qs', measureQubit Real.sqrt 0 (1 / 2 : ℝ)
      ⟨1, [⟨3 / 5, 0⟩, ⟨0, 4 / 5⟩], [], -1, -1⟩ ≠ some (2 ^ 64 - 1, qs') := by
    intro qs' h
    rw [measureQubit_eq Real.sqrt 0 (1 / 2 : ℝ) ⟨1, [⟨3 / 5, 0⟩, ⟨0, 4 / 5⟩], [], -1, -1⟩ rfl
      (by decide) (9 / 25) (4 / 5) true hp0.symm (by norm_num) (by rw [hp1, hroot])] at h
    norm_num at h
  obtain ⟨out, qs', h1, h2, _, _, h5, h6, h7, h8, _⟩ :=
    measureQubit_success Real.sqrt isSqrt_real 0 (by decide) (1 / 2 : ℝ)
      ⟨1, [⟨3 / 5, 0⟩, ⟨0, 4 / 5⟩], [], -1, -1⟩ rfl hok
  have hout : out = 1 := by
    rw [h2, hp0]; norm_num
  refine ⟨isSqrt_real, by decide, rfl, hok, out, qs', h1, hout, ?_, ?_, h7, h8 rfl⟩
  · exact h5 0 (by decide) (by rw [hout]; decide)
  · have h := h6 1 (by decide) (by rw [hout]; decide)
    rw [hout] at h
    simpa [hp1, hroot, ampAt] using h

/-- C9: on a well-formed system and for a qubit index `q` below 64 (the width of the
`size_t` that the routine shifts by `q`), `measureQubit` returns, and the value returned
differs from both outcomes `0` and `1` exactly when the norm of the amplitudes surviving the
zeroing is below `1e-10`; in that case no sentinel changes.  A sentinel changes only through
a successful `measureQubit` on its own qubit index, and `applyGate`, `applyCNOT` and
`measure` leave both sentinels alone. -/
theorem measureQubit_failure_iff (sqrt : K → K) (q : Nat) (hq : q < 64) (r : K)
    (qs : QubitSystem K) (hwf : WellFormed qs) :
    (∃ (out : Nat) (qs' : QubitSystem K),
      measureQubit sqrt q r qs = some (out, qs') ∧
      ((out ≠ 0 ∧ out ≠ 1) ↔
        sqrt (bitNorm qs.nQubits q (!decide (r < bitNorm qs.nQubits q false qs.state))
          qs.state) < 1e-10) ∧
      ((out ≠ 0 ∧ out ≠ 1) →
        qs'.lastMeasuredQubit0 = qs.lastMeasuredQubit0 ∧
        qs'.lastMeasuredQubit1 = qs.lastMeasuredQubit1) ∧
      (qs'.lastMeasuredQubit0 ≠ qs.lastMeasuredQubit0 →
        q = 0 ∧ (out = 0 ∨ out = 1) ∧ qs'.lastMeasuredQubit0 = out) ∧
      (qs'.lastMeasuredQubit1 ≠ qs.lastMeasuredQubit1 →
        q = 1 ∧ (out = 0 ∨ out = 1) ∧ qs'.lastMeasuredQubit1 = out)) ∧
    (∀ gate target qs', applyGate gate target qs = some qs' →
      qs'.lastMeasuredQubit0 = qs.lastMeasuredQubit0 ∧
      qs'.lastMeasuredQubit1 = qs.lastMeasuredQubit1) ∧
    (∀ control target qs', applyCNOT control target qs = some qs' →
      qs'.lastMeasuredQubit0 = qs.lastMeasuredQubit0 ∧
      qs'.lastMeasuredQubit1 = qs.lastMeasuredQubit1) ∧
    (∀ r', (measure r' qs).2.lastMeasuredQubit0 = qs.lastMeasuredQubit0 ∧
      (measure r' qs).2.lastMeasuredQubit1 = qs.lastMeasuredQubit1) := by
  refine ⟨?_, ?_, ?_, fun _ => ⟨rfl, rfl⟩⟩
  · have heq := measureQubit_eq sqrt q r qs hwf hq _ _ _ rfl rfl rfl
    by_cases hn : sqrt (bitNorm qs.nQubits q
        (!decide (r < bitNorm qs.nQubits q false qs.state)) qs.state) < 1e-10
    · rw [if_pos hn] at heq
      refine ⟨_, _, heq, ?_, fun _ => ⟨rfl, rfl⟩, fun h => absurd rfl h, fun h => absurd rfl h⟩
      simp only [hn, iff_true]
      decide
    · rw [if_neg hn] at heq
      refine ⟨_, _, heq, ?_, ?_, ?_, ?_⟩
      · simp only [hn, iff_false]
        by_cases h : r < bitNorm qs.nQubits q false qs.state <;> simp [h]
      · intro h
        exfalso
        by_cases h' : r < bitNorm qs.nQubits q false qs.state <;> simp [h'] at h
      · intro h
        by_cases hq0 : q = 0
        · refine ⟨hq0, ?_, ?_⟩
          · by_cases h' : r < bitNorm qs.nQubits q false qs.state <;> simp [h']
          · by_cases h' : r < bitNorm qs.nQubits q false qs.state <;> simp [hq0, h']
        · simp [hq0] at h
      · intro h
        by_cases hq1 : q = 1
        · refine ⟨hq1, ?_, ?_⟩
          · by_cases h' : r < bitNorm qs.nQubits q false qs.state <;> simp [h']
          · by_cases h' : r < bitNorm qs.nQubits q false qs.state <;> simp [hq1, h']
        · simp [hq1] at h
  · intro gate target qs' h
    unfold applyGate at h
    cases hf : (List.range (1 <<< qs.nQubits)).foldlM (applyGate.body gate target qs.state)
        (List.replicate (1 <<< qs.nQubits) (⟨0, 0⟩ : Complex K)) with
    | none => simp [hf] at h
    | some ns =>
      simp [hf] at h
      subst h
      exact ⟨rfl, rfl⟩
  · intro control target qs' h
    unfold applyCNOT at h
    cases hf : (List.range (1 <<< qs.nQubits)).foldlM (applyCNOT.body control target)
        qs.state with
    | none => simp [hf] at h
    | some ns =>
      simp [hf] at h
      subst h
      exact ⟨rfl, rfl⟩

theorem measureQubit_failure_iff_witness :
    0 < 64 ∧ WellFormed (⟨1, [⟨0, 0⟩, ⟨0, 0⟩], [], -1, -1⟩ : QubitSystem ℝ) ∧
    ∃ (out : Nat) (qs' : QubitSystem ℝ),
      measureQubit Real.sqrt 0 (1 / 2 : ℝ) ⟨1, [⟨0, 0⟩, ⟨0, 0⟩], [], -1, -1⟩ = some (out, qs') ∧
      ((out ≠ 0 ∧ out ≠ 1) ↔
        Real.sqrt (bitNorm 1 0 (!decide ((1 / 2 : ℝ) <
          bitNorm 1 0 false ([⟨0, 0⟩, ⟨0, 0⟩] : List (Complex ℝ))))
          ([⟨0, 0⟩, ⟨0, 0⟩] : List (Complex ℝ))) < 1e-10) := by
  obtain ⟨⟨out, qs', h1, h2, _⟩, _⟩ :=
    measureQubit_failure_iff Real.sqrt 0 (by decide) (1 / 2 : ℝ)
      (⟨1, [⟨0, 0⟩, ⟨0, 0⟩], [], -1, -1⟩ : QubitSystem ℝ) rfl
  exact ⟨by decide, rfl, out, qs', h1, h2⟩

theorem bitNorm_false_eq_totalNorm (n q : Nat) (state : List (Complex K))
    (hlen : state.length = 2 ^ n)
    (hzero : ∀ i, i < 2 ^ n → i.testBit q = true → ampAt state i = 0) :
    bitNorm n q false state = totalNorm state := by
  rw [totalNorm_eq_sum, hlen]
  unfold bitNorm
  apply Finset.sum_congr rfl
  intro i hi
  have hi2 : i < 2 ^ n := Finset.mem_range.mp hi
  by_cases hb : i.testBit q = false
  · simp [hb]
  · have hb1 : i.testBit q = true := by simpa using hb
    rw [if_neg hb, hzero i hi2 hb1, Complex.norm_zero]

theorem zeroed_false_eq (n q : Nat) (state : List (Complex K)) (hlen : state.length = 2 ^ n)
    (hzero : ∀ i, i < 2 ^ n → i.testBit q = true → ampAt state i = 0) :
    zeroed q false state = state := by
  conv_rhs => rw [list_eq_map_range state]
  unfold zeroed
  apply List.map_congr_left
  intro i hi
  have hi2 : i < 2 ^ n := by
    rw [← hlen]; simpa using hi
  by_cases hb : i.testBit q = false
  · simp [hb]
  · have hb1 : i.testBit q = true := by simpa using hb
    rw [if_neg hb, hzero i hi2 hb1]

/-- C10: on a well-formed system whose total squared norm is one and whose amplitudes at
the indices with bit `q` set are all zero, for a qubit index `q` below 64 (the width of the
`size_t` that the routine shifts by `q`) and every draw `r < 1` (in particular every draw in
`[0, 1)`), `measureQubit` on qubit `q` returns `0` and leaves the state vector unchanged. -/
theorem measureQubit_bit_zero_state (sqrt : K → K) (hs : IsSqrt sqrt) (q : Nat)
    (hq : q < 64) (r : K)
    (qs : QubitSystem K) (hwf : WellFormed qs) (hnorm : totalNorm qs.state = 1)
    (hzero : ∀ i, i < 2 ^ qs.nQubits → i.testBit q = true → ampAt qs.state i = 0)
    (hr : r < 1) :
    ∃ qs', measureQubit sqrt q r qs = some (0, qs') ∧ qs'.state = qs.state := by
  have hlen : qs.state.length = 2 ^ qs.nQubits := hwf
  have hp0 : bitNorm qs.nQubits q false qs.state = 1 := by
    rw [bitNorm_false_eq_totalNorm _ _ _ hlen hzero, hnorm]
  have heq := measureQubit_eq sqrt q r qs hwf hq 1 1 false hp0.symm (by simp [hr])
    (by rw [hp0, sqrt_one_eq sqrt hs])
  have hn : ¬ (1 : K) < 1e-10 := by norm_num
  rw [if_neg hn, if_pos hr] at heq
  refine ⟨_, heq, ?_⟩
  show List.map _ (zeroed q false qs.state) = qs.state
  rw [zeroed_false_eq _ _ _ hlen hzero]
  conv_rhs => rw [← List.map_id qs.state]
  apply List.map_congr_left
  intro a _
  exact Complex.divReal_one a

theorem measureQubit_bit_zero_state_witness :
    IsSqrt Real.sqrt ∧ 0 < 64 ∧
    WellFormed (⟨2, [⟨3 / 5, 0⟩, ⟨0, 0⟩, ⟨0, 4 / 5⟩, ⟨0, 0⟩], [], -1, -1⟩ : QubitSystem ℝ) ∧
    totalNorm ([⟨3 / 5, 0⟩, ⟨0, 0⟩, ⟨0, 4 / 5⟩, ⟨0, 0⟩] : List (Complex ℝ)) = 1 ∧
    (∀ i, i < 2 ^ 2 → i.testBit 0 = true →
      ampAt ([⟨3 / 5, 0⟩, ⟨0, 0⟩, ⟨0, 4 / 5⟩, ⟨0, 0⟩] : List (Complex ℝ)) i = 0) ∧
    (1 / 2 : ℝ) < 1 ∧
    ∃ qs', measureQubit Real.sqrt 0 (1 / 2 : ℝ)
        ⟨2, [⟨3 / 5, 0⟩, ⟨0, 0⟩, ⟨0, 4 / 5⟩, ⟨0, 0⟩], [], -1, -1⟩ = some (0, qs') ∧
      qs'.state = [⟨3 / 5, 0⟩, ⟨0, 0⟩, ⟨0, 4 / 5⟩, ⟨0, 0⟩] := by
  have hnorm : totalNorm ([⟨3 / 5, 0⟩, ⟨0, 0⟩, ⟨0, 4 / 5⟩, ⟨0, 0⟩] : List (Complex ℝ)) = 1 := by
    norm_num [totalNorm, Complex.norm]
  have hzero : ∀ i, i < 2 ^ 2 → i.testBit 0 = true →
      ampAt ([⟨3 / 5, 0⟩, ⟨0, 0⟩, ⟨0, 4 / 5⟩, ⟨0, 0⟩] : List (Complex ℝ)) i = 0 := by
    intro i hi hb
    have : i = 0 ∨ i = 1 ∨ i = 2 ∨ i = 3 := by omega
    rcases this with h | h | h | h <;> subst h
    · simp at hb
    · rfl
    · simp at hb
    · rfl
  exact ⟨isSqrt_real, by decide, rfl, hnorm, hzero, by norm_num,
    measureQubit_bit_zero_state Real.sqrt isSqrt_real 0 (by decide) (1 / 2 : ℝ)
      ⟨2, [⟨3 / 5, 0⟩, ⟨0, 0⟩, ⟨0, 4 / 5⟩, ⟨0, 0⟩], [], -1, -1⟩ rfl hnorm hzero (by norm_num)⟩

/-! ## Reduced state, shots, bit strings, teleportation and the interpreter -/

theorem getQubitState_fold (index : Nat) (state : List (Complex K)) (n : Nat) :
    (List.range n).foldl (getQubitState.body index state)
      ((⟨0, 0⟩ : Complex K), (⟨0, 0⟩ : Complex K)) =
      (bitSum n index false state, bitSum n index true state) := by
  induction n with
  | zero => simp [bitSum]
  | succ m ih =>
    rw [List.range_succ, List.foldl_append, ih]
    simp only [List.foldl_cons, List.foldl_nil, getQubitState.body, bit_eq_testBit]
    by_cases hb : m.testBit index
    · simp [hb, bitSum, Finset.sum_range_succ, Complex.ext_iff, ampAt]
    · simp [hb, bitSum, Finset.sum_range_succ, Complex.ext_iff, ampAt]

/-- Closed form of `getQubitState` in terms of the two amplitude sums. -/
theorem getQubitState_eq (sqrt : K → K) (index : Nat) (qs : QubitSystem K) :
    getQubitState sqrt index qs =
      if sqrt ((bitSum qs.state.length index false qs.state).norm +
          (bitSum qs.state.length index true qs.state).norm) < 1e-8 then
        [⟨1, 0⟩, ⟨0, 0⟩]
      else
        [(bitSum qs.state.length index false qs.state).divReal
            (sqrt ((bitSum qs.state.length index false qs.state).norm +
              (bitSum qs.state.length index true qs.state).norm)),
         (bitSum qs.state.length index true qs.state).divReal
            (sqrt ((bitSum qs.state.length index false qs.state).norm +
              (bitSum qs.state.length index true qs.state).norm))] := by
  unfold getQubitState
  rw [getQubitState_fold]

/-- C13: for every state and every qubit index below 64 (the width of the `size_t` that the
routine shifts by the index), with `amp0` the sum of the amplitudes at the indices whose bit
at the qubit index is `0` and `amp1` the sum of those whose bit is `1`, `getQubitState`
returns `(amp0, amp1)` divided by `sqrt(|amp0|² + |amp1|²)`, and returns `(1, 0)` instead
when that norm is below `1e-8`. -/
theorem getQubitState_spec (sqrt : K → K) (index : Nat) (_hindex : index < 64)
    (qs : QubitSystem K) :
    getQubitState sqrt index qs =
      if sqrt ((bitSum qs.state.length index false qs.state).norm +
          (bitSum qs.state.length index true qs.state).norm) < 1e-8 then
        [⟨1, 0⟩, ⟨0, 0⟩]
      else
        [(bitSum qs.state.length index false qs.state).divReal
            (sqrt ((bitSum qs.state.length index false qs.state).norm +
              (bitSum qs.state.length index true qs.state).norm)),
         (bitSum qs.state.length index true qs.state).divReal
            (sqrt ((bitSum qs.state.length index false qs.state).norm +
              (bitSum qs.state.length index true qs.state).norm))] := by
  unfold getQubitState
  rw [getQubitState_fold]

theorem getQubitState_spec_witness :
    0 < 64 ∧
    getQubitState Real.sqrt 0
        (⟨2, [⟨1 / 2, 0⟩, ⟨0, 1 / 2⟩, ⟨1 / 2, 0⟩, ⟨0, 1 / 2⟩], [], -1, -1⟩ : QubitSystem ℝ) =
      [(⟨1, 0⟩ : Complex ℝ).divReal (Real.sqrt 2), (⟨0, 1⟩ : Complex ℝ).divReal (Real.sqrt 2)] := by
  have h := getQubitState_spec Real.sqrt 0 (by decide)
    (⟨2, [⟨1 / 2, 0⟩, ⟨0, 1 / 2⟩, ⟨1 / 2, 0⟩, ⟨0, 1 / 2⟩], [], -1, -1⟩ : QubitSystem ℝ)
  have h0 : bitSum 4 0 false
      ([⟨1 / 2, 0⟩, ⟨0, 1 / 2⟩, ⟨1 / 2, 0⟩, ⟨0, 1 / 2⟩] : List (Complex ℝ)) = ⟨1, 0⟩ := by
    simp [bitSum, Finset.sum_range_succ, ampAt]
    norm_num
  have h1 : bitSum 4 0 true
      ([⟨1 / 2, 0⟩, ⟨0, 1 / 2⟩, ⟨1 / 2, 0⟩, ⟨0, 1 / 2⟩] : List (Complex ℝ)) = ⟨0, 1⟩ := by
    simp [bitSum, Finset.sum_range_succ, ampAt]
    norm_num
  have hn : ¬ Real.sqrt 2 < 1e-8 := by
    rw [not_lt]
    exact Real.le_sqrt_of_sq_le (by norm_num)
  refine ⟨by decide, ?_⟩
  rw [h]
  simp only [List.length_cons, List.length_nil]
  rw [h0, h1]
  rw [show (⟨1, 0⟩ : Complex ℝ).norm + (⟨0, 1⟩ : Complex ℝ).norm = 2 by
    norm_num [Complex.norm], if_neg hn]

theorem getQubitState_unit (sqrt : K → K) (hs : IsSqrt sqrt) (index : Nat)
    (qs : QubitSystem K) :
    ∃ a0 a1 : Complex K, getQubitState sqrt index qs = [a0, a1] ∧ a0.norm + a1.norm = 1 := by
  rw [getQubitState_eq]
  by_cases hn : sqrt ((bitSum qs.state.length index false qs.state).norm +
      (bitSum qs.state.length index true qs.state).norm) < 1e-8
  · rw [if_pos hn]
    exact ⟨_, _, rfl, by simp [Complex.norm]⟩
  · rw [if_neg hn]
    refine ⟨_, _, rfl, ?_⟩
    have hS : 0 ≤ (bitSum qs.state.length index false qs.state).norm +
        (bitSum qs.state.length index true qs.state).norm :=
      add_nonneg (Complex.norm_nonneg _) (Complex.norm_nonneg _)
    obtain ⟨_, hsq⟩ := hs _ hS
    have hpos : (0 : K) < sqrt ((bitSum qs.state.length index false qs.state).norm +
        (bitSum qs.state.length index true qs.state).norm) :=
      lt_of_lt_of_le (by norm_num) (not_lt.mp hn)
    rw [Complex.norm_divReal, Complex.norm_divReal, ← add_div, hsq]
    have hmul := mul_pos hpos hpos
    rw [hsq] at hmul
    exact div_self (ne_of_gt hmul)

theorem fidelityWith_two (sqrt : K → K) (e0 e1 a0 a1 : Complex K) (index : Nat)
    (qs : QubitSystem K) (ha : getQubitState sqrt index qs = [a0, a1]) :
    fidelityWith sqrt [e0, e1] index qs = (e0.conj * a0 + e1.conj * a1).norm := by
  unfold fidelityWith
  rw [ha]
  simp [Complex.mk_zero, Complex.zero_add]

theorem cauchy_schwarz_two (e0 e1 a0 a1 : Complex K) :
    (e0.conj * a0 + e1.conj * a1).norm ≤ (e0.norm + e1.norm) * (a0.norm + a1.norm) := by
  simp only [Complex.norm, Complex.conj, Complex.add_re, Complex.add_im, Complex.mul_re,
    Complex.mul_im]
  nlinarith [sq_nonneg (e0.re * a1.re - e1.re * a0.re - e0.im * a1.im + e1.im * a0.im),
    sq_nonneg (e0.re * a1.im - e1.re * a0.im + e0.im * a1.re - e1.im * a0.re),
    sq_nonneg (e0.re * a1.re - e1.re * a0.re + e0.im * a1.im - e1.im * a0.im),
    sq_nonneg (e0.re * a1.im - e1.re * a0.im - e0.im * a1.re + e1.im * a0.re)]

theorem fidelityWith_bounds (sqrt : K → K) (hs : IsSqrt sqrt) (e0 e1 : Complex K)
    (index : Nat) (qs : QubitSystem K) (he : e0.norm + e1.norm ≤ 1) :
    0 ≤ fidelityWith sqrt [e0, e1] index qs ∧ fidelityWith sqrt [e0, e1] index qs ≤ 1 := by
  obtain ⟨a0, a1, ha, hunit⟩ := getQubitState_unit sqrt hs index qs
  rw [fidelityWith_two sqrt e0 e1 a0 a1 index qs ha]
  refine ⟨Complex.norm_nonneg _, ?_⟩
  have h := cauchy_schwarz_two e0 e1 a0 a1
  rw [hunit, mul_one] at h
  exact le_trans h he

/-- C14: for every system state and qubit index, `fidelityWith(expected, index)` lies in
`[0, 1]` for every expected two-vector whose squared norm is at most one, and in particular
for the two teleportation expectation vectors `(0.7071, 0.7071)` and
`(0.7071, -0.7071)`. -/
theorem fidelityWith_in_unit_interval (sqrt : K → K) (hs : IsSqrt sqrt) (index : Nat)
    (qs : QubitSystem K) :
    (∀ e0 e1 : Complex K, e0.norm + e1.norm ≤ 1 →
      0 ≤ fidelityWith sqrt [e0, e1] index qs ∧ fidelityWith sqrt [e0, e1] index qs ≤ 1) ∧
    (0 ≤ fidelityWith sqrt [⟨0.7071, 0⟩, ⟨0.7071, 0⟩] index qs ∧
      fidelityWith sqrt [⟨0.7071, 0⟩, ⟨0.7071, 0⟩] index qs ≤ 1) ∧
    (0 ≤ fidelityWith sqrt [⟨0.7071, 0⟩, ⟨-0.7071, 0⟩] index qs ∧
      fidelityWith sqrt [⟨0.7071, 0⟩, ⟨-0.7071, 0⟩] index qs ≤ 1) := by
  refine ⟨fun e0 e1 he => fidelityWith_bounds sqrt hs e0 e1 index qs he, ?_, ?_⟩
  · exact fidelityWith_bounds sqrt hs _ _ index qs (by norm_num [Complex.norm])
  · exact fidelityWith_bounds sqrt hs _ _ index qs (by norm_num [Complex.norm])

theorem fidelityWith_in_unit_interval_witness :
    IsSqrt Real.sqrt ∧
    0 ≤ fidelityWith Real.sqrt [⟨0.7071, 0⟩, ⟨-0.7071, 0⟩] 2
      (⟨3, [⟨0, 0⟩, ⟨-1, 0⟩, ⟨0, 0⟩, ⟨0, 0⟩, ⟨0, 0⟩, ⟨1, 0⟩, ⟨0, 0⟩, ⟨0, 0⟩], [], 1, 0⟩ :
        QubitSystem ℝ) ∧
    fidelityWith Real.sqrt [⟨0.7071, 0⟩, ⟨-0.7071, 0⟩] 2
      (⟨3, [⟨0, 0⟩, ⟨-1, 0⟩, ⟨0, 0⟩, ⟨0, 0⟩, ⟨0, 0⟩, ⟨1, 0⟩, ⟨0, 0⟩, ⟨0, 0⟩], [], 1, 0⟩ :
        QubitSystem ℝ) ≤ 1 :=
  ⟨isSqrt_real, (fidelityWith_in_unit_interval Real.sqrt isSqrt_real 2 _).2.2⟩
theorem bitsetToString_length (width value : Nat) :
    (bitsetToString width value).length = width := by
  simp [bitsetToString]

theorem measureAll_eq (r : K) (qs : QubitSystem K) (hn : qs.nQubits ≤ 64) :
    measureAll r qs =
      some ((bitsetToString 64 (measure r qs).1).drop (64 - qs.nQubits), (measure r qs).2) := by
  have hn2 : (measure r qs).2.nQubits ≤ 64 := hn
  have hpos : 64 - qs.nQubits ≤ (bitsetToString 64 (measure r qs).1).length := by
    rw [bitsetToString_length]; omega
  unfold measureAll
  simp only [hn2, if_true, substr]
  have hq : (measure r qs).2.nQubits = qs.nQubits := rfl
  rw [hq, if_pos hpos]
  rfl

theorem countSum_nonneg (counts : List (List Char × Int))
    (hnn : ∀ e, e ∈ counts → 0 ≤ e.2) : 0 ≤ countSum counts := by
  induction counts with
  | nil => simp [countSum]
  | cons e rest ih =>
    simp only [countSum, List.map_cons, List.sum_cons] at ih ⊢
    have h1 := hnn e (List.mem_cons_self _ _)
    have h2 := ih (fun e he => hnn e (List.mem_cons_of_mem _ he))
    omega

/-- While the sum of the counts stays below the largest `int`, the increment of a bucket
does not overflow and adds one to the sum. -/
theorem mapIncrement_spec (key : List Char) (counts : List (List Char × Int))
    (hnn : ∀ e, e ∈ counts → 0 ≤ e.2) (hsum : countSum counts < 2 ^ 31 - 1) :
    ∃ counts', mapIncrement key counts = some counts' ∧
      countSum counts' = countSum counts + 1 ∧ ∀ e, e ∈ counts' → 0 ≤ e.2 := by
  induction counts with
  | nil =>
    refine ⟨_, rfl, by simp [countSum], ?_⟩
    intro e he
    simp only [List.mem_singleton] at he
    subst he
    show (0 : Int) ≤ 0 + 1
    decide
  | cons e rest ih =>
    obtain ⟨k, v⟩ := e
    have hv : 0 ≤ v := hnn (k, v) (List.mem_cons_self _ _)
    have hrest : ∀ e, e ∈ rest → 0 ≤ e.2 := fun e he => hnn e (List.mem_cons_of_mem _ he)
    have hrs := countSum_nonneg rest hrest
    have hsum2 : v + countSum rest < 2 ^ 31 - 1 := by
      simpa [countSum, List.map_cons, List.sum_cons] using hsum
    unfold mapIncrement
    by_cases h1 : key = k
    · have hlt : v < 2 ^ 31 - 1 := by omega
      rw [if_pos h1, if_pos hlt]
      refine ⟨_, rfl, ?_, ?_⟩
      · simp only [countSum, List.map_cons, List.sum_cons]; ring
      · intro e he
        rcases List.mem_cons.mp he with h | h
        · subst h; show 0 ≤ v + 1; omega
        · exact hrest e h
    · rw [if_neg h1]
      by_cases h2 : key < k
      · rw [if_pos h2]
        refine ⟨_, rfl, ?_, ?_⟩
        · simp only [countSum, List.map_cons, List.sum_cons]; ring
        · intro e he
          rcases List.mem_cons.mp he with h | h
          · subst h; show (0 : Int) ≤ 0 + 1; decide
          · exact hnn e h
      · rw [if_neg h2]
        obtain ⟨c, hc, hcs, hcn⟩ := ih hrest (by omega)
        rw [hc]
        refine ⟨_, rfl, ?_, ?_⟩
        · simp only [countSum, List.map_cons, List.sum_cons] at hcs ⊢
          rw [hcs]; ring
        · intro e he
          rcases List.mem_cons.mp he with h | h
          · subst h; exact hv
          · exact hcn e h

/-- Below `2 ^ 31` shots no counter overflows: `runShots` returns, the counts are
non-negative and sum to the number of shots, and the system is left as it was. -/
theorem runShots_invariant (draws : Nat → K) (shots : Nat) (qs : QubitSystem K)
    (hn : qs.nQubits ≤ 64) (hshots : shots < 2 ^ 31) :
    ∃ counts, runShots draws shots qs = some (counts, qs) ∧ countSum counts = shots ∧
      ∀ e, e ∈ counts → 0 ≤ e.2 := by
  unfold runShots
  induction shots with
  | zero => exact ⟨[], rfl, rfl, fun e he => absurd he (List.not_mem_nil e)⟩
  | succ m ih =>
    obtain ⟨counts, hrun, hsum, hnn⟩ := ih (by omega)
    have hlt : countSum counts < 2 ^ 31 - 1 := by
      rw [hsum]
      have : (m : Int) + 1 < 2 ^ 31 := by exact_mod_cast hshots
      omega
    obtain ⟨c, hc, hcs, hcn⟩ :=
      mapIncrement_spec ((bitsetToString 64 (measure (draws m) qs).1).drop (64 - qs.nQubits))
        counts hnn hlt
    rw [foldlM_range_succ, hrun]
    simp only [Option.some_bind, measureAll_eq _ _ hn, Option.bind_eq_bind, Option.pure_def,
      hc]
    exact ⟨c, rfl, by rw [hcs, hsum]; simp, hcn⟩

/-- When every shot gives the same key, the histogram after `m + 1` shots, the largest
`int` at most, is the single bucket of that key with count `m + 1`. -/
theorem runShots_single_key (draws : Nat → K) (qs : QubitSystem K) (key : List Char)
    (hkey : ∀ i, ∃ qs', measureAll (draws i) qs = some (key, qs')) (m : Nat)
    (hm : m + 1 ≤ 2 ^ 31 - 1) :
    runShots draws (m + 1) qs = some ([(key, ((m + 1 : Nat) : Int))], qs) := by
  unfold runShots
  induction m with
  | zero =>
    obtain ⟨qs', hq⟩ := hkey 0
    rw [foldlM_range_succ]
    simp only [List.range_zero, List.foldlM_nil, Option.pure_def, Option.some_bind,
      Option.bind_eq_bind, hq, mapIncrement]
    rfl
  | succ k ih =>
    obtain ⟨qs', hq⟩ := hkey (k + 1)
    have hlt : ((k + 1 : Nat) : Int) < 2 ^ 31 - 1 := by
      have : k + 1 + 1 ≤ 2 ^ 31 - 1 := hm
      omega
    rw [foldlM_range_succ, ih (by omega)]
    simp only [Option.some_bind, Option.bind_eq_bind, Option.pure_def, hq, mapIncrement,
      if_true, hlt]
    rfl

/-- C12 as stated fails: on the initial one-qubit system every shot gives the key `0`, so
after `2 ^ 31 - 1` shots its 32-bit counter holds the largest `int`, and the increment of
shot number `2 ^ 31` overflows: `runShots(2 ^ 31)` has no defined result, hence no
histogram whose counts sum to `2 ^ 31`. -/
theorem runShots_counter_overflow :
    runShots (fun _ => (1 / 2 : ℚ)) (2 ^ 31 - 1) (QubitSystem.new 1) =
      some ([(['0'], 2 ^ 31 - 1)], QubitSystem.new 1) ∧
    runShots (fun _ => (1 / 2 : ℚ)) (2 ^ 31) (QubitSystem.new 1) = none := by
  have hkey : ∀ i : Nat, ∃ qs', measureAll ((fun _ => (1 / 2 : ℚ)) i) (QubitSystem.new 1) =
      some (['0'], qs') := by
    intro i
    refine ⟨(measure (1 / 2 : ℚ) (QubitSystem.new 1)).2, ?_⟩
    rw [measureAll_eq _ _ (by decide)]
    have hres : (measure (1 / 2 : ℚ) (QubitSystem.new 1)).1 = 0 := by
      simp [measure, measure.scan, QubitSystem.new, Complex.norm]
    rw [hres]
    rfl
  have h1 := runShots_single_key (fun _ => (1 / 2 : ℚ)) (QubitSystem.new 1) ['0'] hkey
    2147483646 (by norm_num)
  have h2 : runShots (fun _ => (1 / 2 : ℚ)) 2147483647 (QubitSystem.new 1) =
      some ([(['0'], 2147483647)], QubitSystem.new 1) := h1
  refine ⟨h2, ?_⟩
  obtain ⟨qs', hq⟩ := hkey 2147483647
  show runShots (fun _ => (1 / 2 : ℚ)) (2147483647 + 1) (QubitSystem.new 1) = none
  unfold runShots at h2 ⊢
  rw [foldlM_range_succ, h2]
  simp only [Option.some_bind, Option.bind_eq_bind, Option.pure_def, hq, mapIncrement, if_true]
  rfl

/-- C12, amended: for every system of at most 64 qubits, every shot count `n` below `2 ^ 31`
(so that no 32-bit counter can overflow) and every sequence of random draws, `runShots(n)`
returns a histogram whose counts sum to exactly `n`, and the system itself (state vector,
qubit count and sentinels) is left unchanged. -/
theorem runShots_counts_and_frame (draws : Nat → K) (shots : Nat) (qs : QubitSystem K)
    (hn : qs.nQubits ≤ 64) (hshots : shots < 2 ^ 31) :
    ∃ counts, runShots draws shots qs = some (counts, qs) ∧ countSum counts = shots := by
  obtain ⟨counts, hrun, hsum, _⟩ := runShots_invariant draws shots qs hn hshots
  exact ⟨counts, hrun, hsum⟩

theorem runShots_counts_and_frame_witness :
    (2 : Nat) ≤ 64 ∧ 5 < 2 ^ 31 ∧
    ∃ counts, runShots (fun i => if i % 2 = 0 then (0 : ℚ) else 3 / 4) 5
        (⟨2, [⟨1 / 2, 0⟩, ⟨1 / 2, 0⟩, ⟨1 / 2, 0⟩, ⟨1 / 2, 0⟩], [], -1, -1⟩ : QubitSystem ℚ) =
        some (counts, ⟨2, [⟨1 / 2, 0⟩, ⟨1 / 2, 0⟩, ⟨1 / 2, 0⟩, ⟨1 / 2, 0⟩], [], -1, -1⟩) ∧
      countSum counts = (5 : Nat) :=
  ⟨by decide, by decide,
    runShots_counts_and_frame (fun i => if i % 2 = 0 then (0 : ℚ) else 3 / 4) 5
      (⟨2, [⟨1 / 2, 0⟩, ⟨1 / 2, 0⟩, ⟨1 / 2, 0⟩, ⟨1 / 2, 0⟩], [], -1, -1⟩ : QubitSystem ℚ)
      (by decide) (by decide)⟩

theorem bitsetToString_drop (width n value : Nat) (hn : n ≤ width) :
    (bitsetToString width value).drop (width - n) = bitsetToString n value := by
  unfold bitsetToString
  rw [← List.map_drop, List.drop_reverse, List.take_range, List.length_range]
  have : min (width - (width - n)) width = n := by omega
  rw [this]

theorem mapM_eq_map {α β : Type} (f : α → Option β) (g : α → β) (l : List α)
    (h : ∀ a, a ∈ l → f a = some (g a)) : l.mapM f = some (l.map g) := by
  induction l with
  | nil => rfl
  | cons a t ih =>
    rw [List.mapM_cons, h a (List.mem_cons_self a t), ih (fun b hb => h b (List.mem_cons_of_mem a hb))]
    rfl

theorem exportStateJSON_eq (qs : QubitSystem K) (hn : qs.nQubits ≤ 64) :
    exportStateJSON qs = some ((List.range qs.state.length).map (fun i =>
      (bitsetToString qs.nQubits i, (qs.state.getD i 0).re, (qs.state.getD i 0).im))) := by
  unfold exportStateJSON
  apply mapM_eq_map
  intro i _
  simp [hn, substr, bitsetToString_length, bitsetToString_drop _ _ _ hn]

theorem exportStateCSV_eq (qs : QubitSystem K) (hn : qs.nQubits ≤ 64) :
    exportStateCSV qs = some ((List.range qs.state.length).map (fun i =>
      (bitsetToString qs.nQubits i, (qs.state.getD i 0).re, (qs.state.getD i 0).im))) := by
  unfold exportStateCSV
  apply mapM_eq_map
  intro i _
  simp [hn, substr, bitsetToString_length, bitsetToString_drop _ _ _ hn]

theorem printState_eq (qs : QubitSystem K) (hn : qs.nQubits ≤ 16) :
    printState qs = some ((List.range qs.state.length).map (fun i =>
      ((bitsetToString qs.nQubits i).reverse, qs.state.getD i 0))) := by
  unfold printState
  apply mapM_eq_map
  intro i _
  simp [hn, substr, bitsetToString_length, bitsetToString_drop _ _ _ hn]

/-- C15 as stated fails: on the two-qubit initial state the key that `exportStateJSON`
writes for index `1` is `01`, while the label `printState` shows for index `1` is `10`. -/
theorem printState_label_differs_from_export_key :
    ∃ json shown,
      exportStateJSON (QubitSystem.new 2 : QubitSystem ℚ) = some json ∧
      printState (QubitSystem.new 2 : QubitSystem ℚ) = some shown ∧
      (json[1]?).map (fun e => e.1) = some ['0', '1'] ∧
      (shown[1]?).map (fun e => e.1) = some ['1', '0'] ∧
      (['0', '1'] : List Char) ≠ ['1', '0'] := by
  refine ⟨_, _, exportStateJSON_eq _ (by decide), printState_eq _ (by decide), ?_, ?_, by decide⟩
  · rfl
  · rfl

/-- C15, amended: for every well-formed system of at most 16 qubits and every basis index
`i < 2 ^ nQubits`, the bitstring `measureAll` returns for outcome `i` and the keys that
`exportStateJSON` and `exportStateCSV` write for index `i` are one and the same string, the
bits of `i` from qubit `nQubits - 1` down to qubit `0`; the label `printState` shows for
index `i` is that string reversed. -/
theorem bitstring_convention (qs : QubitSystem K) (i : Nat) (hwf : WellFormed qs)
    (hn : qs.nQubits ≤ 16) (hi : i < 2 ^ qs.nQubits) :
    ∃ json csv shown,
      exportStateJSON qs = some json ∧ exportStateCSV qs = some csv ∧
      printState qs = some shown ∧
      (json[i]?).map (fun e => e.1) = some (bitsetToString qs.nQubits i) ∧
      (csv[i]?).map (fun e => e.1) = some (bitsetToString qs.nQubits i) ∧
      (shown[i]?).map (fun e => e.1) = some (bitsetToString qs.nQubits i).reverse ∧
      (∀ r : K, (measure r qs).1 = i →
        (measureAll r qs).map (fun p => p.1) = some (bitsetToString qs.nQubits i)) := by
  have hil : i < qs.state.length := by rw [hwf]; exact hi
  refine ⟨_, _, _, exportStateJSON_eq qs (by omega), exportStateCSV_eq qs (by omega),
    printState_eq qs hn, ?_, ?_, ?_, ?_⟩
  · simp [List.getElem?_range hil]
  · simp [List.getElem?_range hil]
  · simp [List.getElem?_range hil]
  · intro r hr
    rw [measureAll_eq r qs (by omega), hr]
    simp [bitsetToString_drop _ _ _ (show qs.nQubits ≤ 64 by omega)]

theorem bitstring_convention_witness :
    WellFormed (⟨2, [⟨0, 0⟩, ⟨1, 0⟩, ⟨0, 0⟩, ⟨0, 0⟩], [], -1, -1⟩ : QubitSystem ℚ) ∧
    (2 : Nat) ≤ 16 ∧ 1 < 2 ^ 2 ∧
    (measure (1 / 2 : ℚ) ⟨2, [⟨0, 0⟩, ⟨1, 0⟩, ⟨0, 0⟩, ⟨0, 0⟩], [], -1, -1⟩).1 = 1 ∧
    ∃ json csv shown,
      exportStateJSON (⟨2, [⟨0, 0⟩, ⟨1, 0⟩, ⟨0, 0⟩, ⟨0, 0⟩], [], -1, -1⟩ : QubitSystem ℚ) =
        some json ∧
      exportStateCSV (⟨2, [⟨0, 0⟩, ⟨1, 0⟩, ⟨0, 0⟩, ⟨0, 0⟩], [], -1, -1⟩ : QubitSystem ℚ) =
        some csv ∧
      printState (⟨2, [⟨0, 0⟩, ⟨1, 0⟩, ⟨0, 0⟩, ⟨0, 0⟩], [], -1, -1⟩ : QubitSystem ℚ) =
        some shown ∧
      (json[1]?).map (fun e => e.1) = some ['0', '1'] ∧
      (csv[1]?).map (fun e => e.1) = some ['0', '1'] ∧
      (shown[1]?).map (fun e => e.1) = some ['1', '0'] ∧
      (measureAll (1 / 2 : ℚ) ⟨2, [⟨0, 0⟩, ⟨1, 0⟩, ⟨0, 0⟩, ⟨0, 0⟩], [], -1, -1⟩).map
        (fun p => p.1) = some ['0', '1'] := by
  have hm : (measure (1 / 2 : ℚ) ⟨2, [⟨0, 0⟩, ⟨1, 0⟩, ⟨0, 0⟩, ⟨0, 0⟩], [], -1, -1⟩).1 = 1 := by
    simp [measure, measure.scan, Complex.norm]
    norm_num
  obtain ⟨json, csv, shown, h1, h2, h3, h4, h5, h6, h7⟩ :=
    bitstring_convention (⟨2, [⟨0, 0⟩, ⟨1, 0⟩, ⟨0, 0⟩, ⟨0, 0⟩], [], -1, -1⟩ : QubitSystem ℚ) 1
      rfl (by decide) (by decide)
  exact ⟨rfl, by decide, by decide, hm, json, csv, shown, h1, h2, h3, h4, h5, h6,
    h7 (1 / 2) hm⟩

theorem testBit_facts :
    Nat.testBit 0 0 = false ∧ Nat.testBit 1 0 = true ∧ Nat.testBit 2 0 = false ∧
    Nat.testBit 3 0 = true ∧ Nat.testBit 4 0 = false ∧ Nat.testBit 5 0 = true ∧
    Nat.testBit 6 0 = false ∧ Nat.testBit 7 0 = true ∧
    Nat.testBit 0 1 = false ∧ Nat.testBit 1 1 = false ∧ Nat.testBit 2 1 = true ∧
    Nat.testBit 3 1 = true ∧ Nat.testBit 4 1 = false ∧ Nat.testBit 5 1 = false ∧
    Nat.testBit 6 1 = true ∧ Nat.testBit 7 1 = true ∧
    Nat.testBit 0 2 = false ∧ Nat.testBit 1 2 = false ∧ Nat.testBit 2 2 = false ∧
    Nat.testBit 3 2 = false ∧ Nat.testBit 4 2 = true ∧ Nat.testBit 5 2 = true ∧
    Nat.testBit 6 2 = true ∧ Nat.testBit 7 2 = true := by decide

/-- Evaluation of `applyGate` on qubit 1 of a three-qubit system. -/
theorem applyGate_three_qubit_one (g00 g01 g10 g11 a0 a1 a2 a3 a4 a5 a6 a7 : Complex K)
    (cb : List Int) (m0 m1 : Int) :
    applyGate [[g00, g01], [g10, g11]] 1
        (⟨3, [a0, a1, a2, a3, a4, a5, a6, a7], cb, m0, m1⟩ : QubitSystem K) =
      some ⟨3, [g00 * a0 + g01 * a2, g00 * a1 + g01 * a3,
        g10 * a2 + g11 * a0, g10 * a3 + g11 * a1,
        g00 * a4 + g01 * a6, g00 * a5 + g01 * a7,
        g10 * a6 + g11 * a4, g10 * a7 + g11 * a5], cb, m0, m1⟩ := by
  rw [applyGate_state g00 g01 g10 g11 1 ⟨3, [a0, a1, a2, a3, a4, a5, a6, a7], cb, m0, m1⟩
    (show WellFormed _ from rfl) (show 1 < 3 by decide)]
  simp [List.range, List.range.loop, ampAt, testBit_facts]

/-- Evaluation of `applyGate` on qubit 0 of a three-qubit system. -/
theorem applyGate_three_qubit_zero (g00 g01 g10 g11 a0 a1 a2 a3 a4 a5 a6 a7 : Complex K)
    (cb : List Int) (m0 m1 : Int) :
    applyGate [[g00, g01], [g10, g11]] 0
        (⟨3, [a0, a1, a2, a3, a4, a5, a6, a7], cb, m0, m1⟩ : QubitSystem K) =
      some ⟨3, [g00 * a0 + g01 * a1, g10 * a1 + g11 * a0,
        g00 * a2 + g01 * a3, g10 * a3 + g11 * a2,
        g00 * a4 + g01 * a5, g10 * a5 + g11 * a4,
        g00 * a6 + g01 * a7, g10 * a7 + g11 * a6], cb, m0, m1⟩ := by
  rw [applyGate_state g00 g01 g10 g11 0 ⟨3, [a0, a1, a2, a3, a4, a5, a6, a7], cb, m0, m1⟩
    (show WellFormed _ from rfl) (show 0 < 3 by decide)]
  simp [List.range, List.range.loop, ampAt, testBit_facts]
  rfl
theorem inv_sqrt_two_facts :
    (1 / Real.sqrt 2) * (1 / Real.sqrt 2) = 1 / 2 ∧ 0 < 1 / Real.sqrt 2 ∧
    Real.sqrt (1 / 2) = 1 / Real.sqrt 2 := by
  have h2 : Real.sqrt 2 * Real.sqrt 2 = 2 := Real.mul_self_sqrt (by norm_num)
  have hpos : 0 < Real.sqrt 2 := Real.sqrt_pos.mpr (by norm_num)
  have hsq : (1 / Real.sqrt 2) * (1 / Real.sqrt 2) = 1 / 2 := by
    field_simp
  have hp : 0 < 1 / Real.sqrt 2 := by positivity
  refine ⟨hsq, hp, ?_⟩
  rw [← hsq]
  exact Real.sqrt_mul_self (le_of_lt hp)

theorem teleport_step_one :
    applyGate (hadamard Real.sqrt) 1 (QubitSystem.new 3 : QubitSystem ℝ) =
      some ⟨3, [⟨1 / Real.sqrt 2, 0⟩, ⟨0, 0⟩, ⟨-(1 / Real.sqrt 2), 0⟩, ⟨0, 0⟩,
        ⟨0, 0⟩, ⟨0, 0⟩, ⟨0, 0⟩, ⟨0, 0⟩], [], -1, -1⟩ := by
  have hnew : (QubitSystem.new 3 : QubitSystem ℝ) =
      ⟨3, [⟨1, 0⟩, ⟨0, 0⟩, ⟨0, 0⟩, ⟨0, 0⟩, ⟨0, 0⟩, ⟨0, 0⟩, ⟨0, 0⟩, ⟨0, 0⟩], [], -1, -1⟩ := rfl
  rw [hnew, show hadamard Real.sqrt = [[⟨1 / Real.sqrt 2, 0⟩, ⟨1 / Real.sqrt 2, 0⟩],
    [⟨1 / Real.sqrt 2, 0⟩, ⟨-(1 / Real.sqrt 2), 0⟩]] from rfl, applyGate_three_qubit_one]
  simp [Complex.ext_iff]

theorem teleport_step_four :
    applyGate (hadamard Real.sqrt) 0
        (⟨3, [⟨1 / Real.sqrt 2, 0⟩, ⟨0, 0⟩, ⟨-(1 / Real.sqrt 2), 0⟩, ⟨0, 0⟩,
          ⟨0, 0⟩, ⟨0, 0⟩, ⟨0, 0⟩, ⟨0, 0⟩], [], -1, -1⟩ : QubitSystem ℝ) =
      some ⟨3, [⟨1 / 2, 0⟩, ⟨-(1 / 2), 0⟩, ⟨-(1 / 2), 0⟩, ⟨1 / 2, 0⟩,
        ⟨0, 0⟩, ⟨0, 0⟩, ⟨0, 0⟩, ⟨0, 0⟩], [], -1, -1⟩ := by
  obtain ⟨hsq, _, _⟩ := inv_sqrt_two_facts
  rw [show hadamard Real.sqrt = [[⟨1 / Real.sqrt 2, 0⟩, ⟨1 / Real.sqrt 2, 0⟩],
    [⟨1 / Real.sqrt 2, 0⟩, ⟨-(1 / Real.sqrt 2), 0⟩]] from rfl, applyGate_three_qubit_zero]
  simp only [Option.some.injEq, QubitSystem.mk.injEq, List.cons.injEq, Complex.ext_iff,
    Complex.add_re, Complex.add_im, Complex.mul_re, Complex.mul_im, true_and, and_true]
  refine ⟨⟨?_, ?_⟩, ⟨?_, ?_⟩, ⟨?_, ?_⟩, ⟨?_, ?_⟩, ⟨?_, ?_⟩, ⟨?_, ?_⟩, ⟨?_, ?_⟩, ⟨?_, ?_⟩⟩ <;>
    nlinarith [hsq]

theorem teleport_step_five (r : ℝ) (hr : r < 1 / 2) :
    measureQubit Real.sqrt 0 r
        (⟨3, [⟨1 / 2, 0⟩, ⟨-(1 / 2), 0⟩, ⟨-(1 / 2), 0⟩, ⟨1 / 2, 0⟩,
          ⟨0, 0⟩, ⟨0, 0⟩, ⟨0, 0⟩, ⟨0, 0⟩], [], -1, -1⟩ : QubitSystem ℝ) =
      some (0, ⟨3, [⟨1 / Real.sqrt 2, 0⟩, ⟨0, 0⟩, ⟨-(1 / Real.sqrt 2), 0⟩, ⟨0, 0⟩,
        ⟨0, 0⟩, ⟨0, 0⟩, ⟨0, 0⟩, ⟨0, 0⟩], [], 0, -1⟩) := by
  obtain ⟨hsq, hp, hroot⟩ := inv_sqrt_two_facts
  have hp0 : bitNorm 3 0 false ([⟨1 / 2, 0⟩, ⟨-(1 / 2), 0⟩, ⟨-(1 / 2), 0⟩, ⟨1 / 2, 0⟩,
      ⟨0, 0⟩, ⟨0, 0⟩, ⟨0, 0⟩, ⟨0, 0⟩] : List (Complex ℝ)) = 1 / 2 := by
    simp [bitNorm, Finset.sum_range_succ, ampAt, Complex.norm]
    norm_num
  rw [measureQubit_eq Real.sqrt 0 r ⟨3, [⟨1 / 2, 0⟩, ⟨-(1 / 2), 0⟩, ⟨-(1 / 2), 0⟩,
    ⟨1 / 2, 0⟩, ⟨0, 0⟩, ⟨0, 0⟩, ⟨0, 0⟩, ⟨0, 0⟩], [], -1, -1⟩ rfl (by decide) (1 / 2)
    (1 / Real.sqrt 2) false hp0.symm (by rw [decide_eq_true hr]; rfl)
    (by rw [hp0, hroot])]
  have hn : ¬ (1 / Real.sqrt 2 < 1e-10) := by
    intro h
    have h1 : (1 / Real.sqrt 2) * (1 / Real.sqrt 2) < 1e-10 * 1e-10 :=
      mul_lt_mul'' h h (le_of_lt hp) (le_of_lt hp)
    rw [hsq] at h1
    norm_num at h1
  rw [if_neg hn]
  simp only [if_pos hr]
  simp only [zeroed, List.range, List.range.loop, ampAt, List.map, testBit_facts]
  simp only [Option.some.injEq, Prod.mk.injEq, QubitSystem.mk.injEq, List.cons.injEq,
    Complex.ext_iff, Complex.divReal, true_and, and_true]
  simp
  field_simp

theorem teleport_step_six (r : ℝ) (hr : r < 1 / 2) :
    measureQubit Real.sqrt 1 r
        (⟨3, [⟨1 / Real.sqrt 2, 0⟩, ⟨0, 0⟩, ⟨-(1 / Real.sqrt 2), 0⟩, ⟨0, 0⟩,
          ⟨0, 0⟩, ⟨0, 0⟩, ⟨0, 0⟩, ⟨0, 0⟩], [], 0, -1⟩ : QubitSystem ℝ) =
      some (0, ⟨3, [⟨1, 0⟩, ⟨0, 0⟩, ⟨0, 0⟩, ⟨0, 0⟩, ⟨0, 0⟩, ⟨0, 0⟩, ⟨0, 0⟩, ⟨0, 0⟩],
        [], 0, 0⟩) := by
  obtain ⟨hsq, hp, hroot⟩ := inv_sqrt_two_facts
  have hp0 : bitNorm 3 1 false ([⟨1 / Real.sqrt 2, 0⟩, ⟨0, 0⟩, ⟨-(1 / Real.sqrt 2), 0⟩,
      ⟨0, 0⟩, ⟨0, 0⟩, ⟨0, 0⟩, ⟨0, 0⟩, ⟨0, 0⟩] : List (Complex ℝ)) = 1 / 2 := by
    simp [bitNorm, Finset.sum_range_succ, ampAt, Complex.norm, testBit_facts]
    field_simp
  rw [measureQubit_eq Real.sqrt 1 r ⟨3, [⟨1 / Real.sqrt 2, 0⟩, ⟨0, 0⟩,
    ⟨-(1 / Real.sqrt 2), 0⟩, ⟨0, 0⟩, ⟨0, 0⟩, ⟨0, 0⟩, ⟨0, 0⟩, ⟨0, 0⟩], [], 0, -1⟩ rfl
    (by decide) (1 / 2)
    (1 / Real.sqrt 2) false hp0.symm (by rw [decide_eq_true hr]; rfl)
    (by rw [hp0, hroot])]
  have hn : ¬ (1 / Real.sqrt 2 < 1e-10) := by
    intro h
    have h1 : (1 / Real.sqrt 2) * (1 / Real.sqrt 2) < 1e-10 * 1e-10 :=
      mul_lt_mul'' h h (le_of_lt hp) (le_of_lt hp)
    rw [hsq] at h1
    norm_num at h1
  rw [if_neg hn]
  simp only [if_pos hr]
  simp only [zeroed, List.range, List.range.loop, ampAt, List.map, testBit_facts]
  simp only [Option.some.injEq, Prod.mk.injEq, QubitSystem.mk.injEq, List.cons.injEq,
    Complex.ext_iff, Complex.divReal, true_and, and_true]
  simp

/-- On three qubits `applyCNOT(1, 2)` and `applyCNOT(0, 1)` return the state unchanged. -/
theorem applyCNOT_three_qubit (a0 a1 a2 a3 a4 a5 a6 a7 : Complex K)
    (cb : List Int) (m0 m1 : Int) :
    applyCNOT 1 2 (⟨3, [a0, a1, a2, a3, a4, a5, a6, a7], cb, m0, m1⟩ : QubitSystem K) =
      some ⟨3, [a0, a1, a2, a3, a4, a5, a6, a7], cb, m0, m1⟩ ∧
    applyCNOT 0 1 (⟨3, [a0, a1, a2, a3, a4, a5, a6, a7], cb, m0, m1⟩ : QubitSystem K) =
      some ⟨3, [a0, a1, a2, a3, a4, a5, a6, a7], cb, m0, m1⟩ := ⟨rfl, rfl⟩

theorem teleport_fidelity :
    fidelityWith Real.sqrt [⟨0.7071, 0⟩, ⟨0.7071, 0⟩] 2
        (⟨3, [⟨1, 0⟩, ⟨0, 0⟩, ⟨0, 0⟩, ⟨0, 0⟩, ⟨0, 0⟩, ⟨0, 0⟩, ⟨0, 0⟩, ⟨0, 0⟩], [], 0, 0⟩ :
          QubitSystem ℝ) = 0.7071 * 0.7071 := by
  have h0 : bitSum 8 2 false ([⟨1, 0⟩, ⟨0, 0⟩, ⟨0, 0⟩, ⟨0, 0⟩, ⟨0, 0⟩, ⟨0, 0⟩, ⟨0, 0⟩, ⟨0, 0⟩] :
      List (Complex ℝ)) = ⟨1, 0⟩ := by
    simp [bitSum, Finset.sum_range_succ, ampAt, testBit_facts]
  have h1 : bitSum 8 2 true ([⟨1, 0⟩, ⟨0, 0⟩, ⟨0, 0⟩, ⟨0, 0⟩, ⟨0, 0⟩, ⟨0, 0⟩, ⟨0, 0⟩, ⟨0, 0⟩] :
      List (Complex ℝ)) = ⟨0, 0⟩ := by
    simp [bitSum, Finset.sum_range_succ, ampAt, testBit_facts]
  have hstate : getQubitState Real.sqrt 2
      (⟨3, [⟨1, 0⟩, ⟨0, 0⟩, ⟨0, 0⟩, ⟨0, 0⟩, ⟨0, 0⟩, ⟨0, 0⟩, ⟨0, 0⟩, ⟨0, 0⟩], [], 0, 0⟩ :
        QubitSystem ℝ) = [⟨1, 0⟩, ⟨0, 0⟩] := by
    rw [getQubitState_eq]
    simp only [List.length_cons, List.length_nil]
    rw [h0, h1]
    have hn : (⟨1, 0⟩ : Complex ℝ).norm + (⟨0, 0⟩ : Complex ℝ).norm = 1 := by
      simp [Complex.norm]
    rw [hn, Real.sqrt_one, if_neg (by norm_num)]
    simp [Complex.divReal]
  rw [fidelityWith_two Real.sqrt _ _ _ _ 2 _ hstate]
  simp [Complex.norm, Complex.conj]

theorem teleport_check :
    verifyTeleportation.check Real.sqrt
        (⟨3, [⟨1, 0⟩, ⟨0, 0⟩, ⟨0, 0⟩, ⟨0, 0⟩, ⟨0, 0⟩, ⟨0, 0⟩, ⟨0, 0⟩, ⟨0, 0⟩], [], 0, 0⟩ :
          QubitSystem ℝ) =
      some (some (0.7071 * 0.7071),
        ⟨3, [⟨1, 0⟩, ⟨0, 0⟩, ⟨0, 0⟩, ⟨0, 0⟩, ⟨0, 0⟩, ⟨0, 0⟩, ⟨0, 0⟩, ⟨0, 0⟩], [], 0, 0⟩) := by
  have hp := printState_eq
    (⟨3, [⟨1, 0⟩, ⟨0, 0⟩, ⟨0, 0⟩, ⟨0, 0⟩, ⟨0, 0⟩, ⟨0, 0⟩, ⟨0, 0⟩, ⟨0, 0⟩], [], 0, 0⟩ :
      QubitSystem ℝ) (by decide)
  unfold verifyTeleportation.check
  simp
  rw [hp, teleport_fidelity]
  rfl

/-- C11 as stated fails: in the teleportation scenario on three qubits with the draws `0`
and `0` (outcomes `m0 = 0`, `m1 = 0`, no correction applied), the fidelity of qubit 2
against the expected state `(0.7071, 0.7071)` is `0.7071² = 0.49999041`, which is not
within `1e-4` of `1`. -/
theorem teleportation_fidelity_not_one :
    ∃ q1 q2 q3 q4 q5 q6 qf : QubitSystem ℝ,
      applyGate (hadamard Real.sqrt) 1 (QubitSystem.new 3) = some q1 ∧
      applyCNOT 1 2 q1 = some q2 ∧
      applyCNOT 0 1 q2 = some q3 ∧
      applyGate (hadamard Real.sqrt) 0 q3 = some q4 ∧
      measureQubit Real.sqrt 0 0 q4 = some (0, q5) ∧
      measureQubit Real.sqrt 1 0 q5 = some (0, q6) ∧
      verifyTeleportation.check Real.sqrt q6 = some (some (0.7071 * 0.7071), qf) ∧
      ¬ |(0.7071 * 0.7071 : ℝ) - 1| ≤ 1e-4 := by
  refine ⟨_, _, _, _, _, _, _, teleport_step_one, (applyCNOT_three_qubit _ _ _ _ _ _ _ _ _ _ _).1,
    (applyCNOT_three_qubit _ _ _ _ _ _ _ _ _ _ _).2, teleport_step_four,
    teleport_step_five 0 (by norm_num), teleport_step_six 0 (by norm_num), teleport_check, ?_⟩
  rw [abs_le]
  norm_num

/-- C11, amended: in the teleportation scenario on three qubits, for every pair of draws
below `1 / 2` both measurements return `0` (the outcome pair `m0 = 0`, `m1 = 0`), the state
is then the basis state of index `0`, no correction is applied, and the fidelity of qubit 2
against the expected state `(0.7071, 0.7071)` is `0.7071 * 0.7071`. -/
theorem teleportation_fidelity_outcome_zero_zero (r0 r1 : ℝ) (h0 : r0 < 1 / 2)
    (h1 : r1 < 1 / 2) :
    ∃ q1 q2 q3 q4 q5 q6 : QubitSystem ℝ,
      applyGate (hadamard Real.sqrt) 1 (QubitSystem.new 3) = some q1 ∧
      applyCNOT 1 2 q1 = some q2 ∧
      applyCNOT 0 1 q2 = some q3 ∧
      applyGate (hadamard Real.sqrt) 0 q3 = some q4 ∧
      measureQubit Real.sqrt 0 r0 q4 = some (0, q5) ∧
      measureQubit Real.sqrt 1 r1 q5 = some (0, q6) ∧
      q6.lastMeasuredQubit0 = 0 ∧ q6.lastMeasuredQubit1 = 0 ∧
      q6.state = basisState 8 0 ∧
      verifyTeleportation.check Real.sqrt q6 = some (some (0.7071 * 0.7071), q6) ∧
      fidelityWith Real.sqrt [⟨0.7071, 0⟩, ⟨0.7071, 0⟩] 2 q6 = 0.7071 * 0.7071 :=
  ⟨_, _, _, _, _, _, teleport_step_one, (applyCNOT_three_qubit _ _ _ _ _ _ _ _ _ _ _).1,
    (applyCNOT_three_qubit _ _ _ _ _ _ _ _ _ _ _).2, teleport_step_four,
    teleport_step_five r0 h0, teleport_step_six r1 h1, rfl, rfl, rfl, teleport_check,
    teleport_fidelity⟩

theorem teleportation_fidelity_outcome_zero_zero_witness :
    (1 / 4 : ℝ) < 1 / 2 ∧ (3 / 8 : ℝ) < 1 / 2 ∧
    ∃ q1 q2 q3 q4 q5 q6 : QubitSystem ℝ,
      applyGate (hadamard Real.sqrt) 1 (QubitSystem.new 3) = some q1 ∧
      applyCNOT 1 2 q1 = some q2 ∧
      applyCNOT 0 1 q2 = some q3 ∧
      applyGate (hadamard Real.sqrt) 0 q3 = some q4 ∧
      measureQubit Real.sqrt 0 (1 / 4) q4 = some (0, q5) ∧
      measureQubit Real.sqrt 1 (3 / 8) q5 = some (0, q6) ∧
      q6.lastMeasuredQubit0 = 0 ∧ q6.lastMeasuredQubit1 = 0 ∧
      q6.state = basisState 8 0 ∧
      verifyTeleportation.check Real.sqrt q6 = some (some (0.7071 * 0.7071), q6) ∧
      fidelityWith Real.sqrt [⟨0.7071, 0⟩, ⟨0.7071, 0⟩] 2 q6 = 0.7071 * 0.7071 :=
  ⟨by norm_num, by norm_num,
    teleportation_fidelity_outcome_zero_zero (1 / 4) (3 / 8) (by norm_num) (by norm_num)⟩

theorem digitChar_facts (m : Nat) (hm : m < 10) :
    (Nat.digitChar m).isDigit = true ∧ (Nat.digitChar m).toNat - '0'.toNat = m := by
  interval_cases m <;> decide

theorem decimalValue_append (l : List Char) (c : Char) :
    decimalValue (l ++ [c]) = 10 * decimalValue l + (c.toNat - '0'.toNat) := by
  simp [decimalValue, List.foldl_append]

theorem toDigitsCore_spec (fuel : Nat) : ∀ (n : Nat) (ds : List Char), n < fuel →
    ∃ l : List Char, Nat.toDigitsCore 10 fuel n ds = l ++ ds ∧ l ≠ [] ∧
      (∀ c, c ∈ l → c.isDigit = true) ∧ decimalValue l = n := by
  induction fuel with
  | zero => intro n ds h; omega
  | succ f ih =>
    intro n ds hn
    obtain ⟨hd, hv⟩ := digitChar_facts (n % 10) (Nat.mod_lt n (by decide))
    unfold Nat.toDigitsCore
    by_cases h0 : n / 10 = 0
    · simp only [h0, if_true]
      refine ⟨[Nat.digitChar (n % 10)], rfl, by simp, ?_, ?_⟩
      · intro c hc
        simp at hc
        rw [hc]; exact hd
      · have := decimalValue_append [] (Nat.digitChar (n % 10))
        simp only [List.nil_append] at this
        rw [this, hv]
        simp [decimalValue]
        omega
    · simp only [h0, if_false]
      obtain ⟨l, hl, _, hdig, hval⟩ := ih (n / 10) (Nat.digitChar (n % 10) :: ds) (by omega)
      refine ⟨l ++ [Nat.digitChar (n % 10)], by rw [hl]; simp, by simp, ?_, ?_⟩
      · intro c hc
        rcases List.mem_append.mp hc with h | h
        · exact hdig c h
        · simp at h
          rw [h]; exact hd
      · rw [decimalValue_append, hval, hv]
        omega

/-- The decimal numeral of `k` is a non-empty run of digits whose value is `k`. -/
theorem toDigits_spec (k : Nat) :
    Nat.toDigits 10 k ≠ [] ∧ (∀ c, c ∈ Nat.toDigits 10 k → c.isDigit = true) ∧
      decimalValue (Nat.toDigits 10 k) = k := by
  obtain ⟨l, hl, hne, hdig, hval⟩ := toDigitsCore_spec (k + 1) k [] (by omega)
  have : Nat.toDigits 10 k = l := by
    unfold Nat.toDigits
    rw [hl]; simp
  rw [this]
  exact ⟨hne, hdig, hval⟩
theorem find_zero (s pat : List Char) : find s pat 0 = findFrom pat s 0 := by
  simp [find]

theorem findFrom_not_mem (p : Char) (ps s : List Char) (i : Nat) (h : p ∉ s) :
    findFrom (p :: ps) s i = none := by
  induction s generalizing i with
  | nil => simp [findFrom]
  | cons c rest ih =>
    have hc : p ≠ c := fun e => h (by rw [e]; exact List.mem_cons_self c rest)
    have hr : p ∉ rest := fun e => h (List.mem_cons_of_mem c e)
    simp [findFrom, List.isPrefixOf, hc, ih _ hr]

theorem findFrom_single_cons_eq (x : Char) (rest : List Char) (i : Nat) :
    findFrom [x] (x :: rest) i = some i := by
  simp [findFrom, List.isPrefixOf]

theorem findFrom_single_cons_ne (x y : Char) (rest : List Char) (i : Nat) (h : y ≠ x) :
    findFrom [x] (y :: rest) i = findFrom [x] rest (i + 1) := by
  have h' : x ≠ y := fun e => h e.symm
  simp [findFrom, List.isPrefixOf, h']

theorem findFrom_single_skip (x : Char) (run rest : List Char) (i : Nat)
    (h : ∀ c, c ∈ run → c ≠ x) :
    findFrom [x] (run ++ rest) i = findFrom [x] rest (i + run.length) := by
  induction run generalizing i with
  | nil => simp
  | cons c t ih =>
    rw [List.cons_append, findFrom_single_cons_ne x c _ i (h c (List.mem_cons_self c t)),
      ih _ (fun d hd => h d (List.mem_cons_of_mem c hd))]
    simp only [List.length_cons]
    congr 1
    omega

theorem findFrom_comment (s c : List Char) (i : Nat) (h : '/' ∉ s) :
    findFrom ['/', '/'] (s ++ '/' :: '/' :: c) i = some (i + s.length) := by
  induction s generalizing i with
  | nil => simp [findFrom, List.isPrefixOf]
  | cons a t ih =>
    have ha : '/' ≠ a := fun e => h (by rw [e]; exact List.mem_cons_self a t)
    have ht : '/' ∉ t := fun e => h (List.mem_cons_of_mem a e)
    rw [List.cons_append]
    have hb : ('/' == a) = false := by simpa using ha
    simp only [findFrom, List.isPrefixOf, hb, Bool.false_and, Bool.false_eq_true, if_false]
    rw [ih _ ht, List.length_cons, Nat.add_assoc, Nat.add_comm 1]

theorem digit_ne (c x : Char) (hc : c.isDigit = true) (hx : x.isDigit = false) : c ≠ x := by
  intro e
  rw [e, hx] at hc
  exact Bool.noConfusion hc

theorem run_not_mem (run : List Char) (x : Char) (h : ∀ c, c ∈ run → c.isDigit = true)
    (hx : x.isDigit = false) : x ∉ run := by
  intro hm
  have := h x hm
  rw [hx] at this
  exact Bool.noConfusion this

theorem dropWhile_run (p : Char → Bool) (run rest : List Char)
    (h : ∀ c, c ∈ run → p c = true) :
    (run ++ rest).dropWhile p = rest.dropWhile p := by
  induction run with
  | nil => rfl
  | cons c t ih =>
    rw [List.cons_append, List.dropWhile_cons, h c (List.mem_cons_self c t)]
    exact ih (fun d hd => h d (List.mem_cons_of_mem c hd))

theorem takeWhile_run (p : Char → Bool) (run rest : List Char)
    (h : ∀ c, c ∈ run → p c = true) :
    (run ++ rest).takeWhile p = run ++ rest.takeWhile p := by
  induction run with
  | nil => rfl
  | cons c t ih =>
    rw [List.cons_append, List.takeWhile_cons, h c (List.mem_cons_self c t)]
    simp only [if_true, List.cons_append]
    rw [ih (fun d hd => h d (List.mem_cons_of_mem c hd))]

theorem filter_run (p : Char → Bool) (run rest : List Char)
    (h : ∀ c, c ∈ run → p c = true) :
    (run ++ rest).filter p = run ++ rest.filter p := by
  rw [List.filter_append, List.filter_eq_self.mpr h]

theorem rdropWhile_concat (p : Char → Bool) (l : List Char) (a : Char) (h : p a = false) :
    (l ++ [a]).rdropWhile p = l ++ [a] := by
  rw [List.rdropWhile_concat, h]
  simp
/-- C17 as stated fails: the line `hello q[0];` is none of the four recognized statements,
yet `parseQASMLine` returns the instruction `h 0` for it, and executing that instruction
applies the Hadamard matrix to qubit 0 (here turning `(1, 0)` into `(1/√2, -1/√2)`). -/
theorem parseQASMLine_accepts_unrecognised_line :
    parseQASMLine ['h', 'e', 'l', 'l', 'o', ' ', 'q', '[', '0', ']', ';'] =
      some ['h', ' ', '0'] ∧
    (some ['h', ' ', '0'] : Option (List Char)) ≠ some [] ∧
    ∃ qs : QubitSystem ℝ,
      executeInstruction Real.sqrt 0 ['h', ' ', '0'] (QubitSystem.new 1) = some qs ∧
      qs.state = [⟨1 / Real.sqrt 2, 0⟩, ⟨-(1 / Real.sqrt 2), 0⟩] ∧
      qs.state ≠ (QubitSystem.new 1 : QubitSystem ℝ).state := by
  refine ⟨by decide, by decide, ?_⟩
  have hexec : executeInstruction Real.sqrt 0 ['h', ' ', '0'] (QubitSystem.new 1 : QubitSystem ℝ) =
      applyGate [[⟨1 / Real.sqrt 2, 0⟩, ⟨1 / Real.sqrt 2, 0⟩],
        [⟨1 / Real.sqrt 2, 0⟩, ⟨-(1 / Real.sqrt 2), 0⟩]] 0
        ⟨1, [⟨1, 0⟩, ⟨0, 0⟩], [], -1, -1⟩ := rfl
  have hpos : 0 < Real.sqrt 2 := Real.sqrt_pos.mpr (by norm_num)
  have hne : (1 : ℝ) / Real.sqrt 2 ≠ 0 := by positivity
  refine ⟨_, hexec.trans (applyGate_one_qubit _ _ _ _ _ _ _ _ _), ?_, ?_⟩
  · simp [Complex.ext_iff]
  · simp [Complex.ext_iff, QubitSystem.new]

/-- C17, amended: for every source line whose normalized text (comment, semicolons and
surrounding blanks removed) begins with none of `measure`, `cx`, `h` and `x`,
`parseQASMLine` returns the empty string, and executing the empty string leaves the system
unchanged. -/
theorem parseQASMLine_unsupported (line : List Char)
    (hm : ['m', 'e', 'a', 's', 'u', 'r', 'e'].isPrefixOf (parseQASMLine.cleaned line) = false)
    (hcx : ['c', 'x'].isPrefixOf (parseQASMLine.cleaned line) = false)
    (hh : ['h'].isPrefixOf (parseQASMLine.cleaned line) = false)
    (hx : ['x'].isPrefixOf (parseQASMLine.cleaned line) = false) :
    parseQASMLine line = some [] ∧
    ∀ (sqrt : K → K) (r : K) (qs : QubitSystem K), executeInstruction sqrt r [] qs = some qs := by
  refine ⟨?_, fun _ _ _ => rfl⟩
  unfold parseQASMLine
  simp only [hm, hcx, hh, hx]
  rfl

theorem parseQASMLine_unsupported_witness :
    parseQASMLine ['b', 'a', 'r', 'r', 'i', 'e', 'r', ' ', 'q', ';'] = some [] ∧
    ∀ (sqrt : ℚ → ℚ) (r : ℚ) (qs : QubitSystem ℚ), executeInstruction sqrt r [] qs = some qs :=
  parseQASMLine_unsupported ['b', 'a', 'r', 'r', 'i', 'e', 'r', ' ', 'q', ';']
    (by decide) (by decide) (by decide) (by decide)

theorem cleaned_comment (s c : List Char) (h : '/' ∉ s) :
    parseQASMLine.cleaned (s ++ '/' :: '/' :: c) = parseQASMLine.cleaned s := by
  unfold parseQASMLine.cleaned
  simp only [find_zero, findFrom_comment s c 0 h, findFrom_not_mem '/' ['/'] s 0 h]
  simp

/-- C18: for every statement text `s` without the character `/` and every comment text `c`,
`parseQASMLine` returns the same instruction for `s` followed by `//` and `c` as for `s`;
in particular parsing `h q[0];  // comment` yields the same instruction as parsing
`h q[0];`. -/
theorem parseQASMLine_comment (s c : List Char) (h : '/' ∉ s) :
    parseQASMLine (s ++ '/' :: '/' :: c) = parseQASMLine s ∧
    parseQASMLine ['h', ' ', 'q', '[', '0', ']', ';', ' ', ' ', '/', '/', ' ',
      'c', 'o', 'm', 'm', 'e', 'n', 't'] = parseQASMLine ['h', ' ', 'q', '[', '0', ']', ';'] := by
  refine ⟨?_, by decide⟩
  unfold parseQASMLine
  rw [cleaned_comment s c h]

theorem parseQASMLine_comment_witness :
    '/' ∉ ['c', 'x', ' ', 'q', '[', '0', ']', ',', ' ', 'q', '[', '1', ']', ';', ' '] ∧
    parseQASMLine (['c', 'x', ' ', 'q', '[', '0', ']', ',', ' ', 'q', '[', '1', ']', ';', ' '] ++
      '/' :: '/' :: [' ', 'b', 'e', 'l', 'l']) =
    parseQASMLine ['c', 'x', ' ', 'q', '[', '0', ']', ',', ' ', 'q', '[', '1', ']', ';', ' '] :=
  ⟨by decide, (parseQASMLine_comment
    ['c', 'x', ' ', 'q', '[', '0', ']', ',', ' ', 'q', '[', '1', ']', ';', ' ']
    [' ', 'b', 'e', 'l', 'l'] (by decide)).1⟩
theorem dropWhile_none (p : Char → Bool) (l : List Char) (h : ∀ c, c ∈ l → p c = false) :
    l.dropWhile p = l := by
  cases l with
  | nil => rfl
  | cons c t => rw [List.dropWhile_cons, h c (List.mem_cons_self c t)]; rfl

theorem run_head (run : List Char) (x : Char) (h : ∀ c, c ∈ run → c.isDigit = true)
    (hx : x.isDigit = false) : run.head? ≠ some x := by
  cases run with
  | nil => simp
  | cons c t =>
    simp only [List.head?_cons, ne_eq, Option.some.injEq]
    exact digit_ne c x (h c (List.mem_cons_self c t)) hx

/-- Extraction of a `size_t` from a stream holding a blank, a decimal numeral and then
either nothing or a blank and further text. -/
theorem readSizeT_run (run tail : List Char) (hne : run ≠ [])
    (h : ∀ c, c ∈ run → c.isDigit = true) (hv : decimalValue run < 2 ^ 64) :
    readSizeT (some (' ' :: run)) = some (decimalValue run, none) ∧
    readSizeT (some (' ' :: (run ++ ' ' :: tail))) =
      some (decimalValue run, some (' ' :: tail)) := by
  have hsp : ∀ c, c ∈ run → isspace c = false := by
    intro c hc
    have hd := h c hc
    by_contra hcon
    have hs : isspace c = true := by simpa using hcon
    simp only [isspace, Bool.or_eq_true, decide_eq_true_eq] at hs
    rcases hs with ((((hs | hs) | hs) | hs) | hs) | hs <;> rw [hs] at hd <;>
      exact absurd hd (by decide)
  have hminus := run_head run '-' h (by decide)
  have hplus := run_head run '+' h (by decide)
  have hdrop : (' ' :: run).dropWhile isspace = run := by
    rw [List.dropWhile_cons, show isspace ' ' = true from rfl]
    exact dropWhile_none _ _ hsp
  obtain ⟨d, t, hrun⟩ : ∃ d t, run = d :: t := by
    cases run with
    | nil => exact absurd rfl hne
    | cons d t => exact ⟨d, t, rfl⟩
  constructor
  · have htake : run.takeWhile Char.isDigit = run := by
      have := takeWhile_run Char.isDigit run [] h
      simpa using this
    have hdr : run.dropWhile Char.isDigit = [] := by
      have := dropWhile_run Char.isDigit run [] h
      simpa using this
    simp only [readSizeT, hdrop, hne, if_false, hminus, hplus, or_self, htake, hdr, hv, if_true]
  · have hdrop2 : (' ' :: (run ++ ' ' :: tail)).dropWhile isspace = run ++ ' ' :: tail := by
      rw [List.dropWhile_cons, show isspace ' ' = true from rfl]
      simp only [if_true]
      rw [hrun, List.cons_append, List.dropWhile_cons, hsp d (by rw [hrun]; exact List.mem_cons_self d t)]
      rfl
    have hne2 : run ++ ' ' :: tail ≠ [] := by simp
    have hhead : (run ++ ' ' :: tail).head? = run.head? := by rw [hrun]; rfl
    have htake : (run ++ ' ' :: tail).takeWhile Char.isDigit = run := by
      rw [takeWhile_run Char.isDigit run _ h]
      simp [List.takeWhile_cons, show Char.isDigit ' ' = false from rfl]
    have hdr : (run ++ ' ' :: tail).dropWhile Char.isDigit = ' ' :: tail := by
      rw [dropWhile_run Char.isDigit run _ h]
      simp [List.dropWhile_cons, show Char.isDigit ' ' = false from rfl]
    simp only [readSizeT, hdrop2, hne2, if_false, hhead, hminus, hplus, or_self, htake, hdr, hv,
      if_true]
    simp [hne]
/-- Normalisation of a statement that starts with a non-blank character, contains neither
`/` nor `;` and is closed by `];`. -/
theorem cleaned_statement (c0 : Char) (body : List Char) (hb : isBlank c0 = false)
    (hslash : '/' ∉ c0 :: body) (hsemi : ∀ c, c ∈ c0 :: body → (c != ';') = true) :
    parseQASMLine.cleaned (c0 :: (body ++ [']', ';'])) = c0 :: (body ++ [']']) := by
  have hs : '/' ∉ c0 :: (body ++ [']', ';']) := by
    intro hm
    rcases List.mem_cons.mp hm with h | h
    · exact hslash (by rw [h]; exact List.mem_cons_self _ _)
    · rcases List.mem_append.mp h with h | h
      · exact hslash (List.mem_cons_of_mem _ h)
      · revert h; decide
  have hf : (c0 :: (body ++ [']', ';'])).filter (fun c => c != ';') = c0 :: (body ++ [']']) := by
    have := filter_run (fun c => c != ';') (c0 :: body) [']', ';'] hsemi
    simpa using this
  unfold parseQASMLine.cleaned
  simp only [find_zero, findFrom_not_mem '/' ['/'] _ 0 hs, hf]
  rw [List.dropWhile_cons, hb]
  simp only [Bool.false_eq_true, if_false]
  exact rdropWhile_concat isBlank (c0 :: body) ']' (by decide)

theorem run_facts (run : List Char) (h : ∀ c, c ∈ run → c.isDigit = true) :
    '/' ∉ run ∧ (∀ c, c ∈ run → (c != ';') = true) ∧ (∀ c, c ∈ run → c ≠ '[') ∧
      (∀ c, c ∈ run → c ≠ ']') := by
  refine ⟨run_not_mem run '/' h (by decide), ?_, ?_, ?_⟩
  · intro c hc
    simpa using digit_ne c ';' (h c hc) (by decide)
  · intro c hc
    exact digit_ne c '[' (h c hc) (by decide)
  · intro c hc
    exact digit_ne c ']' (h c hc) (by decide)

/-- Parsing of the statements `h q[k];` and `x q[k];`, for a gate letter `g`. -/
theorem parse_gate_statement (g : Char) (hg : g = 'h' ∨ g = 'x') (run : List Char)
    (h : ∀ c, c ∈ run → c.isDigit = true) :
    parseQASMLine (g :: ' ' :: 'q' :: '[' :: (run ++ [']', ';'])) = some (g :: ' ' :: run) := by
  obtain ⟨hslash, hsemi, hlb, hrb⟩ := run_facts run h
  have hclean : parseQASMLine.cleaned (g :: ' ' :: 'q' :: '[' :: (run ++ [']', ';'])) =
      g :: ' ' :: 'q' :: '[' :: (run ++ [']']) := by
    have := cleaned_statement g (' ' :: 'q' :: '[' :: run)
      (by rcases hg with e | e <;> rw [e] <;> rfl)
      (by
        intro hm
        simp only [List.mem_cons] at hm
        rcases hm with e | e | e | e | e
        · rcases hg with e' | e' <;> rw [e'] at e <;> revert e <;> decide
        · revert e; decide
        · revert e; decide
        · revert e; decide
        · exact hslash e)
      (by
        intro c hm
        simp only [List.mem_cons] at hm
        rcases hm with e | e | e | e | e
        · rcases hg with e' | e' <;> rw [e, e'] <;> rfl
        · rw [e]; rfl
        · rw [e]; rfl
        · rw [e]; rfl
        · exact hsemi c e)
    simpa using this
  have hfl : findFrom ['['] (g :: ' ' :: 'q' :: '[' :: (run ++ [']'])) 0 = some 3 := by
    rw [findFrom_single_cons_ne _ _ _ _ (by rcases hg with e | e <;> rw [e] <;> decide),
      findFrom_single_cons_ne _ _ _ _ (by decide), findFrom_single_cons_ne _ _ _ _ (by decide),
      findFrom_single_cons_eq]
  have hfr : findFrom [']'] (g :: ' ' :: 'q' :: '[' :: (run ++ [']'])) 0 =
      some (4 + run.length) := by
    rw [findFrom_single_cons_ne _ _ _ _ (by rcases hg with e | e <;> rw [e] <;> decide),
      findFrom_single_cons_ne _ _ _ _ (by decide), findFrom_single_cons_ne _ _ _ _ (by decide),
      findFrom_single_cons_ne _ _ _ _ (by decide), findFrom_single_skip _ _ _ _ hrb,
      findFrom_single_cons_eq]
  unfold parseQASMLine
  rw [hclean]
  have hm : ['m', 'e', 'a', 's', 'u', 'r', 'e'].isPrefixOf
      (g :: ' ' :: 'q' :: '[' :: (run ++ [']'])) = false := by
    rcases hg with e | e <;> rw [e] <;> rfl
  have hcx : ['c', 'x'].isPrefixOf (g :: ' ' :: 'q' :: '[' :: (run ++ [']'])) = false := by
    rcases hg with e | e <;> rw [e] <;> rfl
  have hhx : (['h'].isPrefixOf (g :: ' ' :: 'q' :: '[' :: (run ++ [']'])) ||
      ['x'].isPrefixOf (g :: ' ' :: 'q' :: '[' :: (run ++ [']']))) = true := by
    rcases hg with e | e <;> rw [e] <;> rfl
  simp only [hm, hcx, hhx, Bool.false_eq_true, if_false, if_true, find_zero, hfl, hfr, posSucc,
    posSub, substr]
  simp
/-- Parsing of the statement `measure q[k];`. -/
theorem parse_measure_statement (run : List Char) (h : ∀ c, c ∈ run → c.isDigit = true) :
    parseQASMLine ('m' :: 'e' :: 'a' :: 's' :: 'u' :: 'r' :: 'e' :: ' ' :: 'q' :: '[' ::
        (run ++ [']', ';'])) =
      some ('m' :: 'e' :: 'a' :: 's' :: 'u' :: 'r' :: 'e' :: ' ' :: run) := by
  obtain ⟨hslash, hsemi, hlb, hrb⟩ := run_facts run h
  have hclean : parseQASMLine.cleaned ('m' :: 'e' :: 'a' :: 's' :: 'u' :: 'r' :: 'e' :: ' ' ::
      'q' :: '[' :: (run ++ [']', ';'])) =
      'm' :: 'e' :: 'a' :: 's' :: 'u' :: 'r' :: 'e' :: ' ' :: 'q' :: '[' :: (run ++ [']']) := by
    have := cleaned_statement 'm' ('e' :: 'a' :: 's' :: 'u' :: 'r' :: 'e' :: ' ' :: 'q' :: '[' :: run)
      rfl
      (by
        intro hm
        simp only [List.mem_cons] at hm
        rcases hm with e | e | e | e | e | e | e | e | e | e | e
        all_goals first | exact hslash e | (revert e; decide))
      (by
        intro c hm
        simp only [List.mem_cons] at hm
        rcases hm with e | e | e | e | e | e | e | e | e | e | e
        all_goals first | exact hsemi c e | (rw [e]; rfl))
    simpa using this
  have hfl : findFrom ['['] ('m' :: 'e' :: 'a' :: 's' :: 'u' :: 'r' :: 'e' :: ' ' :: 'q' ::
      '[' :: (run ++ [']'])) 0 = some 9 := by
    simp [findFrom, List.isPrefixOf]
  have hfr : findFrom [']'] ('m' :: 'e' :: 'a' :: 's' :: 'u' :: 'r' :: 'e' :: ' ' :: 'q' ::
      '[' :: (run ++ [']'])) 0 = some (10 + run.length) := by
    rw [findFrom_single_cons_ne _ _ _ _ (by decide), findFrom_single_cons_ne _ _ _ _ (by decide),
      findFrom_single_cons_ne _ _ _ _ (by decide), findFrom_single_cons_ne _ _ _ _ (by decide),
      findFrom_single_cons_ne _ _ _ _ (by decide), findFrom_single_cons_ne _ _ _ _ (by decide),
      findFrom_single_cons_ne _ _ _ _ (by decide), findFrom_single_cons_ne _ _ _ _ (by decide),
      findFrom_single_cons_ne _ _ _ _ (by decide), findFrom_single_cons_ne _ _ _ _ (by decide),
      findFrom_single_skip _ _ _ _ hrb, findFrom_single_cons_eq]
  unfold parseQASMLine
  rw [hclean]
  have hm : ['m', 'e', 'a', 's', 'u', 'r', 'e'].isPrefixOf
      ('m' :: 'e' :: 'a' :: 's' :: 'u' :: 'r' :: 'e' :: ' ' :: 'q' :: '[' :: (run ++ [']'])) =
      true := rfl
  simp only [hm, if_true, find_zero, hfl, hfr, posSucc, posSub, substr]
  simp

/-- Parsing of the statement `cx q[c], q[t];`. -/
theorem parse_cx_statement (rc rt : List Char) (hc : ∀ c, c ∈ rc → c.isDigit = true)
    (ht : ∀ c, c ∈ rt → c.isDigit = true) :
    parseQASMLine ('c' :: 'x' :: ' ' :: 'q' :: '[' ::
        (rc ++ ']' :: ',' :: ' ' :: 'q' :: '[' :: (rt ++ [']', ';']))) =
      some ('c' :: 'x' :: ' ' :: (rc ++ ' ' :: rt)) := by
  obtain ⟨hslashc, hsemic, hlbc, hrbc⟩ := run_facts rc hc
  obtain ⟨hslasht, hsemit, hlbt, hrbt⟩ := run_facts rt ht
  have hclean : parseQASMLine.cleaned ('c' :: 'x' :: ' ' :: 'q' :: '[' ::
      (rc ++ ']' :: ',' :: ' ' :: 'q' :: '[' :: (rt ++ [']', ';']))) =
      'c' :: 'x' :: ' ' :: 'q' :: '[' ::
        (rc ++ ']' :: ',' :: ' ' :: 'q' :: '[' :: (rt ++ [']'])) := by
    have := cleaned_statement 'c'
      ('x' :: ' ' :: 'q' :: '[' :: (rc ++ ']' :: ',' :: ' ' :: 'q' :: '[' :: rt)) rfl
      (by
        intro hm
        simp only [List.mem_cons, List.mem_append] at hm
        rcases hm with e | e | e | e | e | e | e | e | e | e | e | e
        all_goals first | exact hslashc e | exact hslasht e | (revert e; decide))
      (by
        intro c hm
        simp only [List.mem_cons, List.mem_append] at hm
        rcases hm with e | e | e | e | e | e | e | e | e | e | e | e
        all_goals first | exact hsemic c e | exact hsemit c e | (rw [e]; rfl))
    simpa using this
  have hlen : (5 + rc.length) + 5 + rt.length + 1 = ('c' :: 'x' :: ' ' :: 'q' :: '[' ::
      (rc ++ ']' :: ',' :: ' ' :: 'q' :: '[' :: (rt ++ [']']))).length := by
    simp; omega
  have hd1 : ('c' :: 'x' :: ' ' :: 'q' :: '[' ::
      (rc ++ ']' :: ',' :: ' ' :: 'q' :: '[' :: (rt ++ [']']))).drop 5 =
      rc ++ ']' :: ',' :: ' ' :: 'q' :: '[' :: (rt ++ [']']) := rfl
  have hd2 : ('c' :: 'x' :: ' ' :: 'q' :: '[' ::
      (rc ++ ']' :: ',' :: ' ' :: 'q' :: '[' :: (rt ++ [']']))).drop (5 + rc.length) =
      ']' :: ',' :: ' ' :: 'q' :: '[' :: (rt ++ [']']) := by
    rw [← List.drop_drop, hd1, List.drop_left]
  have hd3 : ('c' :: 'x' :: ' ' :: 'q' :: '[' ::
      (rc ++ ']' :: ',' :: ' ' :: 'q' :: '[' :: (rt ++ [']']))).drop (5 + rc.length + 4 + 1) =
      rt ++ [']'] := by
    rw [show 5 + rc.length + 4 + 1 = (5 + rc.length) + 5 by omega, ← List.drop_drop, hd2]
    rfl
  have hfl : findFrom ['['] ('c' :: 'x' :: ' ' :: 'q' :: '[' ::
      (rc ++ ']' :: ',' :: ' ' :: 'q' :: '[' :: (rt ++ [']']))) 0 = some 4 := by
    simp [findFrom, List.isPrefixOf]
  have hq2 : find ('c' :: 'x' :: ' ' :: 'q' :: '[' ::
      (rc ++ ']' :: ',' :: ' ' :: 'q' :: '[' :: (rt ++ [']']))) [']'] 5 =
      some (5 + rc.length) := by
    unfold find
    rw [if_pos (by rw [← hlen]; omega), hd1, findFrom_single_skip _ _ _ _ hrbc,
      findFrom_single_cons_eq]
  have hq3 : find ('c' :: 'x' :: ' ' :: 'q' :: '[' ::
      (rc ++ ']' :: ',' :: ' ' :: 'q' :: '[' :: (rt ++ [']']))) ['['] (5 + rc.length) =
      some (5 + rc.length + 4) := by
    unfold find
    rw [if_pos (by rw [← hlen]; omega), hd2]
    rw [findFrom_single_cons_ne _ _ _ _ (by decide), findFrom_single_cons_ne _ _ _ _ (by decide),
      findFrom_single_cons_ne _ _ _ _ (by decide), findFrom_single_cons_ne _ _ _ _ (by decide),
      findFrom_single_cons_eq]
  have hq4 : find ('c' :: 'x' :: ' ' :: 'q' :: '[' ::
      (rc ++ ']' :: ',' :: ' ' :: 'q' :: '[' :: (rt ++ [']']))) [']'] (5 + rc.length + 4 + 1) =
      some (5 + rc.length + 4 + 1 + rt.length) := by
    unfold find
    rw [if_pos (by rw [← hlen]; omega), hd3, findFrom_single_skip _ _ _ _ hrbt,
      findFrom_single_cons_eq]
  unfold parseQASMLine
  rw [hclean]
  have hm : ['m', 'e', 'a', 's', 'u', 'r', 'e'].isPrefixOf ('c' :: 'x' :: ' ' :: 'q' :: '[' ::
      (rc ++ ']' :: ',' :: ' ' :: 'q' :: '[' :: (rt ++ [']']))) = false := rfl
  have hcx : ['c', 'x'].isPrefixOf ('c' :: 'x' :: ' ' :: 'q' :: '[' ::
      (rc ++ ']' :: ',' :: ' ' :: 'q' :: '[' :: (rt ++ [']']))) = true := rfl
  simp only [hm, hcx, Bool.false_eq_true, if_false, if_true, find_zero, hfl, posSucc, hq2,
    findAt, hq3, hq4, posSub, substr]
  have c1 : 4 + 1 ≤ ('c' :: 'x' :: ' ' :: 'q' :: '[' ::
      (rc ++ ']' :: ',' :: ' ' :: 'q' :: '[' :: (rt ++ [']']))).length := by
    rw [← hlen]; omega
  have c2 : 5 + rc.length + 4 + 1 ≤ ('c' :: 'x' :: ' ' :: 'q' :: '[' ::
      (rc ++ ']' :: ',' :: ' ' :: 'q' :: '[' :: (rt ++ [']']))).length := by
    rw [← hlen]; omega
  rw [if_pos c1, if_pos c2, if_pos (show 4 + 1 ≤ 5 + rc.length by omega),
    if_pos (show 5 + rc.length + 4 + 1 ≤ 5 + rc.length + 4 + 1 + rt.length by omega), hd3]
  simp
/-- C16: for all decimal qubit indices `k`, `c`, `t` that fit `size_t`, executing the parsed
form of a recognized statement has exactly the effect of the engine call: `h q[k];` is
`applyGate(Hadamard, k)`, `x q[k];` is `applyGate(Pauli-X, k)`, `cx q[c], q[t];` is
`applyCNOT(c, t)` with the first operand as control, and `measure q[k];` is
`measureQubit(k)`. -/
theorem executeInstruction_parseQASMLine (sqrt : K → K) (r : K) (qs : QubitSystem K)
    (k c t : Nat) (hk : k < 2 ^ 64) (hc : c < 2 ^ 64) (ht : t < 2 ^ 64) :
    ((parseQASMLine ('h' :: ' ' :: 'q' :: '[' :: (Nat.toDigits 10 k ++ [']', ';']))).bind
        (fun instruction => executeInstruction sqrt r instruction qs) =
      applyGate (hadamard sqrt) k qs) ∧
    ((parseQASMLine ('x' :: ' ' :: 'q' :: '[' :: (Nat.toDigits 10 k ++ [']', ';']))).bind
        (fun instruction => executeInstruction sqrt r instruction qs) =
      applyGate pauliX k qs) ∧
    ((parseQASMLine ('c' :: 'x' :: ' ' :: 'q' :: '[' :: (Nat.toDigits 10 c ++
        ']' :: ',' :: ' ' :: 'q' :: '[' :: (Nat.toDigits 10 t ++ [']', ';'])))).bind
        (fun instruction => executeInstruction sqrt r instruction qs) =
      applyCNOT c t qs) ∧
    ((parseQASMLine ('m' :: 'e' :: 'a' :: 's' :: 'u' :: 'r' :: 'e' :: ' ' :: 'q' :: '[' ::
        (Nat.toDigits 10 k ++ [']', ';']))).bind
        (fun instruction => executeInstruction sqrt r instruction qs) =
      (measureQubit sqrt k r qs).map (fun p => p.2)) := by
  obtain ⟨hkne, hkd, hkv⟩ := toDigits_spec k
  obtain ⟨hcne, hcd, hcv⟩ := toDigits_spec c
  obtain ⟨htne, htd, htv⟩ := toDigits_spec t
  have rk := (readSizeT_run (Nat.toDigits 10 k) [] hkne hkd (by rw [hkv]; exact hk)).1
  have rc := (readSizeT_run (Nat.toDigits 10 c) (Nat.toDigits 10 t) hcne hcd
    (by rw [hcv]; exact hc)).2
  have rt := (readSizeT_run (Nat.toDigits 10 t) [] htne htd (by rw [htv]; exact ht)).1
  rw [hkv] at rk
  rw [hcv] at rc
  rw [htv] at rt
  refine ⟨?_, ?_, ?_, ?_⟩
  · rw [parse_gate_statement 'h' (Or.inl rfl) _ hkd, Option.some_bind]
    have hw : readWord ('h' :: ' ' :: Nat.toDigits 10 k) =
        (['h'], some (' ' :: Nat.toDigits 10 k)) := rfl
    simp only [executeInstruction, hw, rk, if_true]
    rfl
  · rw [parse_gate_statement 'x' (Or.inr rfl) _ hkd, Option.some_bind]
    have hw : readWord ('x' :: ' ' :: Nat.toDigits 10 k) =
        (['x'], some (' ' :: Nat.toDigits 10 k)) := rfl
    simp only [executeInstruction, hw, rk]
    rfl
  · rw [parse_cx_statement _ _ hcd htd, Option.some_bind]
    have hw : readWord ('c' :: 'x' :: ' ' :: (Nat.toDigits 10 c ++ ' ' :: Nat.toDigits 10 t)) =
        (['c', 'x'], some (' ' :: (Nat.toDigits 10 c ++ ' ' :: Nat.toDigits 10 t))) := rfl
    simp only [executeInstruction, hw, rc, Option.bind_eq_bind, Option.some_bind, rt]
    rfl
  · rw [parse_measure_statement _ hkd, Option.some_bind]
    have hw : readWord ('m' :: 'e' :: 'a' :: 's' :: 'u' :: 'r' :: 'e' :: ' ' ::
        Nat.toDigits 10 k) =
        (['m', 'e', 'a', 's', 'u', 'r', 'e'], some (' ' :: Nat.toDigits 10 k)) := rfl
    simp only [executeInstruction, hw, rk, Option.bind_eq_bind, Option.some_bind]
    rw [if_neg (by decide), if_neg (by decide), if_neg (by decide), if_pos trivial]
    cases measureQubit sqrt k r qs <;> rfl

theorem executeInstruction_parseQASMLine_witness :
    (1 : Nat) < 2 ^ 64 ∧ (0 : Nat) < 2 ^ 64 ∧ (12 : Nat) < 2 ^ 64 ∧
    (parseQASMLine ['c', 'x', ' ', 'q', '[', '0', ']', ',', ' ', 'q', '[', '1', '2', ']', ';']).bind
        (fun instruction => executeInstruction (fun x => x) (0 : ℚ) instruction
          (QubitSystem.new 2)) =
      applyCNOT 0 12 (QubitSystem.new 2) ∧
    (parseQASMLine ['x', ' ', 'q', '[', '1', ']', ';']).bind
        (fun instruction => executeInstruction (fun x => x) (0 : ℚ) instruction
          ⟨2, [⟨1, 0⟩, ⟨2, 0⟩, ⟨3, 0⟩, ⟨4, 0⟩], [], -1, -1⟩) =
      applyGate pauliX 1 ⟨2, [⟨1, 0⟩, ⟨2, 0⟩, ⟨3, 0⟩, ⟨4, 0⟩], [], -1, -1⟩ ∧
    (applyGate pauliX 1 (⟨2, [⟨1, 0⟩, ⟨2, 0⟩, ⟨3, 0⟩, ⟨4, 0⟩], [], -1, -1⟩ : QubitSystem ℚ)).isSome =
      true :=
  ⟨by decide, by decide, by decide,
    (executeInstruction_parseQASMLine (fun x => x) (0 : ℚ) (QubitSystem.new 2) 1 0 12
      (by decide) (by decide) (by decide)).2.2.1,
    (executeInstruction_parseQASMLine (fun x => x) (0 : ℚ)
      ⟨2, [⟨1, 0⟩, ⟨2, 0⟩, ⟨3, 0⟩, ⟨4, 0⟩], [], -1, -1⟩ 1 0 12
      (by decide) (by decide) (by decide)).2.1, rfl⟩

theorem new_state (N : Nat) :
    (QubitSystem.new N : QubitSystem K).state = basisState (2 ^ N) 0 := by
  apply List.ext_getElem?
  intro j
  have hpos : 0 < 2 ^ N := Nat.pow_pos (by decide)
  simp only [QubitSystem.new, Nat.one_shiftLeft, basisState, List.getElem?_set,
    List.length_replicate, List.getElem?_replicate, List.getElem?_map]
  by_cases hj : j < 2 ^ N
  · rw [List.getElem?_range hj]
    by_cases h0 : 0 = j
    · subst h0; simp [hpos]; rfl
    · have h0' : ¬ j = 0 := fun e => h0 e.symm
      simp [h0, h0', hj]; rfl
  · rw [List.getElem?_eq_none (by simpa using hj)]
    have h0 : ¬ 0 = j := by omega
    simp [h0, hj]

theorem totalNorm_basisState (len : Nat) (hlen : 0 < len) :
    totalNorm (basisState len 0 : List (Complex K)) = 1 := by
  unfold totalNorm basisState
  rw [List.map_map, sum_map_range, Finset.sum_eq_single 0]
  · simp [Complex.norm]
  · intro b _ hb
    simp [hb, Complex.norm]
  · intro h
    exact absurd (Finset.mem_range.mpr hlen) h

/-- The state of a newly constructed system of fewer than 64 qubits, the range in which
the shift `1ULL << numQubits` of the constructor is defined. -/
theorem new_spec (N : Nat) (_hN : N < 64) :
    (QubitSystem.new N : QubitSystem K).nQubits = N ∧
    (QubitSystem.new N : QubitSystem K).state.length = 2 ^ N ∧
    (∀ i, i < 2 ^ N → (QubitSystem.new N : QubitSystem K).state[i]? =
      some (if i = 0 then ⟨1, 0⟩ else ⟨0, 0⟩)) ∧
    totalNorm (QubitSystem.new N : QubitSystem K).state = 1 ∧
    (QubitSystem.new N : QubitSystem K).lastMeasuredQubit0 = -1 ∧
    (QubitSystem.new N : QubitSystem K).lastMeasuredQubit1 = -1 := by
  refine ⟨rfl, ?_, ?_, ?_, rfl, rfl⟩
  · rw [new_state]; simp [basisState]
  · intro i hi
    rw [new_state]
    simp only [basisState, List.getElem?_map, List.getElem?_range hi, Option.map_some']
    split <;> rfl
  · rw [new_state]
    exact totalNorm_basisState _ (Nat.pow_pos (by decide))

theorem stoi_run (run : List Char) (hne : run ≠ []) (h : ∀ c, c ∈ run → c.isDigit = true)
    (hv : decimalValue run < 2 ^ 31) : stoi run = some (decimalValue run : Int) := by
  have hsp : ∀ c, c ∈ run → isspace c = false := by
    intro c hc
    have hd := h c hc
    by_contra hcon
    have hs : isspace c = true := by simpa using hcon
    simp only [isspace, Bool.or_eq_true, decide_eq_true_eq] at hs
    rcases hs with ((((hs | hs) | hs) | hs) | hs) | hs <;> rw [hs] at hd <;>
      exact absurd hd (by decide)
  have hminus := run_head run '-' h (by decide)
  have hplus := run_head run '+' h (by decide)
  have hdrop : run.dropWhile isspace = run := dropWhile_none _ _ hsp
  have htake : run.takeWhile Char.isDigit = run := by
    have := takeWhile_run Char.isDigit run [] h
    simpa using this
  have hr : (-2 ^ 31 : Int) ≤ (decimalValue run : Int) ∧ (decimalValue run : Int) < 2 ^ 31 := by
    constructor
    · have : (0 : Int) ≤ (decimalValue run : Int) := Int.ofNat_nonneg _
      omega
    · exact_mod_cast hv
  simp only [stoi, hdrop, hminus, hplus, or_self, if_false, htake, hne, hr, and_self, if_true]
/-- Processing of a line `qreg name[N];` that is not skipped as a header line. -/
theorem qreg_line (sqrt : K → K) (r : K) (qs : QubitSystem K) (name : List Char) (N : Nat)
    (hN : N ≤ 16) (hslash : '/' ∉ name) (hlb : '[' ∉ name) (hrb : ']' ∉ name)
    (hopen : find (('q' :: 'r' :: 'e' :: 'g' :: ' ' ::
      (name ++ '[' :: (Nat.toDigits 10 N ++ [']', ';']))).map Char.toLower)
      ['o', 'p', 'e', 'n', 'q', 'a', 's', 'm'] 0 = none)
    (hinc : find (('q' :: 'r' :: 'e' :: 'g' :: ' ' ::
      (name ++ '[' :: (Nat.toDigits 10 N ++ [']', ';']))).map Char.toLower)
      ['i', 'n', 'c', 'l', 'u', 'd', 'e'] 0 = none) :
    loadAndRunQASM.body sqrt r qs ('q' :: 'r' :: 'e' :: 'g' :: ' ' ::
      (name ++ '[' :: (Nat.toDigits 10 N ++ [']', ';']))) = some (QubitSystem.new N) := by
  obtain ⟨hne, hd, hv⟩ := toDigits_spec N
  obtain ⟨hdslash, _, hdlb, hdrb⟩ := run_facts _ hd
  have hs : '/' ∉ 'q' :: 'r' :: 'e' :: 'g' :: ' ' ::
      (name ++ '[' :: (Nat.toDigits 10 N ++ [']', ';'])) := by
    intro hm
    simp [hslash, hdslash] at hm
  have hcat : 'q' :: 'r' :: 'e' :: 'g' :: ' ' ::
      (name ++ '[' :: (Nat.toDigits 10 N ++ [']', ';'])) =
      ('q' :: 'r' :: 'e' :: 'g' :: ' ' :: (name ++ '[' :: (Nat.toDigits 10 N ++ [']']))) ++
        [';'] := by simp
  have htrim : (('q' :: 'r' :: 'e' :: 'g' :: ' ' ::
      (name ++ '[' :: (Nat.toDigits 10 N ++ [']', ';']))).dropWhile isBlank).rdropWhile isBlank =
      'q' :: 'r' :: 'e' :: 'g' :: ' ' :: (name ++ '[' :: (Nat.toDigits 10 N ++ [']', ';'])) := by
    rw [List.dropWhile_cons, show isBlank 'q' = false from rfl]
    simp only [Bool.false_eq_true, if_false]
    rw [hcat]
    exact rdropWhile_concat isBlank _ ';' (by decide)
  have hleft : findFrom ['['] ('q' :: 'r' :: 'e' :: 'g' :: ' ' ::
      (name ++ '[' :: (Nat.toDigits 10 N ++ [']', ';']))) 0 = some (5 + name.length) := by
    rw [findFrom_single_cons_ne _ _ _ _ (by decide), findFrom_single_cons_ne _ _ _ _ (by decide),
      findFrom_single_cons_ne _ _ _ _ (by decide), findFrom_single_cons_ne _ _ _ _ (by decide),
      findFrom_single_cons_ne _ _ _ _ (by decide),
      findFrom_single_skip _ _ _ _ (fun c hc e => hlb (by rw [← e]; exact hc)), findFrom_single_cons_eq]
  have hright : findFrom [']'] ('q' :: 'r' :: 'e' :: 'g' :: ' ' ::
      (name ++ '[' :: (Nat.toDigits 10 N ++ [']', ';']))) 0 =
      some (5 + name.length + 1 + (Nat.toDigits 10 N).length) := by
    rw [findFrom_single_cons_ne _ _ _ _ (by decide), findFrom_single_cons_ne _ _ _ _ (by decide),
      findFrom_single_cons_ne _ _ _ _ (by decide), findFrom_single_cons_ne _ _ _ _ (by decide),
      findFrom_single_cons_ne _ _ _ _ (by decide),
      findFrom_single_skip _ _ _ _ (fun c hc e => hrb (by rw [← e]; exact hc)),
      findFrom_single_cons_ne _ _ _ _ (by decide), findFrom_single_skip _ _ _ _ hdrb,
      findFrom_single_cons_eq]
  have hdrop : ('q' :: 'r' :: 'e' :: 'g' :: ' ' ::
      (name ++ '[' :: (Nat.toDigits 10 N ++ [']', ';']))).drop (5 + name.length + 1) =
      Nat.toDigits 10 N ++ [']', ';'] := by
    rw [show 5 + name.length + 1 = 5 + (name.length + 1) by omega, ← List.drop_drop]
    show List.drop (name.length + 1) (name ++ '[' :: (Nat.toDigits 10 N ++ [']', ';'])) = _
    rw [← List.drop_drop, List.drop_left]
    rfl
  have hlen : 5 + name.length + 1 ≤ ('q' :: 'r' :: 'e' :: 'g' :: ' ' ::
      (name ++ '[' :: (Nat.toDigits 10 N ++ [']', ';']))).length := by
    simp; omega
  have hsub : substr ('q' :: 'r' :: 'e' :: 'g' :: ' ' ::
      (name ++ '[' :: (Nat.toDigits 10 N ++ [']', ';'])))
      (posSucc (some (5 + name.length)))
      (qregCount (some (5 + name.length))
        (some (5 + name.length + 1 + (Nat.toDigits 10 N).length))) =
      some (Nat.toDigits 10 N) := by
    simp only [posSucc, qregCount, substr]
    rw [if_pos hlen, if_pos (by omega), hdrop,
      show 5 + name.length + 1 + (Nat.toDigits 10 N).length - (5 + name.length) - 1 =
        (Nat.toDigits 10 N).length by omega]
    simp
  have hstoi : stoi (Nat.toDigits 10 N) = some (N : Int) := by
    have := stoi_run _ hne hd (by rw [hv]; omega)
    rwa [hv] at this
  have hprint := printState_eq (QubitSystem.new N : QubitSystem K) hN
  unfold loadAndRunQASM.body
  simp only [find_zero, findFrom_not_mem '/' ['/'] _ 0 hs, htrim]
  rw [find_zero] at hopen hinc
  simp only [hopen, hinc, hleft, hright, hsub]
  simp
  have hmod2 : ((N : Int) % 18446744073709551616).toNat = N := by omega
  rw [hstoi, Option.some_bind, hmod2, hprint]
  rfl
/-- C19 as stated fails: the line `qreg included[1];` contains the include marker, so the
interpreter skips it and a three-qubit system keeps its `8` amplitudes instead of being
re-created with `2 ^ 1 = 2`. -/
theorem qreg_line_with_include_marker_is_skipped :
    loadAndRunQASM.body (fun x => x) (0 : ℚ) (QubitSystem.new 3)
        ['q', 'r', 'e', 'g', ' ', 'i', 'n', 'c', 'l', 'u', 'd', 'e', 'd', '[', '1', ']', ';'] =
      some (QubitSystem.new 3) ∧
    (QubitSystem.new 3 : QubitSystem ℚ).state.length = 8 ∧ 8 ≠ 2 ^ 1 :=
  ⟨rfl, rfl, by decide⟩

/-- C19, amended: for every `N` below 64 (the range in which the shift `1ULL << N` of the
constructor is defined), a newly constructed system has exactly `2 ^ N` amplitudes,
amplitude one at index `0` and zero at every other index, total squared norm one and both
sentinels `-1`; and for every `N ≤ 16`, whatever the prior state, processing a line
`qreg name[N];` whose name has no bracket or slash and whose lower-cased text contains
neither `openqasm` nor `include` replaces the system by a newly constructed one of `N`
qubits. -/
theorem new_and_qreg_reset (N : Nat) (sqrt : K → K) (r : K) (qs : QubitSystem K)
    (name : List Char) :
    (N < 64 → (QubitSystem.new N : QubitSystem K).nQubits = N ∧
      (QubitSystem.new N : QubitSystem K).state.length = 2 ^ N ∧
      (∀ i, i < 2 ^ N → (QubitSystem.new N : QubitSystem K).state[i]? =
        some (if i = 0 then ⟨1, 0⟩ else ⟨0, 0⟩)) ∧
      totalNorm (QubitSystem.new N : QubitSystem K).state = 1 ∧
      (QubitSystem.new N : QubitSystem K).lastMeasuredQubit0 = -1 ∧
      (QubitSystem.new N : QubitSystem K).lastMeasuredQubit1 = -1) ∧
    (N ≤ 16 → '/' ∉ name → '[' ∉ name → ']' ∉ name →
      find (('q' :: 'r' :: 'e' :: 'g' :: ' ' ::
        (name ++ '[' :: (Nat.toDigits 10 N ++ [']', ';']))).map Char.toLower)
        ['o', 'p', 'e', 'n', 'q', 'a', 's', 'm'] 0 = none →
      find (('q' :: 'r' :: 'e' :: 'g' :: ' ' ::
        (name ++ '[' :: (Nat.toDigits 10 N ++ [']', ';']))).map Char.toLower)
        ['i', 'n', 'c', 'l', 'u', 'd', 'e'] 0 = none →
      loadAndRunQASM.body sqrt r qs ('q' :: 'r' :: 'e' :: 'g' :: ' ' ::
        (name ++ '[' :: (Nat.toDigits 10 N ++ [']', ';']))) = some (QubitSystem.new N)) :=
  ⟨new_spec N, fun hN hslash hlb hrb hopen hinc =>
    qreg_line sqrt r qs name N hN hslash hlb hrb hopen hinc⟩

theorem new_and_qreg_reset_witness :
    (3 : Nat) < 64 ∧ (3 : Nat) ≤ 16 ∧ '/' ∉ ['q'] ∧ '[' ∉ ['q'] ∧ ']' ∉ ['q'] ∧
    loadAndRunQASM.body (fun x => x) (0 : ℚ)
        ⟨1, [⟨0, 0⟩, ⟨0, 0⟩], [], 1, 0⟩ ['q', 'r', 'e', 'g', ' ', 'q', '[', '3', ']', ';'] =
      some (QubitSystem.new 3) ∧
    (QubitSystem.new 3 : QubitSystem ℚ).state.length = 2 ^ 3 ∧
    totalNorm (QubitSystem.new 3 : QubitSystem ℚ).state = 1 :=
  ⟨by decide, by decide, by decide, by decide, by decide,
    (new_and_qreg_reset 3 (fun x => x) (0 : ℚ) ⟨1, [⟨0, 0⟩, ⟨0, 0⟩], [], 1, 0⟩ ['q']).2
      (by decide) (by decide) (by decide) (by decide) (by decide) (by decide),
    ((new_and_qreg_reset 3 (fun x => x) (0 : ℚ) ⟨1, [⟨0, 0⟩, ⟨0, 0⟩], [], 1, 0⟩ ['q']).1
      (by decide)).2.1,
    ((new_and_qreg_reset 3 (fun x => x) (0 : ℚ) ⟨1, [⟨0, 0⟩, ⟨0, 0⟩], [], 1, 0⟩ ['q']).1
      (by decide)).2.2.2.1⟩

/-- C20 fails on the code: on the one-qubit system, the state reached from the initial
state by `applyGate(Gates::pauliX(), 0)` is the zero vector, and `measureQubit(0)` with the
draw `0` then takes its failure branch and returns `-1` as `size_t`. -/
theorem measureQubit_fails_after_pauliX :
    ∃ qs qs' : QubitSystem ℝ,
      applyGate pauliX 0 (QubitSystem.new 1) = some qs ∧
      qs.state = [⟨0, 0⟩, ⟨0, 0⟩] ∧
      measureQubit Real.sqrt 0 (0 : ℝ) qs = some (2 ^ 64 - 1, qs') := by
  have hst : ([0 + ⟨0, 0⟩ * ⟨1, 0⟩ + ⟨1, 0⟩ * ⟨0, 0⟩, 0 + ⟨1, 0⟩ * ⟨0, 0⟩ + ⟨0, 0⟩ * ⟨1, 0⟩] :
      List (Complex ℝ)) = [⟨0, 0⟩, ⟨0, 0⟩] := by
    simp [Complex.ext_iff]
  have hb : bitNorm 1 0 false ([⟨0, 0⟩, ⟨0, 0⟩] : List (Complex ℝ)) = 0 := by
    simp [bitNorm, Finset.sum_range_succ, ampAt, Complex.norm]
  have hb1 : bitNorm 1 0 true ([⟨0, 0⟩, ⟨0, 0⟩] : List (Complex ℝ)) = 0 := by
    simp [bitNorm, Finset.sum_range_succ, ampAt, Complex.norm]
  refine ⟨⟨1, [⟨0, 0⟩, ⟨0, 0⟩], [], -1, -1⟩,
    ⟨1, zeroed 0 true [⟨0, 0⟩, ⟨0, 0⟩], [], -1, -1⟩, ?_, rfl, ?_⟩
  · rw [← hst]; exact applyGate_one_qubit _ _ _ _ _ _ _ _ _
  · rw [measureQubit_eq Real.sqrt 0 (0 : ℝ) ⟨1, [⟨0, 0⟩, ⟨0, 0⟩], [], -1, -1⟩ rfl
      (by decide) 0 0 true hb.symm (by simp) (by rw [hb1]; simp)]
    rw [if_pos (by norm_num)]

/-! ## Product states -/

theorem div_mod_form (a r p : Nat) (hr : r < p) :
    (a * p + r) / p = a ∧ (a * p + r) % p = r := by
  have hp : 0 < p := by omega
  constructor
  · rw [Nat.add_comm, Nat.add_mul_div_right _ _ hp, Nat.div_eq_of_lt hr, Nat.zero_add]
  · rw [Nat.add_comm, Nat.add_mul_mod_self_right, Nat.mod_eq_of_lt hr]

/-- Decomposition of an index around bit `q`, with `p = 2 ^ q`. -/
theorem index_form (i p : Nat) (hp : 0 < p) :
    i = i / (2 * p) * (2 * p) + (i / p % 2 * p + i % p) ∧ i % p < p := by
  have h1 : p * (i / p) + i % p = i := Nat.div_add_mod i p
  have h2 : i / (2 * p) = i / p / 2 := by
    rw [Nat.div_div_eq_div_mul, Nat.mul_comm]
  have h3 : 2 * (i / p / 2) + i / p % 2 = i / p := Nat.div_add_mod (i / p) 2
  refine ⟨?_, Nat.mod_lt i hp⟩
  rw [h2]
  calc i = p * (i / p) + i % p := h1.symm
    _ = p * (2 * (i / p / 2) + i / p % 2) + i % p := by rw [h3]
    _ = i / p / 2 * (2 * p) + (i / p % 2 * p + i % p) := by ring

theorem removeBit_insertBit (j q : Nat) (b : Bool) : removeBit (insertBit j q b) q = j := by
  have hp : 0 < 2 ^ q := Nat.pow_pos (by decide)
  have hr : j % 2 ^ q < 2 ^ q := Nat.mod_lt j hp
  have hj : 2 ^ q * (j / 2 ^ q) + j % 2 ^ q = j := Nat.div_add_mod j (2 ^ q)
  have hlow : (if b then 2 ^ q else 0) + j % 2 ^ q < 2 ^ (q + 1) := by
    rw [Nat.pow_succ]; split <;> omega
  obtain ⟨hd, _⟩ := div_mod_form (j / 2 ^ q) _ (2 ^ (q + 1)) hlow
  have hm : insertBit j q b % 2 ^ q = j % 2 ^ q := by
    unfold insertBit
    cases b
    · simp only [Bool.false_eq_true, if_false, Nat.zero_add, Nat.pow_succ]
      rw [show j / 2 ^ q * (2 ^ q * 2) + j % 2 ^ q = j / 2 ^ q * 2 * 2 ^ q + j % 2 ^ q by ring]
      exact (div_mod_form _ _ _ hr).2
    · simp only [if_true, Nat.pow_succ]
      rw [show j / 2 ^ q * (2 ^ q * 2) + (2 ^ q + j % 2 ^ q) =
        (j / 2 ^ q * 2 + 1) * 2 ^ q + j % 2 ^ q by ring]
      exact (div_mod_form _ _ _ hr).2
  unfold removeBit
  rw [hm]
  unfold insertBit
  rw [hd, Nat.mul_comm]
  exact hj

theorem testBit_insertBit (j q : Nat) (b : Bool) : (insertBit j q b).testBit q = b := by
  have hp : 0 < 2 ^ q := Nat.pow_pos (by decide)
  have hr : j % 2 ^ q < 2 ^ q := Nat.mod_lt j hp
  rw [Nat.testBit_to_div_mod]
  unfold insertBit
  cases b
  · simp only [Bool.false_eq_true, if_false, Nat.zero_add, Nat.pow_succ]
    rw [show j / 2 ^ q * (2 ^ q * 2) + j % 2 ^ q = j / 2 ^ q * 2 * 2 ^ q + j % 2 ^ q by ring,
      (div_mod_form _ _ _ hr).1]
    simp
  · simp only [if_true, Nat.pow_succ]
    rw [show j / 2 ^ q * (2 ^ q * 2) + (2 ^ q + j % 2 ^ q) =
      (j / 2 ^ q * 2 + 1) * 2 ^ q + j % 2 ^ q by ring, (div_mod_form _ _ _ hr).1]
    simp [Nat.add_mod]

theorem insertBit_removeBit (i q : Nat) (b : Bool) (hb : i.testBit q = b) :
    insertBit (removeBit i q) q b = i := by
  have hp : 0 < 2 ^ q := Nat.pow_pos (by decide)
  obtain ⟨hform, hr⟩ := index_form i (2 ^ q) hp
  obtain ⟨hd, hm⟩ := div_mod_form (i / 2 ^ (q + 1)) (i % 2 ^ q) (2 ^ q) hr
  have hbit : (if b then 2 ^ q else 0) = i / 2 ^ q % 2 * 2 ^ q := by
    rw [Nat.testBit_to_div_mod] at hb
    have h2 : i / 2 ^ q % 2 < 2 := Nat.mod_lt _ (by decide)
    cases b
    · have h0 : i / 2 ^ q % 2 = 0 := by
        have : ¬ i / 2 ^ q % 2 = 1 := by simpa using hb
        omega
      simp [h0]
    · have h1 : i / 2 ^ q % 2 = 1 := by simpa using hb
      simp [h1]
  unfold insertBit removeBit
  rw [hd, hm, hbit]
  rw [Nat.pow_succ, Nat.mul_comm (2 ^ q) 2]
  exact hform.symm
theorem block_lt (a r m p : Nat) (ha : a < m) (hr : r < p) : a * p + r < m * p := by
  have h1 : (a + 1) * p ≤ m * p := Nat.mul_le_mul_right p ha
  have h2 : (a + 1) * p = a * p + p := by ring
  omega

theorem removeBit_lt (n q i : Nat) (hq : q < n) (hi : i < 2 ^ n) :
    removeBit i q < 2 ^ (n - 1) := by
  have hp : 0 < 2 ^ q := Nat.pow_pos (by decide)
  have hn : 2 ^ n = 2 ^ (q + 1) * 2 ^ (n - 1 - q) := by
    rw [← Nat.pow_add]; congr 1; omega
  have hn1 : 2 ^ (n - 1) = 2 ^ (n - 1 - q) * 2 ^ q := by
    rw [← Nat.pow_add]; congr 1; omega
  have ha : i / 2 ^ (q + 1) < 2 ^ (n - 1 - q) :=
    Nat.div_lt_of_lt_mul (by rw [← hn]; exact hi)
  rw [hn1]
  exact block_lt _ _ _ _ ha (Nat.mod_lt i hp)

theorem insertBit_lt (n q j : Nat) (b : Bool) (hq : q < n) (hj : j < 2 ^ (n - 1)) :
    insertBit j q b < 2 ^ n := by
  have hp : 0 < 2 ^ q := Nat.pow_pos (by decide)
  have hr : j % 2 ^ q < 2 ^ q := Nat.mod_lt j hp
  have hn : 2 ^ n = 2 ^ (n - 1 - q) * 2 ^ (q + 1) := by
    rw [← Nat.pow_add]; congr 1; omega
  have hn1 : 2 ^ (n - 1) = 2 ^ q * 2 ^ (n - 1 - q) := by
    rw [← Nat.pow_add]; congr 1; omega
  have ha : j / 2 ^ q < 2 ^ (n - 1 - q) :=
    Nat.div_lt_of_lt_mul (by rw [← hn1]; exact hj)
  have hlow : (if b then 2 ^ q else 0) + j % 2 ^ q < 2 ^ (q + 1) := by
    rw [Nat.pow_succ]; split <;> omega
  rw [hn]
  exact block_lt _ _ _ _ ha hlow

/-- Summing over the indices below `2 ^ n` whose bit `q` is `b` amounts to summing over all
indices of the remaining `n - 1` qubits. -/
theorem sum_removeBit (n q : Nat) (b : Bool) (hq : q < n) (f : Nat → K) :
    (∑ i ∈ Finset.range (2 ^ n), if i.testBit q = b then f (removeBit i q) else 0) =
      ∑ j ∈ Finset.range (2 ^ (n - 1)), f j := by
  rw [← Finset.sum_filter]
  apply Finset.sum_nbij' (fun i => removeBit i q) (fun j => insertBit j q b)
  · intro i hi
    rw [Finset.mem_filter, Finset.mem_range] at hi
    exact Finset.mem_range.mpr (removeBit_lt n q i hq hi.1)
  · intro j hj
    rw [Finset.mem_filter, Finset.mem_range]
    exact ⟨insertBit_lt n q j b hq (Finset.mem_range.mp hj), testBit_insertBit j q b⟩
  · intro i hi
    rw [Finset.mem_filter] at hi
    exact insertBit_removeBit i q b hi.2
  · intro j _
    exact removeBit_insertBit j q b
  · intro i _
    rfl
theorem bitSum_product (n q : Nat) (b : Bool) (hq : q < n) (c0 c1 : Complex K)
    (rest state : List (Complex K)) (hprod : IsProduct n q c0 c1 rest state) :
    bitSum state.length q b state = (if b then c1 else c0) * ampSum rest := by
  obtain ⟨hlen, hrest, hamp⟩ := hprod
  have hterm : ∀ (g : Complex K → K) (i : Nat), i ∈ Finset.range (2 ^ n) →
      (if i.testBit q = b then g (ampAt state i) else 0) =
      (if i.testBit q = b then
        (fun j => g ((if b then c1 else c0) * ampAt rest j)) (removeBit i q) else 0) := by
    intro g i hi
    by_cases h : i.testBit q = b
    · rw [if_pos h, if_pos h, hamp i (Finset.mem_range.mp hi), h]
    · rw [if_neg h, if_neg h]
  rw [hlen]
  apply Complex.ext
  · show (∑ i ∈ Finset.range (2 ^ n), if i.testBit q = b then (ampAt state i).re else 0) = _
    rw [Finset.sum_congr rfl (hterm (fun z => z.re)),
      sum_removeBit n q b hq (fun j => ((if b then c1 else c0) * ampAt rest j).re)]
    simp only [Complex.mul_re, ampSum, hrest, Finset.sum_sub_distrib, Finset.mul_sum]
  · show (∑ i ∈ Finset.range (2 ^ n), if i.testBit q = b then (ampAt state i).im else 0) = _
    rw [Finset.sum_congr rfl (hterm (fun z => z.im)),
      sum_removeBit n q b hq (fun j => ((if b then c1 else c0) * ampAt rest j).im)]
    simp only [Complex.mul_im, ampSum, hrest, Finset.sum_add_distrib, Finset.mul_sum]

theorem Complex.norm_mul (a b : Complex K) : (a * b).norm = a.norm * b.norm := by
  simp only [Complex.norm, Complex.mul_re, Complex.mul_im]
  ring

/-- C21, amended: for every `N`, every qubit index below `N` and every state that is the
tensor product of a unit single-qubit state `chi = (c0, c1)` on that qubit and a state of
the remaining qubits whose amplitudes have a sum of modulus at least `1e-8`,
`getQubitState(index)` is `chi` up to a global phase: `fidelityWith(chi, index) = 1`. -/
theorem fidelityWith_product_state (sqrt : K → K) (hs : IsSqrt sqrt) (q : Nat)
    (c0 c1 : Complex K) (rest : List (Complex K)) (qs : QubitSystem K)
    (hq : q < qs.nQubits) (hunit : c0.norm + c1.norm = 1)
    (hprod : IsProduct qs.nQubits q c0 c1 rest qs.state)
    (hsum : ¬ sqrt (ampSum rest).norm < 1e-8) :
    fidelityWith sqrt [c0, c1] q qs = 1 := by
  have h0 := bitSum_product qs.nQubits q false hq c0 c1 rest qs.state hprod
  have h1 := bitSum_product qs.nQubits q true hq c0 c1 rest qs.state hprod
  simp only [Bool.false_eq_true, if_false, if_true] at h0 h1
  have hn : (c0 * ampSum rest).norm + (c1 * ampSum rest).norm = (ampSum rest).norm := by
    rw [Complex.norm_mul, Complex.norm_mul, ← add_mul, hunit, one_mul]
  have hstate : getQubitState sqrt q qs =
      [(c0 * ampSum rest).divReal (sqrt (ampSum rest).norm),
       (c1 * ampSum rest).divReal (sqrt (ampSum rest).norm)] := by
    rw [getQubitState_eq, h0, h1, hn, if_neg hsum]
  rw [fidelityWith_two sqrt c0 c1 _ _ q qs hstate]
  obtain ⟨_, hsq⟩ := hs _ (Complex.norm_nonneg (ampSum rest))
  have hpos : (0 : K) < sqrt (ampSum rest).norm :=
    lt_of_lt_of_le (by norm_num) (not_lt.mp hsum)
  have hne : sqrt (ampSum rest).norm ≠ 0 := ne_of_gt hpos
  have hu : c0.re * c0.re + c0.im * c0.im + (c1.re * c1.re + c1.im * c1.im) = 1 := hunit
  have hS : (ampSum rest).re * (ampSum rest).re + (ampSum rest).im * (ampSum rest).im =
      sqrt (ampSum rest).norm * sqrt (ampSum rest).norm := hsq.symm
  have hinner : c0.conj * (c0 * ampSum rest).divReal (sqrt (ampSum rest).norm) +
      c1.conj * (c1 * ampSum rest).divReal (sqrt (ampSum rest).norm) =
      (ampSum rest).divReal (sqrt (ampSum rest).norm) := by
    apply Complex.ext
    · simp only [Complex.add_re, Complex.mul_re, Complex.mul_im, Complex.conj, Complex.divReal]
      field_simp
      linear_combination (ampSum rest).re * hu
    · simp only [Complex.add_im, Complex.mul_re, Complex.mul_im, Complex.conj, Complex.divReal]
      field_simp
      linear_combination (ampSum rest).im * hu
  rw [hinner, Complex.norm_divReal, hsq]
  have hmul := mul_pos hpos hpos
  rw [hsq] at hmul
  exact div_self (ne_of_gt hmul)
/-- C21 as stated fails: the three-qubit state `(0, 1/2, 0, -1/2, 0, 1/2, 0, -1/2)` is the
tensor product of the unit state `chi = (0, 1)` on qubit 0 and the unit state
`(1/2, -1/2, 1/2, -1/2)` on the other two qubits, whose amplitudes sum to zero; both sums
of `getQubitState(0)` vanish, it returns the default `(1, 0)`, and
`fidelityWith(chi, 0)` is `0`, not `1`. -/
theorem fidelityWith_product_state_zero_sum :
    (0 : Nat) < 3 ∧
    (⟨0, 0⟩ : Complex ℝ).norm + (⟨1, 0⟩ : Complex ℝ).norm = 1 ∧
    totalNorm ([⟨1 / 2, 0⟩, ⟨-(1 / 2), 0⟩, ⟨1 / 2, 0⟩, ⟨-(1 / 2), 0⟩] : List (Complex ℝ)) = 1 ∧
    IsProduct 3 0 (⟨0, 0⟩ : Complex ℝ) ⟨1, 0⟩
      [⟨1 / 2, 0⟩, ⟨-(1 / 2), 0⟩, ⟨1 / 2, 0⟩, ⟨-(1 / 2), 0⟩]
      [⟨0, 0⟩, ⟨1 / 2, 0⟩, ⟨0, 0⟩, ⟨-(1 / 2), 0⟩, ⟨0, 0⟩, ⟨1 / 2, 0⟩, ⟨0, 0⟩, ⟨-(1 / 2), 0⟩] ∧
    getQubitState Real.sqrt 0
      (⟨3, [⟨0, 0⟩, ⟨1 / 2, 0⟩, ⟨0, 0⟩, ⟨-(1 / 2), 0⟩, ⟨0, 0⟩, ⟨1 / 2, 0⟩, ⟨0, 0⟩,
        ⟨-(1 / 2), 0⟩], [], -1, -1⟩ : QubitSystem ℝ) = [⟨1, 0⟩, ⟨0, 0⟩] ∧
    fidelityWith Real.sqrt [⟨0, 0⟩, ⟨1, 0⟩] 0
      (⟨3, [⟨0, 0⟩, ⟨1 / 2, 0⟩, ⟨0, 0⟩, ⟨-(1 / 2), 0⟩, ⟨0, 0⟩, ⟨1 / 2, 0⟩, ⟨0, 0⟩,
        ⟨-(1 / 2), 0⟩], [], -1, -1⟩ : QubitSystem ℝ) = 0 ∧
    (0 : ℝ) ≠ 1 := by
  have hstate : getQubitState Real.sqrt 0
      (⟨3, [⟨0, 0⟩, ⟨1 / 2, 0⟩, ⟨0, 0⟩, ⟨-(1 / 2), 0⟩, ⟨0, 0⟩, ⟨1 / 2, 0⟩, ⟨0, 0⟩,
        ⟨-(1 / 2), 0⟩], [], -1, -1⟩ : QubitSystem ℝ) = [⟨1, 0⟩, ⟨0, 0⟩] := by
    have h0 : bitSum 8 0 false ([⟨0, 0⟩, ⟨1 / 2, 0⟩, ⟨0, 0⟩, ⟨-(1 / 2), 0⟩, ⟨0, 0⟩,
        ⟨1 / 2, 0⟩, ⟨0, 0⟩, ⟨-(1 / 2), 0⟩] : List (Complex ℝ)) = ⟨0, 0⟩ := by
      simp [bitSum, Finset.sum_range_succ, ampAt, testBit_facts]
    have h1 : bitSum 8 0 true ([⟨0, 0⟩, ⟨1 / 2, 0⟩, ⟨0, 0⟩, ⟨-(1 / 2), 0⟩, ⟨0, 0⟩,
        ⟨1 / 2, 0⟩, ⟨0, 0⟩, ⟨-(1 / 2), 0⟩] : List (Complex ℝ)) = ⟨0, 0⟩ := by
      simp [bitSum, Finset.sum_range_succ, ampAt, testBit_facts]
    rw [getQubitState_eq]
    simp only [List.length_cons, List.length_nil]
    rw [h0, h1]
    have hn : (⟨0, 0⟩ : Complex ℝ).norm + (⟨0, 0⟩ : Complex ℝ).norm = 0 := by
      simp [Complex.norm]
    rw [hn, Real.sqrt_zero, if_pos (by norm_num)]
  refine ⟨by decide, by simp [Complex.norm], by norm_num [totalNorm, Complex.norm],
    ⟨rfl, rfl, ?_⟩, hstate, ?_, by norm_num⟩
  · intro i hi
    have h8 : i < 8 := hi
    interval_cases i <;>
      simp [ampAt, removeBit, testBit_facts, Complex.ext_iff]
  · rw [fidelityWith_two Real.sqrt _ _ _ _ 0 _ hstate]
    simp [Complex.norm, Complex.conj]

theorem fidelityWith_product_state_witness :
    IsSqrt Real.sqrt ∧ (1 : Nat) < 2 ∧
    (⟨3 / 5, 0⟩ : Complex ℝ).norm + (⟨0, 4 / 5⟩ : Complex ℝ).norm = 1 ∧
    IsProduct 2 1 (⟨3 / 5, 0⟩ : Complex ℝ) ⟨0, 4 / 5⟩ [⟨1, 0⟩, ⟨0, 0⟩]
      [⟨3 / 5, 0⟩, ⟨0, 0⟩, ⟨0, 4 / 5⟩, ⟨0, 0⟩] ∧
    ¬ Real.sqrt (ampSum ([⟨1, 0⟩, ⟨0, 0⟩] : List (Complex ℝ))).norm < 1e-8 ∧
    fidelityWith Real.sqrt [⟨3 / 5, 0⟩, ⟨0, 4 / 5⟩] 1
      (⟨2, [⟨3 / 5, 0⟩, ⟨0, 0⟩, ⟨0, 4 / 5⟩, ⟨0, 0⟩], [], -1, -1⟩ : QubitSystem ℝ) = 1 := by
  have hunit : (⟨3 / 5, 0⟩ : Complex ℝ).norm + (⟨0, 4 / 5⟩ : Complex ℝ).norm = 1 := by
    norm_num [Complex.norm]
  have hprod : IsProduct 2 1 (⟨3 / 5, 0⟩ : Complex ℝ) ⟨0, 4 / 5⟩ [⟨1, 0⟩, ⟨0, 0⟩]
      [⟨3 / 5, 0⟩, ⟨0, 0⟩, ⟨0, 4 / 5⟩, ⟨0, 0⟩] := by
    refine ⟨rfl, rfl, ?_⟩
    intro i hi
    have h4 : i < 4 := hi
    interval_cases i <;>
      simp [ampAt, removeBit, testBit_facts, Complex.ext_iff]
  have hsum : ¬ Real.sqrt (ampSum ([⟨1, 0⟩, ⟨0, 0⟩] : List (Complex ℝ))).norm < 1e-8 := by
    have : (ampSum ([⟨1, 0⟩, ⟨0, 0⟩] : List (Complex ℝ))).norm = 1 := by
      simp [ampSum, Finset.sum_range_succ, ampAt, Complex.norm]
    rw [this, Real.sqrt_one]
    norm_num
  exact ⟨isSqrt_real, by decide, hunit, hprod, hsum,
    fidelityWith_product_state Real.sqrt isSqrt_real 1 ⟨3 / 5, 0⟩ ⟨0, 4 / 5⟩ [⟨1, 0⟩, ⟨0, 0⟩]
      ⟨2, [⟨3 / 5, 0⟩, ⟨0, 0⟩, ⟨0, 4 / 5⟩, ⟨0, 0⟩], [], -1, -1⟩ (by decide) hunit hprod hsum⟩

end QS
